import Mathlib

/-!
# Binary-Tree (`tree.h`): a store-passing embedding

`Node<T>` objects live in a store of cells; a `std::shared_ptr<Node<T>>` is an
optional cell address (`none` is `nullptr`), `std::make_shared` appends a new cell.
Every member function of `Node` takes the address of `this`; a call through a
null pointer is the fault `Res.nullDeref`.  Recursion over the store is bounded
by a fuel argument; running out of it is the separate outcome `Res.outOfFuel`.
The store also carries a ghost log of the `transform` invocations.
-/

namespace BinaryTree

/-- A `std::shared_ptr<Node<T>>`: `none` is `nullptr`, `some a` the cell at address `a`. -/
abbrev Ptr := Option Nat

/-- The fields of `Node<T>` (tree.h, lines 17-23). -/
structure Node (T : Type) where
  value : T
  left : Ptr
  right : Ptr
  isLazy : Bool
  isValueSet : Bool
  nodeToGetValueFrom : Ptr
  transform : T → T

/-- The store: the cells allocated so far, and the log of the calls of a `transform` made so
far: the address of the cell whose `transform` was called, in the order of the calls (a ghost
field, written only in `getValue`). -/
structure Store (T : Type) where
  cells : List (Node T)
  calls : List Nat

/-- Outcome of a run: a result, a dereference of a null pointer, or fuel exhausted. -/
inductive Res (α : Type) where
  | ok (a : α) : Res α
  | nullDeref : Res α
  | outOfFuel : Res α
  deriving DecidableEq, Repr

/-- Sequencing of runs; faults propagate. -/
def Res.bind {α β : Type} (x : Res α) (f : α → Res β) : Res β :=
  match x with
  | .ok a => f a
  | .nullDeref => .nullDeref
  | .outOfFuel => .outOfFuel

instance : Monad Res where
  pure := Res.ok
  bind := Res.bind

variable {T : Type}

/-- Read the cell of `this`. -/
def load (s : Store T) (self : Nat) : Res (Node T) :=
  match s.cells[self]? with
  | some n => .ok n
  | none => .nullDeref

/-- Overwrite the cell at `self`. -/
def put (s : Store T) (self : Nat) (n : Node T) : Store T :=
  { s with cells := s.cells.set self n }

/-- The allocation of `std::make_shared<Node<T>>(...)`: the new cell goes to the end of the
store. -/
def alloc (s : Store T) (n : Node T) : Ptr × Store T :=
  (some s.cells.length, { s with cells := s.cells ++ [n] })

/-- A member call `p->m(...)`: a fault when `p` is null. -/
def callOn {α : Type} (p : Ptr) (m : Nat → Res α) : Res α :=
  match p with
  | none => .nullDeref
  | some a => m a

/-- Constructor `Node(T val)` (line 38); the empty `std::function` is never called on a
non-lazy node and is rendered as the identity. -/
def Node.mkLeaf (val : T) : Node T :=
  { value := val, left := none, right := none, isLazy := false, isValueSet := false,
    nodeToGetValueFrom := none, transform := fun v => v }

/-- Constructor `Node(T val, myNode leftNode, myNode rightNode)` (line 41). -/
def Node.mkValue (val : T) (leftNode rightNode : Ptr) : Node T :=
  { value := val, left := leftNode, right := rightNode, isLazy := false, isValueSet := false,
    nodeToGetValueFrom := none, transform := fun v => v }

/-- Constructor `Node(myNode leftNode, myNode rightNode, bool lazy, trans, myNode node)`
(line 50); `value` is default-initialised. -/
def Node.mkLazy [Inhabited T] (leftNode rightNode : Ptr) (lazy : Bool) (trans : T → T)
    (node : Ptr) : Node T :=
  { value := default, left := leftNode, right := rightNode, isLazy := lazy, isValueSet := false,
    nodeToGetValueFrom := node, transform := trans }

/-- Member function `Node::getValue` (lines 25-31). -/
def getValue : Nat → Store T → Nat → Res (T × Store T)
  | 0, _, _ => .outOfFuel
  | fuel + 1, s, self => do
    let n ← load s self
    if n.isLazy && !n.isValueSet then
      let (w, s1) ← callOn n.nodeToGetValueFrom (getValue fuel s)
      let m ← load s1 self
      let v := m.transform w
      let s2 : Store T :=
        { cells := s1.cells.set self { m with value := v, isValueSet := true },
          calls := s1.calls ++ [self] }
      pure (v, s2)
    else
      pure (n.value, s)

/-- Member function `Node::insertIntoRight` (lines 33-35), with the test as it is written:
the recursive call is made when `right` IS null. -/
def insertIntoRight : Nat → Store T → Nat → Ptr → Res (Store T)
  | 0, _, _, _ => .outOfFuel
  | fuel + 1, s, self, node => do
    let n ← load s self
    if n.right = none then
      callOn n.right (fun r => insertIntoRight fuel s r node)
    else
      pure (put s self { n with right := node })

/-- Member function `Node::fold` (lines 56-63).  `operation` may allocate (as the one of
`makeCopy` does), so it takes and returns the store.  C++ leaves the order in which the
three arguments are evaluated open; here the fields are read right after `getValue()` and
the left child is folded before the right one. -/
def Node.fold {H : Type} (operation : T → H → H → Store T → H × Store T) (init : H) :
    Nat → Store T → Nat → Res (H × Store T)
  | 0, _, _ => .outOfFuel
  | fuel + 1, s, self => do
    let (_, s1) ← getValue fuel s self
    let n ← load s1 self
    let (l, s2) ← match n.left with
      | none => pure (init, s1)
      | some a => Node.fold operation init fuel s1 a
    let (r, s3) ← match n.right with
      | none => pure (init, s2)
      | some a => Node.fold operation init fuel s2 a
    pure (operation n.value l r s3)

/-- Member function `Node::noValFold` (lines 65-70); a `const` member, the store is only read. -/
def Node.noValFold {H : Type} (operation : H → H → H) (init : H) :
    Nat → Store T → Nat → Res H
  | 0, _, _ => .outOfFuel
  | fuel + 1, s, self => do
    let n ← load s self
    let l ← match n.left with
      | none => pure init
      | some a => Node.noValFold operation init fuel s a
    let r ← match n.right with
      | none => pure init
      | some a => Node.noValFold operation init fuel s a
    pure (operation l r)

/-- Member function `Node::filter` (lines 72-86). -/
def Node.filter (predicate : T → Bool) : Nat → Store T → Nat → Ptr → Res (Ptr × Store T)
  | 0, _, _, _ => .outOfFuel
  | fuel + 1, s, self, you => do
    let (v, s1) ← getValue fuel s self
    if predicate v then
      let n ← load s1 self
      let s2 ← match n.right with
        | none => pure s1
        | some r => do
          let (r', t) ← Node.filter predicate fuel s1 r n.right
          let m ← load t self
          pure (put t self { m with right := r' })
      let n2 ← load s2 self
      let s3 ← match n2.left with
        | none => pure s2
        | some l => do
          let (l', t) ← Node.filter predicate fuel s2 l n2.left
          let m ← load t self
          pure (put t self { m with left := l' })
      pure (you, s3)
    else
      let n ← load s1 self
      let s2 ← match n.left with
        | none => pure (put s1 self { n with left := n.right })
        | some l => insertIntoRight fuel s1 l n.right
      let n2 ← load s2 self
      pure (n2.left, s2)

/-- Member function `Node::apply` (lines 88-92).  `operation` receives the value by
reference and may also update what its closure captured by reference: it maps the value and
the captured state to the new value and the new captured state. -/
def Node.apply {C : Type} (operation : T → C → T × C) (fuel : Nat) (s : Store T) (self : Nat)
    (c : C) : Res (C × Store T) := do
  let (_, s1) ← getValue fuel s self
  let n ← load s1 self
  let (v, c1) := operation n.value c
  pure (c1, put s1 self { n with value := v })

/-- Member function `Node::makeCopy` (lines 94-100). -/
def Node.makeCopy (fuel : Nat) (s : Store T) (self : Nat) : Res (Ptr × Store T) :=
  Node.fold (fun val left right st => alloc st (Node.mkValue val left right)) none fuel s self

/-- Member function `Node::makeLazyCopy` (lines 102-108). -/
def Node.makeLazyCopy [Inhabited T] (trans : T → T) :
    Nat → Store T → Nat → Ptr → Res (Ptr × Store T)
  | 0, _, _, _ => .outOfFuel
  | fuel + 1, s, self, you => do
    let n ← load s self
    let (l, s1) ← match n.left with
      | none => pure (none, s)
      | some a => Node.makeLazyCopy trans fuel s a n.left
    let (r, s2) ← match n.right with
      | none => pure (none, s1)
      | some a => Node.makeLazyCopy trans fuel s1 a n.right
    pure (alloc s2 (Node.mkLazy l r true trans you))

/-- Member function `Node::preorder` (lines 110-118). -/
def Node.preorder : Nat → Store T → Nat → Ptr → Res (List Ptr)
  | 0, _, _, _ => .outOfFuel
  | fuel + 1, s, self, you => do
    let n ← load s self
    let leftVector ← match n.left with
      | none => pure []
      | some a => Node.preorder fuel s a n.left
    let rightVector ← match n.right with
      | none => pure []
      | some a => Node.preorder fuel s a n.right
    pure (([you] ++ leftVector) ++ rightVector)

/-- Member function `Node::postorder` (lines 120-126). -/
def Node.postorder : Nat → Store T → Nat → Ptr → Res (List Ptr)
  | 0, _, _, _ => .outOfFuel
  | fuel + 1, s, self, you => do
    let n ← load s self
    let leftVector ← match n.left with
      | none => pure []
      | some a => Node.postorder fuel s a n.left
    let rightVector ← match n.right with
      | none => pure []
      | some a => Node.postorder fuel s a n.right
    pure ((leftVector ++ rightVector) ++ [you])

/-- Member function `Node::inorder` (lines 128-135). -/
def Node.inorder : Nat → Store T → Nat → Ptr → Res (List Ptr)
  | 0, _, _, _ => .outOfFuel
  | fuel + 1, s, self, you => do
    let n ← load s self
    let leftVector ← match n.left with
      | none => pure []
      | some a => Node.inorder fuel s a n.left
    let rightVector ← match n.right with
      | none => pure []
      | some a => Node.inorder fuel s a n.right
    pure ((leftVector ++ [you]) ++ rightVector)

/-! ## `Tree<T>`: a handle on an optional root -/

/-- Member function `Tree::inorder` (lines 154-156). -/
def Tree.inorder (fuel : Nat) (s : Store T) (node : Ptr) : Res (List Ptr) :=
  match node with
  | some a => Node.inorder fuel s a node
  | none => pure []

/-- Member function `Tree::postorder` (lines 158-160). -/
def Tree.postorder (fuel : Nat) (s : Store T) (node : Ptr) : Res (List Ptr) :=
  match node with
  | some a => Node.postorder fuel s a node
  | none => pure []

/-- Member function `Tree::preorder` (lines 162-164). -/
def Tree.preorder (fuel : Nat) (s : Store T) (node : Ptr) : Res (List Ptr) :=
  match node with
  | some a => Node.preorder fuel s a node
  | none => pure []

/-- Member function `Tree::createEmptyNode` (lines 166-168). -/
def Tree.createEmptyNode : Ptr := none

/-- Member function `Tree::createValueNode(T value)` (lines 170-172). -/
def Tree.createValueNode (s : Store T) (value : T) : Ptr × Store T :=
  alloc s (Node.mkLeaf value)

/-- Member function `Tree::createValueNode(T value, myNode left, myNode right)` (lines 174-176). -/
def Tree.createValueNode3 (s : Store T) (value : T) (left right : Ptr) : Ptr × Store T :=
  alloc s (Node.mkValue value left right)

/-- Member function `Tree::fold` (lines 178-181). -/
def Tree.fold {H : Type} (operation : T → H → H → Store T → H × Store T) (init : H)
    (fuel : Nat) (s : Store T) (root : Ptr) : Res (H × Store T) :=
  match root with
  | some a => Node.fold operation init fuel s a
  | none => pure (init, s)

/-- Member function `Tree::noValFold` (lines 183-186). -/
def Tree.noValFold {H : Type} (operation : H → H → H) (init : H)
    (fuel : Nat) (s : Store T) (root : Ptr) : Res H :=
  match root with
  | some a => Node.noValFold operation init fuel s a
  | none => pure init

/-- Member function `Tree::filter` (lines 188-196). -/
def Tree.filter (predicate : T → Bool) (fuel : Nat) (s : Store T) (root : Ptr) :
    Res (Ptr × Store T) :=
  match root with
  | some a => do
    let (newRoot, s1) ← Node.makeCopy fuel s a
    callOn newRoot (fun b => Node.filter predicate fuel s1 b newRoot)
  | none => pure (none, s)

/-- The loop `for (auto node: nodes) node->apply(operation);` of `Tree::apply`. -/
def Tree.applyLoop {C : Type} (operation : T → C → T × C) (fuel : Nat) :
    Store T → List Ptr → C → Res (C × Store T)
  | s, [], c => pure (c, s)
  | s, node :: rest, c => do
    let (c1, s1) ← callOn node (fun a => Node.apply operation fuel s a c)
    Tree.applyLoop operation fuel s1 rest c1

/-- Member function `Tree::apply` (lines 220-227). -/
def Tree.apply {C : Type} (operation : T → C → T × C)
    (traversal : Nat → Store T → Ptr → Res (List Ptr))
    (fuel : Nat) (s : Store T) (root : Ptr) (c : C) : Res (C × Store T) := do
  let nodes ← traversal fuel s root
  Tree.applyLoop operation fuel s nodes c

/-- Member function `Tree::map` (lines 198-204). -/
def Tree.map (transformer : T → T) (fuel : Nat) (s : Store T) (root : Ptr) :
    Res (Ptr × Store T) := do
  let (res, s1) ← match root with
    | some a => Node.makeCopy fuel s a
    | none => pure (none, s)
  let (_, s2) ←
    Tree.apply (fun val (u : Unit) => (transformer val, u)) Tree.inorder fuel s1 res ()
  pure (res, s2)

/-- Member function `Tree::lazy_map` (lines 206-210). -/
def Tree.lazy_map [Inhabited T] (transformer : T → T) (fuel : Nat) (s : Store T) (root : Ptr) :
    Res (Ptr × Store T) :=
  match root with
  | some a => Node.makeLazyCopy transformer fuel s a root
  | none => pure (none, s)

/-- Member function `Tree::accumulate` (lines 212-218). -/
def Tree.accumulate (operation : T → T → T) (init : T)
    (traversal : Nat → Store T → Ptr → Res (List Ptr))
    (fuel : Nat) (s : Store T) (root : Ptr) : Res (T × Store T) :=
  Tree.apply (fun value acc => (value, operation acc value)) traversal fuel s root init

/-- Member function `Tree::height` (lines 229-233); `size_t` is rendered as `Nat`: a height
is bounded by the number of cells of the store. -/
def Tree.height (fuel : Nat) (s : Store T) (root : Ptr) : Res Nat :=
  Tree.noValFold (fun h1 h2 => max h1 h2 + 1) 0 fuel s root

/-- Member function `Tree::size` (lines 235-238); `size_t` is rendered as `Nat`. -/
def Tree.size (fuel : Nat) (s : Store T) (root : Ptr) : Res Nat :=
  Tree.noValFold (fun s1 s2 => s1 + s2 + 1) 0 fuel s root

/-- The lambda of `Tree::is_bst` (lines 241-293) on the tuple
`(isBst, max, min, isNull)`. -/
def Tree.isBstStep [LinearOrder T] (val : T) (left right : Bool × T × T × Bool) :
    Bool × T × T × Bool :=
  let areSonsBST := left.1 && right.1
  let leftMin := if left.2.2.2 then val else left.2.2.1
  let leftMax := if left.2.2.2 then val else left.2.1
  let isLeftSmaller := if left.2.2.2 then true else decide (left.2.1 < val)
  let rightMin := if right.2.2.2 then val else right.2.2.1
  let rightMax := if right.2.2.2 then val else right.2.1
  let isRightBigger := if right.2.2.2 then true else decide (right.2.2.1 > val)
  let myMax :=
    if leftMax > rightMax then (if val > leftMax then val else leftMax)
    else (if val > rightMax then val else rightMax)
  let myMin :=
    if leftMin < rightMin then (if val < leftMin then val else leftMin)
    else (if val > rightMin then val else rightMin)
  (areSonsBST && isLeftSmaller && isRightBigger, myMax, myMin, false)

/-- Member function `Tree::is_bst` (lines 240-297). -/
def Tree.is_bst [LinearOrder T] [Inhabited T] (fuel : Nat) (s : Store T) (root : Ptr) :
    Res (Bool × Store T) := do
  let (res, s1) ← Tree.fold (fun val left right st => (Tree.isBstStep val left right, st))
    (true, default, default, true) fuel s root
  pure (res.1, s1)

/-- Member function `Tree::print(traversal)` (lines 299-303): the values written to the
output stream, in the order in which they are written. -/
def Tree.print (traversal : Nat → Store T → Ptr → Res (List Ptr))
    (fuel : Nat) (s : Store T) (root : Ptr) : Res (List T × Store T) :=
  Tree.apply (fun value out => (value, out ++ [value])) traversal fuel s root []

/-! ## The abstract view of a store -/

/-- Binary trees as mathematical objects: what a pointer into the store unfolds to. -/
inductive BT (α : Type) where
  | nil : BT α
  | node (l : BT α) (a : α) (r : BT α) : BT α
  deriving DecidableEq, Repr

/-- Relabel every node. -/
def BT.map {α β : Type} (f : α → β) : BT α → BT β
  | .nil => .nil
  | .node l a r => .node (BT.map f l) (f a) (BT.map f r)

/-- Labels, left subtree first, then the node, then the right subtree. -/
def BT.inorder {α : Type} : BT α → List α
  | .nil => []
  | .node l a r => (BT.inorder l ++ [a]) ++ BT.inorder r

/-- Labels, node first. -/
def BT.preorder {α : Type} : BT α → List α
  | .nil => []
  | .node l a r => ([a] ++ BT.preorder l) ++ BT.preorder r

/-- Labels, node last. -/
def BT.postorder {α : Type} : BT α → List α
  | .nil => []
  | .node l a r => (BT.postorder l ++ BT.postorder r) ++ [a]

/-- Number of nodes. -/
def BT.size {α : Type} : BT α → Nat
  | .nil => 0
  | .node l _ r => BT.size l + BT.size r + 1

/-- Bottom-up reduction with the node label. -/
def BT.fold {α H : Type} (op : α → H → H → H) (init : H) : BT α → H
  | .nil => init
  | .node l a r => op a (BT.fold op init l) (BT.fold op init r)

/-- The value tree of a tree of (address, value) pairs. -/
def BT.vals {T : Type} (t : BT (Nat × T)) : BT T := BT.map Prod.snd t

/-- The address tree of a tree of (address, value) pairs. -/
def BT.addrs {T : Type} (t : BT (Nat × T)) : BT Nat := BT.map Prod.fst t

/-- A cell whose value can be read without calling `transform`. -/
def Node.resolved (n : Node T) : Bool := !(n.isLazy && !n.isValueSet)

/-- Relation `Val s a v`: the value that `getValue` resolves the cell `a` to is `v`. -/
inductive Val (s : Store T) : Nat → T → Prop where
  | stored {a : Nat} {n : Node T} :
      s.cells[a]? = some n → n.resolved = true → Val s a n.value
  | deferred {a : Nat} {n : Node T} {src : Nat} {w : T} :
      s.cells[a]? = some n → n.resolved = false → n.nodeToGetValueFrom = some src →
      Val s src w → Val s a (n.transform w)

/-- Relation `Rep s p t`: in the store `s` the pointer `p` unfolds to the tree `t`, whose labels are
the address of each node and the value it resolves to. -/
def Rep (s : Store T) : Ptr → BT (Nat × T) → Prop
  | p, .nil => p = none
  | p, .node l av r => p = some av.1 ∧ ∃ n, s.cells[av.1]? = some n ∧ Val s av.1 av.2 ∧
      Rep s n.left l ∧ Rep s n.right r

/-- Relation `Ext s s1`: `s1` is `s` after allocations and cache fills: every cell of `s` is still
there with the same links, resolved cells are untouched and every cell resolves to the same
value. -/
structure Ext (s s1 : Store T) : Prop where
  len : s.cells.length ≤ s1.cells.length
  links : ∀ (a : Nat) (n : Node T), s.cells[a]? = some n → ∃ m : Node T,
    s1.cells[a]? = some m ∧ m.left = n.left ∧
    m.right = n.right ∧ m.isLazy = n.isLazy ∧ m.nodeToGetValueFrom = n.nodeToGetValueFrom ∧
    m.transform = n.transform ∧ (n.resolved = true → m = n)
  val : ∀ (a : Nat) (v : T), Val s a v → Val s1 a v

/-- The BST property: at every node, all values of the left subtree are strictly less than
the value of the node and all values of the right subtree are strictly greater. -/
def BT.IsBST [LinearOrder T] : BT T → Prop
  | .nil => True
  | .node l v r => (∀ x ∈ BT.inorder l, x < v) ∧ (∀ x ∈ BT.inorder r, v < x) ∧
      BT.IsBST l ∧ BT.IsBST r

/-- The reference algorithm named by the specification, written from its words: the
classic recursive check with an optional lower and an optional upper bound. -/
def BT.boundCheck [LinearOrder T] : Option T → Option T → BT T → Bool
  | _, _, .nil => true
  | lo, hi, .node l v r =>
    (match lo with | none => true | some a => decide (a < v)) &&
    (match hi with | none => true | some b => decide (v < b)) &&
    BT.boundCheck lo (some v) l && BT.boundCheck (some v) hi r

/-- The label at a position, a position being the path from the root (`false` goes left,
`true` goes right). -/
def BT.get? {α : Type} : BT α → List Bool → Option α
  | .nil, _ => none
  | .node _ a _, [] => some a
  | .node l _ _, false :: p => BT.get? l p
  | .node _ _ r, true :: p => BT.get? r p

/-- What the tuple `(isBst, max, min, isNull)` computed by the fold of `is_bst` says about
the values `xs` of the subtree it was computed for: the null marker is set exactly for the
empty subtree, `max` is the greatest value, and `min` is the least value when `isBst` is set. -/
def Summary [LinearOrder T] (X : Bool × T × T × Bool) (xs : List T) : Prop :=
  (X.2.2.2 = true ∧ xs = []) ∨
  (X.2.2.2 = false ∧ X.2.1 ∈ xs ∧ (∀ x ∈ xs, x ≤ X.2.1) ∧
    (X.1 = true → X.2.2.1 ∈ xs ∧ ∀ x ∈ xs, X.2.2.1 ≤ x))

/-- The store holding the tree `(5,(3,_,_),(8,(2,_,_),_))`, root at address 3. -/
def exStore : Store Nat :=
  ⟨[Node.mkLeaf 3, Node.mkLeaf 2, Node.mkValue 8 (some 1) none,
    Node.mkValue 5 (some 0) (some 2)], []⟩

/-- The tree `(5,(3,_,_),(8,(2,_,_),_))` with the addresses of `exStore`. -/
def exTree : BT (Nat × Nat) :=
  .node (.node .nil (0, 3) .nil) (3, 5) (.node (.node .nil (1, 2) .nil) (2, 8) .nil)

/-- Relation `Shape s p t`: in the store `s` the pointer `p` unfolds to the tree of addresses `t`
(links only, values are not looked at). -/
def Shape (s : Store T) : Ptr → BT Nat → Prop
  | p, .nil => p = none
  | p, .node l a r => p = some a ∧
      ∃ n, s.cells[a]? = some n ∧ Shape s n.left l ∧ Shape s n.right r

/-- The store holding the tree `(1,_,(2,_,_))`, root at address 1. -/
def rightChildStore : Store Nat :=
  ⟨[Node.mkLeaf 2, Node.mkValue 1 none (some 0)], []⟩

/-- The store holding the tree `(1,(2,_,_),_)`, root at address 1. -/
def leftChildStore : Store Nat :=
  ⟨[Node.mkLeaf 2, Node.mkValue 1 (some 0) none], []⟩

/-- The store holding the tree `(1,(2,_,(3,_,_)),(4,_,_))`, root at address 3. -/
def spliceStore : Store Nat :=
  ⟨[Node.mkLeaf 3, Node.mkValue 2 none (some 0), Node.mkLeaf 4,
    Node.mkValue 1 (some 1) (some 2)], []⟩

/-- The store holding the tree `(5,_,(5,_,_))`, root at address 1. -/
def dupStore : Store Nat :=
  ⟨[Node.mkLeaf 5, Node.mkValue 5 none (some 0)], []⟩

/-- The store holding the tree `(4,(2,_,_),(6,_,_))`, root at address 2. -/
def smallStore : Store Nat :=
  ⟨[Node.mkLeaf 2, Node.mkLeaf 6, Node.mkValue 4 (some 0) (some 1)], []⟩

/-- The tree `(4,(2,_,_),(6,_,_))` with the addresses of `smallStore`. -/
def smallTree : BT (Nat × Nat) :=
  .node (.node .nil (0, 2) .nil) (2, 4) (.node .nil (1, 6) .nil)

/-- Relation `Eager s p t`: the pointer `p` unfolds to `t` through cells that are not lazy and store
the value in the label. -/
def Eager (s : Store T) : Ptr → BT (Nat × T) → Prop
  | p, .nil => p = none
  | p, .node l av r => p = some av.1 ∧ ∃ n, s.cells[av.1]? = some n ∧ n.isLazy = false ∧
      n.value = av.2 ∧ Eager s n.left l ∧ Eager s n.right r

/-- Relation `Region n s`: the cells from address `n` on are not lazy and point only to cells from
address `n` on. -/
def Region (n : Nat) (s : Store T) : Prop :=
  ∀ (i : Nat) (m : Node T), n ≤ i → s.cells[i]? = some m →
    m.isLazy = false ∧ (∀ l, m.left = some l → n ≤ l) ∧ (∀ r, m.right = some r → n ≤ r)

/-- The operation that `makeCopy` folds with. -/
def copyOp (val : T) (left right : Ptr) (st : Store T) : Ptr × Store T :=
  alloc st (Node.mkValue val left right)

/-- The three traversals a caller can pass to `apply`, `accumulate` and `print`. -/
inductive Order where
  | pre : Order
  | ino : Order
  | post : Order
  deriving DecidableEq, Repr

/-- The static member function of `Tree` for a traversal order. -/
def Order.run : Order → Nat → Store T → Ptr → Res (List Ptr)
  | .pre => Tree.preorder
  | .ino => Tree.inorder
  | .post => Tree.postorder

/-- The labels of a tree in a traversal order. -/
def BT.listed {α : Type} : Order → BT α → List α
  | .pre => BT.preorder
  | .ino => BT.inorder
  | .post => BT.postorder

/-- A caller that makes one full traversal of the tree per listed order, one after the
other (`tree.print(order)` for each). -/
def traverseAll : List Order → Nat → Store T → Ptr → Res (Store T)
  | [], _, s, _ => pure s
  | o :: os, fuel, s, root => do
    let (_, s1) ← Tree.print o.run fuel s root
    traverseAll os fuel s1 root

/-- Relation `Tally s1 s2 A`: compared with the log of `s1`, the log of `s2` has every cell of `A`
once more when the cell is resolved in `s2`, and as often as before when it is not. -/
def Tally (s1 s2 : Store T) (A : List Nat) : Prop :=
  ∀ a ∈ A, ∃ m, s2.cells[a]? = some m ∧
    s2.calls.count a = s1.calls.count a + (if m.resolved = true then 1 else 0)

/-- Relation `Sourced s0 s A`: every cell of `A` lies above the cells of `s0`, and its source is a
cell that resolves in `s0`. -/
def Sourced (s0 s : Store T) (A : List Nat) : Prop :=
  ∀ a ∈ A, s0.cells.length ≤ a ∧ ∃ m b v, s.cells[a]? = some m ∧
    m.nodeToGetValueFrom = some b ∧ Val s0 b v

/-- Number of nodes on the longest path from the root to a leaf. -/
def BT.height {α : Type} : BT α → Nat
  | .nil => 0
  | .node l _ r => max (BT.height l) (BT.height r) + 1

/-- The store holding the tree `(5,_,(3,_,_))`, root at address 1. -/
def descStore : Store Nat :=
  ⟨[Node.mkLeaf 3, Node.mkValue 5 none (some 0)], []⟩

/-- The store holding the tree `(1,(2,_,_),(4,_,_))`, root at address 2. -/
def twoLeavesStore : Store Nat :=
  ⟨[Node.mkLeaf 2, Node.mkLeaf 4, Node.mkValue 1 (some 0) (some 1)], []⟩

/-- The store holding the tree `(1,(2,_,(3,_,(7,_,_))),(4,_,_))`, root at address 4. -/
def chainStore : Store Nat :=
  ⟨[Node.mkLeaf 7, Node.mkValue 3 none (some 0), Node.mkValue 2 none (some 1), Node.mkLeaf 4,
    Node.mkValue 1 (some 2) (some 3)], []⟩

/-- The replacement that the else branch of `Node::filter` (lines 81-84) returns for a
dropped node with left subtree `l` and right subtree `r`, on trees whose cells are not
shared: `r` when `l` is empty; a null dereference (`none`) when the root of `l` has no right
child; otherwise `l` with the right subtree of its root overwritten by `r`. -/
def BT.splice {α : Type} : BT α → BT α → Option (BT α)
  | .nil, r => some r
  | .node _ _ .nil, _ => none
  | .node ll b (.node _ _ _), r => some (.node ll b r)

/-- The tree that `Node::filter` (lines 72-86) returns, on trees whose cells are not
shared; `none` stands for the null dereference in `insertIntoRight`.  The code run on the
store is proved to compute this function (`filterPtr_refines`). -/
def BT.filterCode {α : Type} (pred : α → Bool) : BT α → Option (BT α)
  | .nil => some .nil
  | .node l a r =>
    if pred a then
      (BT.filterCode pred r).bind fun r1 =>
        (BT.filterCode pred l).bind fun l1 => some (.node l1 a r1)
    else BT.splice l r

/-- The tree without the nodes that fail the predicate, cut at the topmost failing node of
every branch; when the failing nodes are leaves, this is the tree with those leaves
removed and every other node at its position. -/
def BT.dropFailing {α : Type} (pred : α → Bool) : BT α → BT α
  | .nil => .nil
  | .node l a r => if pred a then .node (BT.dropFailing pred l) a (BT.dropFailing pred r) else .nil

/-- Every node whose label fails the predicate is a leaf. -/
def BT.FailingAreLeaves {α : Type} (pred : α → Bool) : BT α → Prop
  | .nil => True
  | .node l a r => (pred a = false → l = .nil ∧ r = .nil) ∧
      BT.FailingAreLeaves pred l ∧ BT.FailingAreLeaves pred r

/-- The guarded call `if (c != nullptr) ... c->filter(predicate, c)` that `Node::filter`
makes on a child pointer `c`. -/
def filterPtr (pred : T → Bool) (k : Nat) (s : Store T) (q : Ptr) : Res (Ptr × Store T) :=
  match q with
  | none => Res.ok (none, s)
  | some r => Node.filter pred k s r q

/-- The statement `if (right != nullptr) right = right->filter(predicate, right);`
(lines 75-76), run on the cell `a` whose fields were read as `n`. -/
def filterRight (pred : T → Bool) (k : Nat) (s : Store T) (a : Nat) (n : Node T) :
    Res (Store T) :=
  match n.right with
  | none => Res.ok s
  | some r => Node.filter pred k s r n.right >>= fun x =>
      load x.2 a >>= fun m => Res.ok (put x.2 a { m with right := x.1 })

/-- The statement `if (left != nullptr) left = left->filter(predicate, left);`
(lines 77-78), run on the cell `a` whose fields were read as `n`. -/
def filterLeft (pred : T → Bool) (k : Nat) (s : Store T) (a : Nat) (n : Node T) :
    Res (Store T) :=
  match n.left with
  | none => Res.ok s
  | some l => Node.filter pred k s l n.left >>= fun x =>
      load x.2 a >>= fun m => Res.ok (put x.2 a { m with left := x.1 })

/-- The store that `createValueNode(1, n, n)` builds for `n = createValueNode(2)`: the root
(value 1, address 1) has the same cell (value 2, address 0) as its left and as its right
child. -/
def sharedStore : Store Nat :=
  ⟨[Node.mkLeaf 2, Node.mkValue 1 (some 0) (some 0)], []⟩

/-- The number of positions of a tree that hold the label `a`; on a tree of addresses, the
number of paths from the root on which the cell `a` is reached. -/
def BT.occ {α : Type} [DecidableEq α] (a : α) : BT α → Nat
  | .nil => 0
  | .node l b r => BT.occ a l + (if b = a then 1 else 0) + BT.occ a r

/-! ## Basic facts -/

section basics
variable {α β : Type}

@[simp] theorem Res.ok_bind (a : α) (f : α → Res β) : (Res.ok a >>= f) = f a := rfl

@[simp] theorem Res.nullDeref_bind (f : α → Res β) :
    ((Res.nullDeref : Res α) >>= f) = Res.nullDeref := rfl

@[simp] theorem Res.outOfFuel_bind (f : α → Res β) :
    ((Res.outOfFuel : Res α) >>= f) = Res.outOfFuel := rfl

@[simp] theorem Res.pure_eq (a : α) : (pure a : Res α) = Res.ok a := rfl

theorem Res.bind_assoc {γ : Type} (x : Res α) (f : α → Res β) (g : β → Res γ) :
    (x >>= f) >>= g = x >>= fun a => f a >>= g := by
  cases x <;> rfl

theorem Res.bind_eq_ok {x : Res α} {f : α → Res β} {b : β} :
    (x >>= f) = Res.ok b ↔ ∃ a, x = Res.ok a ∧ f a = Res.ok b := by
  cases x <;> simp

end basics

theorem load_eq_ok {s : Store T} {a : Nat} {n : Node T} (h : s.cells[a]? = some n) :
    load s a = Res.ok n := by
  simp [load, h]

theorem Val.unique {s : Store T} {a : Nat} {v w : T} (h1 : Val s a v) (h2 : Val s a w) :
    v = w := by
  induction h1 generalizing w with
  | stored hn hr =>
    cases h2 with
    | stored hn2 _ => rw [hn] at hn2; cases hn2; rfl
    | deferred hn2 hr2 _ _ => rw [hn] at hn2; cases hn2; rw [hr] at hr2; cases hr2
  | deferred hn hr hs _ ih =>
    cases h2 with
    | stored hn2 hr2 => rw [hn] at hn2; cases hn2; rw [hr] at hr2; cases hr2
    | deferred hn2 _ hs2 hv2 =>
      rw [hn] at hn2; cases hn2; rw [hs] at hs2; cases hs2
      rw [ih hv2]

theorem Ext.refl (s : Store T) : Ext s s :=
  ⟨le_refl _, fun _ n h => ⟨n, h, rfl, rfl, rfl, rfl, rfl, fun _ => rfl⟩, fun _ _ h => h⟩

theorem Ext.trans {s s1 s2 : Store T} (h1 : Ext s s1) (h2 : Ext s1 s2) : Ext s s2 := by
  refine ⟨le_trans h1.len h2.len, ?_, fun a v h => h2.val a v (h1.val a v h)⟩
  intro a n hn
  obtain ⟨m, hm, e1, e2, e3, e4, e5, e6⟩ := h1.links a n hn
  obtain ⟨k, hk, f1, f2, f3, f4, f5, f6⟩ := h2.links a m hm
  refine ⟨k, hk, f1.trans e1, f2.trans e2, f3.trans e3, f4.trans e4, f5.trans e5, ?_⟩
  intro hr
  have hmn := e6 hr
  subst hmn
  exact f6 hr

theorem Rep.extend {s s1 : Store T} (h : Ext s s1) {p : Ptr} {t : BT (Nat × T)}
    (hr : Rep s p t) : Rep s1 p t := by
  induction t generalizing p with
  | nil => exact hr
  | node l av r ihl ihr =>
    obtain ⟨hp, n, hn, hv, hl, hrr⟩ := hr
    obtain ⟨m, hm, e1, e2, _⟩ := h.links _ n hn
    exact ⟨hp, m, hm, h.val _ _ hv, e1 ▸ ihl hl, e2 ▸ ihr hrr⟩

theorem Rep.none_iff {s : Store T} {t : BT (Nat × T)} : Rep s none t ↔ t = BT.nil := by
  cases t <;> simp [Rep]

/-! ## `getValue` -/

/-- One unfolding of `getValue`, with the test `isLazy && !isValueSet` read as
"not resolved". -/
theorem getValue_succ (fuel : Nat) (s : Store T) (a : Nat) :
    getValue (fuel + 1) s a = (load s a >>= fun n =>
      if n.resolved = true then Res.ok (n.value, s)
      else callOn n.nodeToGetValueFrom (getValue fuel s) >>= fun r =>
        load r.2 a >>= fun m =>
          Res.ok (m.transform r.1,
            (⟨r.2.cells.set a { m with value := m.transform r.1, isValueSet := true },
              r.2.calls ++ [a]⟩ : Store T))) := by
  rw [getValue]
  cases load s a with
  | ok n =>
    cases h1 : n.isLazy <;> cases h2 : n.isValueSet <;> simp [Node.resolved, h1, h2]
  | nullDeref => rfl
  | outOfFuel => rfl

/-- On a resolved cell `getValue` returns the stored value and leaves the store (and the
call counter) as it is. -/
theorem getValue_resolved {s : Store T} {a : Nat} {n : Node T} (hn : s.cells[a]? = some n)
    (hr : n.resolved = true) (fuel : Nat) : getValue (fuel + 1) s a = Res.ok (n.value, s) := by
  rw [getValue_succ, load_eq_ok hn]
  simp [hr]

/-- Filling the cache of a cell with the value it resolves to changes no resolved value. -/
theorem Val.fill_val {s : Store T} {a : Nat} {m : Node T} {v : T} {c : List Nat}
    (hm : s.cells[a]? = some m) (hv : Val s a v) {b : Nat} {u : T} (hb : Val s b u) :
    Val ⟨s.cells.set a { m with value := v, isValueSet := true }, c⟩ b u := by
  have hlt : a < s.cells.length := by
    by_contra hge
    rw [List.getElem?_eq_none (by omega)] at hm
    cases hm
  have hset : (s.cells.set a { m with value := v, isValueSet := true })[a]? =
      some { m with value := v, isValueSet := true } := by
    simp [List.getElem?_set, hlt]
  have hres : ({ m with value := v, isValueSet := true } : Node T).resolved = true := by
    simp [Node.resolved]
  induction hb with
  | @stored b n hn hr =>
    by_cases hab : b = a
    · subst hab
      have : v = n.value := Val.unique hv (Val.stored hn hr)
      rw [← this]
      exact Val.stored (s := ⟨_, c⟩) hset hres
    · refine Val.stored (s := ⟨_, c⟩) ?_ hr
      simp [List.getElem?_set, Ne.symm hab, hn]
  | @deferred b n src w hn hr hs hw ih =>
    by_cases hab : b = a
    · subst hab
      have : v = n.transform w := Val.unique hv (Val.deferred hn hr hs hw)
      rw [← this]
      exact Val.stored (s := ⟨_, c⟩) hset hres
    · refine Val.deferred (s := ⟨_, c⟩) ?_ hr hs ih
      simp [List.getElem?_set, Ne.symm hab, hn]

/-- Whenever a cell resolves to `v`, `getValue` returns `v` given enough fuel; the store it
leaves is an extension with the same cells, in which the cell is resolved and holds `v`. -/
theorem getValue_spec {s : Store T} {a : Nat} {v : T} (h : Val s a v) :
    ∃ s1, (Ext s s1 ∧ s1.cells.length = s.cells.length ∧
      ∃ m, s1.cells[a]? = some m ∧ m.resolved = true ∧ m.value = v) ∧
      ∃ N, ∀ fuel, N ≤ fuel → getValue fuel s a = Res.ok (v, s1) := by
  induction h with
  | @stored a n hn hr =>
    refine ⟨s, ⟨Ext.refl s, rfl, n, hn, hr, rfl⟩, 1, fun fuel hf => ?_⟩
    obtain ⟨k, rfl⟩ : ∃ k, fuel = k + 1 := ⟨fuel - 1, by omega⟩
    exact getValue_resolved hn hr k
  | @deferred a n src w hn hr hs hw ih =>
    obtain ⟨s1, ⟨hext, hlen, _⟩, N, hN⟩ := ih
    obtain ⟨m, hm, e1, e2, e3, e4, e5, _⟩ := hext.links a n hn
    have hva : Val s1 a (m.transform w) := by
      rw [e5]; exact hext.val _ _ (Val.deferred hn hr hs hw)
    have hlt : a < s1.cells.length := by
      by_contra hge
      rw [List.getElem?_eq_none (by omega)] at hm
      cases hm
    refine ⟨⟨s1.cells.set a { m with value := m.transform w, isValueSet := true },
      s1.calls ++ [a]⟩, ⟨?_, ?_, ?_⟩, N + 1, fun fuel hf => ?_⟩
    · refine ⟨by simp [hlen], ?_, ?_⟩
      · intro b k hk
        by_cases hab : b = a
        · subst hab
          rw [hn] at hk; cases hk
          refine ⟨{ m with value := m.transform w, isValueSet := true },
            by simp [List.getElem?_set, hlt], e1, e2, e3, e4, e5, ?_⟩
          intro h'; rw [hr] at h'; cases h'
        · obtain ⟨m', hm', hl⟩ := hext.links b k hk
          exact ⟨m', by simp [List.getElem?_set, Ne.symm hab, hm'], hl⟩
      · intro b u hb
        exact Val.fill_val hm hva (hext.val _ _ hb)
    · simp [hlen]
    · exact ⟨{ m with value := m.transform w, isValueSet := true },
        by simp [List.getElem?_set, hlt], by simp [Node.resolved], by simp [e5]⟩
    · obtain ⟨k, rfl⟩ : ∃ k, fuel = k + 1 := ⟨fuel - 1, by omega⟩
      rw [getValue_succ, load_eq_ok hn]
      simp [hr, hs, callOn, hN k (by omega), load_eq_ok hm, e5]

/-! ## `fold` with an operation that leaves the store alone -/

theorem Node.fold_succ {H : Type} (op : T → H → H → Store T → H × Store T) (init : H)
    (fuel : Nat) (s : Store T) (a : Nat) :
    Node.fold op init (fuel + 1) s a = (getValue fuel s a >>= fun r1 =>
      load r1.2 a >>= fun n =>
      Tree.fold op init fuel r1.2 n.left >>= fun r2 =>
      Tree.fold op init fuel r2.2 n.right >>= fun r3 =>
      Res.ok (op n.value r2.1 r3.1 r3.2)) := by
  rw [Node.fold]
  cases getValue fuel s a with
  | ok r1 =>
    obtain ⟨v, s1⟩ := r1
    simp only [Res.ok_bind]
    cases load s1 a with
    | ok n =>
      obtain ⟨val, l, r, b1, b2, src, tr⟩ := n
      simp only [Res.ok_bind]
      cases l with
      | none =>
        simp only [Tree.fold, Res.pure_eq, Res.ok_bind]
        cases r with
        | none => rfl
        | some y => simp only [Tree.fold]
      | some x =>
        simp only [Tree.fold]
        cases Node.fold op init fuel s1 x with
        | ok r2 =>
          simp only [Res.ok_bind]
          cases r with
          | none => rfl
          | some y => rfl
        | nullDeref => rfl
        | outOfFuel => rfl
    | nullDeref => rfl
    | outOfFuel => rfl
  | nullDeref => rfl
  | outOfFuel => rfl

@[simp] theorem BT.vals_nil : BT.vals (BT.nil : BT (Nat × T)) = BT.nil := rfl

@[simp] theorem BT.vals_node (l r : BT (Nat × T)) (av : Nat × T) :
    BT.vals (BT.node l av r) = BT.node (BT.vals l) av.2 (BT.vals r) := rfl

/-- The fold of the code computes the fold of the value tree, and leaves an extension of
the store with the same cells. -/
theorem Tree.fold_pure {H : Type} (op : T → H → H → H) (init : H) {s : Store T} {p : Ptr}
    {t : BT (Nat × T)} (h : Rep s p t) :
    ∃ s1, (Ext s s1 ∧ s1.cells.length = s.cells.length) ∧
      ∃ N, ∀ fuel, N ≤ fuel →
        Tree.fold (fun v l r st => (op v l r, st)) init fuel s p =
          Res.ok (BT.fold op init (BT.vals t), s1) := by
  induction t generalizing s p with
  | nil =>
    have hp : p = none := h
    subst hp
    exact ⟨s, ⟨Ext.refl s, rfl⟩, 0, fun fuel _ => rfl⟩
  | node l av r ihl ihr =>
    obtain ⟨hp, n, hn, hv, hl, hr⟩ := h
    subst hp
    obtain ⟨s1, ⟨hext1, hlen1, m, hm, _, hmv⟩, N0, hN0⟩ := getValue_spec hv
    obtain ⟨m', hm', e1, e2, _⟩ := hext1.links _ n hn
    rw [hm] at hm'; cases hm'
    obtain ⟨s2, ⟨hext2, hlen2⟩, N1, hN1⟩ := ihl (e1 ▸ Rep.extend hext1 hl)
    obtain ⟨s3, ⟨hext3, hlen3⟩, N2, hN2⟩ := ihr (e2 ▸ Rep.extend (hext1.trans hext2) hr)
    refine ⟨s3, ⟨(hext1.trans hext2).trans hext3, by omega⟩, max N0 (max N1 N2) + 1,
      fun fuel hf => ?_⟩
    obtain ⟨k, rfl⟩ : ∃ k, fuel = k + 1 := ⟨fuel - 1, by omega⟩
    have h0 : N0 ≤ k := by omega
    have h1 : N1 ≤ k := by omega
    have h2 : N2 ≤ k := by omega
    simp only [Tree.fold]
    rw [Node.fold_succ, hN0 k h0]
    simp [load_eq_ok hm, hN1 k h1, hN2 k h2, hmv, BT.fold, BT.vals, BT.map]

/-! ## `is_bst` -/

theorem ite_gt_eq_max [LinearOrder T] (v a : T) : (if v > a then v else a) = max v a := by
  rcases lt_or_le a v with h | h
  · simp [h, max_eq_left h.le]
  · simp [not_lt.mpr h, max_eq_right h]

theorem myMax_eq [LinearOrder T] (v a b : T) :
    (if a > b then (if v > a then v else a) else (if v > b then v else b)) = max v (max a b) := by
  by_cases h : b < a
  · simp only [gt_iff_lt, h, if_true]
    rw [max_eq_left h.le]; exact ite_gt_eq_max v a
  · simp only [gt_iff_lt, h, if_false]
    rw [max_eq_right (not_lt.mp h)]; exact ite_gt_eq_max v b

theorem myMin_eq [LinearOrder T] (v a b : T) (h1 : a ≤ v) (h2 : v ≤ b) :
    (if a < b then (if v < a then v else a) else (if v > b then v else b)) = a := by
  by_cases h : a < b
  · simp [h, not_lt.mpr h1]
  · have hba : b ≤ a := not_lt.mp h
    have hav : a = v := le_antisymm h1 (le_trans h2 hba)
    have hbv : b = v := le_antisymm (le_trans hba h1) h2
    subst hav; subst hbv
    simp

theorem Tree.isBstStep_summary [LinearOrder T] (v : T) (L R : Bool × T × T × Bool)
    (ls rs : List T) (hL : Summary L ls) (hR : Summary R rs) :
    Summary (Tree.isBstStep v L R) ((ls ++ [v]) ++ rs) ∧
    ((Tree.isBstStep v L R).1 = true ↔
      (L.1 = true ∧ R.1 = true ∧ (∀ x ∈ ls, x < v) ∧ (∀ x ∈ rs, v < x))) := by
  obtain ⟨Lb, LM, Lm, Ln⟩ := L
  obtain ⟨Rb, RM, Rm, Rn⟩ := R
  -- the values the lambda works with
  have key : ∀ (lM lm rM rm : T) (sl sr : Bool),
      (lM = v ∨ lM ∈ ls) → (∀ x ∈ ls, x ≤ lM) → (rM = v ∨ rM ∈ rs) → (∀ x ∈ rs, x ≤ rM) →
      (Lb = true → (lm = v ∨ lm ∈ ls) ∧ (∀ x ∈ ls, lm ≤ x)) →
      (Rb = true → (rm = v ∨ rm ∈ rs) ∧ (∀ x ∈ rs, rm ≤ x)) →
      (Lb = true → (sl = true ↔ ∀ x ∈ ls, x < v)) → (Lb = true → sl = true → lm ≤ v) →
      (Rb = true → (sr = true ↔ ∀ x ∈ rs, v < x)) → (Rb = true → sr = true → v ≤ rm) →
      Summary (Lb && Rb && sl && sr,
        (if lM > rM then (if v > lM then v else lM) else (if v > rM then v else rM)),
        (if lm < rm then (if v < lm then v else lm) else (if v > rm then v else rm)), false)
        ((ls ++ [v]) ++ rs) ∧
      ((Lb && Rb && sl && sr) = true ↔
        (Lb = true ∧ Rb = true ∧ (∀ x ∈ ls, x < v) ∧ (∀ x ∈ rs, v < x))) := by
    intro lM lm rM rm sl sr hlM hlub hrM hrub hlm hrm hsl hslv hsr hsrv
    constructor
    · right
      refine ⟨rfl, ?_, ?_, ?_⟩
      · show (if lM > rM then (if v > lM then v else lM) else (if v > rM then v else rM)) ∈ _
        rw [myMax_eq]
        rcases max_choice v (max lM rM) with h | h
        · rw [h]; simp
        · rw [h]
          rcases max_choice lM rM with h' | h' <;> rw [h']
          · rcases hlM with e | e
            · simp [e]
            · simp [e]
          · rcases hrM with e | e
            · simp [e]
            · simp [e]
      · intro x hx
        show x ≤ (if lM > rM then (if v > lM then v else lM) else (if v > rM then v else rM))
        rw [myMax_eq]
        simp only [List.mem_append, List.mem_singleton] at hx
        rcases hx with (hx | hx) | hx
        · exact le_trans (hlub x hx) (le_trans (le_max_left _ _) (le_max_right _ _))
        · rw [hx]; exact le_max_left _ _
        · exact le_trans (hrub x hx) (le_trans (le_max_right _ _) (le_max_right _ _))
      · intro hS
        simp only [Bool.and_eq_true] at hS
        obtain ⟨⟨⟨hLb, hRb⟩, hsl'⟩, hsr'⟩ := hS
        have h1 : lm ≤ v := hslv hLb hsl'
        have h2 : v ≤ rm := hsrv hRb hsr'
        show (if lm < rm then (if v < lm then v else lm) else (if v > rm then v else rm)) ∈ _ ∧
          ∀ x ∈ _, (if lm < rm then (if v < lm then v else lm) else (if v > rm then v else rm)) ≤ x
        rw [myMin_eq v lm rm h1 h2]
        constructor
        · rcases (hlm hLb).1 with e | e
          · simp [e]
          · simp [e]
        · intro x hx
          simp only [List.mem_append, List.mem_singleton] at hx
          rcases hx with (hx | hx) | hx
          · exact (hlm hLb).2 x hx
          · rw [hx]; exact h1
          · exact le_trans h1 (le_trans h2 ((hrm hRb).2 x hx))
    · simp only [Bool.and_eq_true]
      constructor
      · rintro ⟨⟨⟨hLb, hRb⟩, hsl'⟩, hsr'⟩
        exact ⟨hLb, hRb, (hsl hLb).1 hsl', (hsr hRb).1 hsr'⟩
      · rintro ⟨hLb, hRb, h1, h2⟩
        exact ⟨⟨⟨hLb, hRb⟩, (hsl hLb).2 h1⟩, (hsr hRb).2 h2⟩
  rcases hL with ⟨hLn, hls⟩ | ⟨hLn, hLM, hLub, hLmin⟩ <;>
    rcases hR with ⟨hRn, hrs⟩ | ⟨hRn, hRM, hRub, hRmin⟩
  all_goals simp only at hLn hRn
  all_goals subst hLn; subst hRn
  · subst hls; subst hrs
    exact key v v v v true true (Or.inl rfl) (by simp) (Or.inl rfl) (by simp)
      (fun _ => ⟨Or.inl rfl, by simp⟩) (fun _ => ⟨Or.inl rfl, by simp⟩)
      (fun _ => by simp) (fun _ _ => le_refl _) (fun _ => by simp) (fun _ _ => le_refl _)
  · subst hls
    exact key v v RM Rm true (decide (Rm > v)) (Or.inl rfl) (by simp) (Or.inr hRM) hRub
      (fun _ => ⟨Or.inl rfl, by simp⟩) (fun h => ⟨Or.inr (hRmin h).1, (hRmin h).2⟩)
      (fun _ => by simp) (fun _ _ => le_refl _)
      (fun h => by
        simp only [decide_eq_true_eq, gt_iff_lt]
        exact ⟨fun hv x hx => lt_of_lt_of_le hv ((hRmin h).2 x hx),
          fun hall => hall _ (hRmin h).1⟩)
      (fun _ h => by
        simp only [decide_eq_true_eq, gt_iff_lt] at h
        exact h.le)
  · subst hrs
    exact key LM Lm v v (decide (LM < v)) true (Or.inr hLM) hLub (Or.inl rfl) (by simp)
      (fun h => ⟨Or.inr (hLmin h).1, (hLmin h).2⟩) (fun _ => ⟨Or.inl rfl, by simp⟩)
      (fun _ => by
        simp only [decide_eq_true_eq]
        exact ⟨fun hv x hx => lt_of_le_of_lt (hLub x hx) hv, fun hall => hall _ hLM⟩)
      (fun hb h => by
        simp only [decide_eq_true_eq] at h
        exact le_trans ((hLmin hb).2 _ hLM) h.le)
      (fun _ => by simp) (fun _ _ => le_refl _)
  · exact key LM Lm RM Rm (decide (LM < v)) (decide (Rm > v)) (Or.inr hLM) hLub (Or.inr hRM) hRub
      (fun h => ⟨Or.inr (hLmin h).1, (hLmin h).2⟩) (fun h => ⟨Or.inr (hRmin h).1, (hRmin h).2⟩)
      (fun _ => by
        simp only [decide_eq_true_eq]
        exact ⟨fun hv x hx => lt_of_le_of_lt (hLub x hx) hv, fun hall => hall _ hLM⟩)
      (fun hb h => by
        simp only [decide_eq_true_eq] at h
        exact le_trans ((hLmin hb).2 _ hLM) h.le)
      (fun h => by
        simp only [decide_eq_true_eq, gt_iff_lt]
        exact ⟨fun hv x hx => lt_of_lt_of_le hv ((hRmin h).2 x hx),
          fun hall => hall _ (hRmin h).1⟩)
      (fun _ h => by
        simp only [decide_eq_true_eq, gt_iff_lt] at h
        exact h.le)


/-- The fold of `is_bst` over a value tree: its tuple summarises the values of the tree and
its first component decides the BST property. -/
theorem bstFold_spec [LinearOrder T] [Inhabited T] (t : BT T) :
    Summary (BT.fold Tree.isBstStep (true, default, default, true) t) (BT.inorder t) ∧
    ((BT.fold Tree.isBstStep (true, default, default, true) t).1 = true ↔ BT.IsBST t) := by
  induction t with
  | nil => exact ⟨Or.inl ⟨rfl, rfl⟩, by simp [BT.fold, BT.IsBST]⟩
  | node l v r ihl ihr =>
    obtain ⟨h1, h2⟩ := Tree.isBstStep_summary v _ _ _ _ ihl.1 ihr.1
    refine ⟨h1, ?_⟩
    show (Tree.isBstStep v _ _).1 = true ↔ _
    rw [h2, ihl.2, ihr.2]
    simp only [BT.IsBST]
    tauto

theorem BT.boundCheck_iff [LinearOrder T] (lo hi : Option T) (t : BT T) :
    BT.boundCheck lo hi t = true ↔ BT.IsBST t ∧
      (∀ a, lo = some a → ∀ x ∈ BT.inorder t, a < x) ∧
      (∀ b, hi = some b → ∀ x ∈ BT.inorder t, x < b) := by
  induction t generalizing lo hi with
  | nil => simp [BT.boundCheck, BT.IsBST, BT.inorder]
  | node l v r ihl ihr =>
    simp only [BT.boundCheck, Bool.and_eq_true, ihl, ihr, BT.IsBST, BT.inorder,
      List.mem_append, List.mem_singleton]
    constructor
    · rintro ⟨⟨⟨hlo, hhi⟩, hl, hllo, hlv⟩, hr, hrv, hrhi⟩
      have hlv' := hlv v rfl
      have hrv' := hrv v rfl
      refine ⟨⟨hlv', hrv', hl, hr⟩, ?_, ?_⟩
      · intro a ha x hx
        subst ha
        have hav : a < v := by simpa using hlo
        rcases hx with (hx | hx) | hx
        · exact hllo a rfl x hx
        · rw [hx]; exact hav
        · exact lt_trans hav (hrv' x hx)
      · intro b hb x hx
        subst hb
        have hvb : v < b := by simpa using hhi
        rcases hx with (hx | hx) | hx
        · exact lt_trans (hlv' x hx) hvb
        · rw [hx]; exact hvb
        · exact hrhi b rfl x hx
    · rintro ⟨⟨hlv, hrv, hl, hr⟩, hlo, hhi⟩
      refine ⟨⟨⟨?_, ?_⟩, hl, ?_, ?_⟩, hr, ?_, ?_⟩
      · cases lo with
        | none => rfl
        | some a => simpa using hlo a rfl v (Or.inl (Or.inr rfl))
      · cases hi with
        | none => rfl
        | some b => simpa using hhi b rfl v (Or.inl (Or.inr rfl))
      · intro a ha x hx; exact hlo a ha x (Or.inl (Or.inl hx))
      · intro b hb x hx; cases hb; exact hlv x hx
      · intro a ha x hx; cases ha; exact hrv x hx
      · intro b hb x hx; exact hhi b hb x (Or.inr hx)

theorem BT.get?_mem_inorder {α : Type} {t : BT α} {p : List Bool} {v : α}
    (h : BT.get? t p = some v) : v ∈ BT.inorder t := by
  induction t generalizing p with
  | nil => simp [BT.get?] at h
  | node l a r ihl ihr =>
    cases p with
    | nil => simp [BT.get?] at h; simp [BT.inorder, h]
    | cons b p =>
      cases b with
      | false => simp only [BT.get?] at h; simp [BT.inorder, ihl h]
      | true => simp only [BT.get?] at h; simp [BT.inorder, ihr h]

/-- In a tree with the BST property no value sits at two positions. -/
theorem BT.IsBST.get?_inj [LinearOrder T] {t : BT T} (ht : BT.IsBST t) {p q : List Bool}
    {v : T} (hp : BT.get? t p = some v) (hq : BT.get? t q = some v) : p = q := by
  induction t generalizing p q with
  | nil => simp [BT.get?] at hp
  | node l a r ihl ihr =>
    obtain ⟨hl, hr, bl, br⟩ := ht
    rcases p with _ | ⟨b, p⟩ <;> rcases q with _ | ⟨c, q⟩
    · rfl
    · simp only [BT.get?, Option.some.injEq] at hp
      subst hp
      cases c with
      | false => exact absurd (hl _ (BT.get?_mem_inorder hq)) (lt_irrefl _)
      | true => exact absurd (hr _ (BT.get?_mem_inorder hq)) (lt_irrefl _)
    · simp only [BT.get?, Option.some.injEq] at hq
      subst hq
      cases b with
      | false => exact absurd (hl _ (BT.get?_mem_inorder hp)) (lt_irrefl _)
      | true => exact absurd (hr _ (BT.get?_mem_inorder hp)) (lt_irrefl _)
    · cases b <;> cases c
      · rw [ihl bl hp hq]
      · exact absurd (lt_trans (hl _ (BT.get?_mem_inorder hp)) (hr _ (BT.get?_mem_inorder hq)))
          (lt_irrefl _)
      · exact absurd (lt_trans (hl _ (BT.get?_mem_inorder hq)) (hr _ (BT.get?_mem_inorder hp)))
          (lt_irrefl _)
      · rw [ihr br hp hq]

/-- Running `is_bst` on a represented tree: with enough fuel it returns the first component of the
fold of the lambda over the value tree. -/
theorem Tree.is_bst_run [LinearOrder T] [Inhabited T] {s : Store T} {p : Ptr}
    {t : BT (Nat × T)} (h : Rep s p t) :
    ∃ s1, (Ext s s1 ∧ s1.cells.length = s.cells.length) ∧
      ∃ N, ∀ fuel, N ≤ fuel → Tree.is_bst fuel s p =
        Res.ok ((BT.fold Tree.isBstStep (true, default, default, true) (BT.vals t)).1, s1) := by
  obtain ⟨s1, hs1, N, hN⟩ := Tree.fold_pure Tree.isBstStep (true, default, default, true) h
  refine ⟨s1, hs1, N, fun fuel hf => ?_⟩
  simp [Tree.is_bst, hN fuel hf]

/-! ## Traversals and `noValFold` -/

theorem Val.of_stored {s : Store T} {a : Nat} {n : Node T} {v : T} (h : s.cells[a]? = some n)
    (hr : n.resolved = true) (hv : n.value = v) : Val s a v := hv ▸ Val.stored h hr

theorem Rep.shape {s : Store T} {p : Ptr} {t : BT (Nat × T)} (h : Rep s p t) :
    Shape s p (BT.addrs t) := by
  induction t generalizing p with
  | nil => exact h
  | node l av r ihl ihr =>
    obtain ⟨hp, n, hn, _, hl, hr⟩ := h
    exact ⟨hp, n, hn, ihl hl, ihr hr⟩

theorem Node.inorder_succ (fuel : Nat) (s : Store T) (a : Nat) (you : Ptr) :
    Node.inorder (fuel + 1) s a you = (load s a >>= fun n =>
      Tree.inorder fuel s n.left >>= fun l => Tree.inorder fuel s n.right >>= fun r =>
      Res.ok ((l ++ [you]) ++ r)) := by
  rw [Node.inorder]
  cases load s a with
  | ok n =>
    obtain ⟨val, l, r, b1, b2, src, tr⟩ := n
    cases l <;> cases r <;> rfl
  | nullDeref => rfl
  | outOfFuel => rfl

theorem Node.preorder_succ (fuel : Nat) (s : Store T) (a : Nat) (you : Ptr) :
    Node.preorder (fuel + 1) s a you = (load s a >>= fun n =>
      Tree.preorder fuel s n.left >>= fun l => Tree.preorder fuel s n.right >>= fun r =>
      Res.ok (([you] ++ l) ++ r)) := by
  rw [Node.preorder]
  cases load s a with
  | ok n =>
    obtain ⟨val, l, r, b1, b2, src, tr⟩ := n
    cases l <;> cases r <;> rfl
  | nullDeref => rfl
  | outOfFuel => rfl

theorem Node.postorder_succ (fuel : Nat) (s : Store T) (a : Nat) (you : Ptr) :
    Node.postorder (fuel + 1) s a you = (load s a >>= fun n =>
      Tree.postorder fuel s n.left >>= fun l => Tree.postorder fuel s n.right >>= fun r =>
      Res.ok ((l ++ r) ++ [you])) := by
  rw [Node.postorder]
  cases load s a with
  | ok n =>
    obtain ⟨val, l, r, b1, b2, src, tr⟩ := n
    cases l <;> cases r <;> rfl
  | nullDeref => rfl
  | outOfFuel => rfl

theorem Node.noValFold_succ {H : Type} (op : H → H → H) (init : H) (fuel : Nat) (s : Store T)
    (a : Nat) :
    Node.noValFold op init (fuel + 1) s a = (load s a >>= fun n =>
      Tree.noValFold op init fuel s n.left >>= fun l =>
      Tree.noValFold op init fuel s n.right >>= fun r => Res.ok (op l r)) := by
  rw [Node.noValFold]
  cases load s a with
  | ok n =>
    obtain ⟨val, l, r, b1, b2, src, tr⟩ := n
    cases l <;> cases r <;> rfl
  | nullDeref => rfl
  | outOfFuel => rfl

/-- Member function `Tree::inorder` lists the addresses of the tree, left subtree first. -/
theorem Tree.inorder_spec {s : Store T} {p : Ptr} {t : BT Nat} (h : Shape s p t) :
    ∃ N, ∀ fuel, N ≤ fuel → Tree.inorder fuel s p = Res.ok ((BT.inorder t).map some) := by
  induction t generalizing p with
  | nil =>
    have hp : p = none := h
    subst hp
    exact ⟨0, fun _ _ => rfl⟩
  | node l a r ihl ihr =>
    obtain ⟨hp, n, hn, hl, hr⟩ := h
    subst hp
    obtain ⟨N1, hN1⟩ := ihl hl
    obtain ⟨N2, hN2⟩ := ihr hr
    refine ⟨max N1 N2 + 1, fun fuel hf => ?_⟩
    obtain ⟨k, rfl⟩ : ∃ k, fuel = k + 1 := ⟨fuel - 1, by omega⟩
    simp only [Tree.inorder]
    rw [Node.inorder_succ, load_eq_ok hn]
    simp [hN1 k (by omega), hN2 k (by omega), BT.inorder]

/-- Member function `Tree::preorder` lists the addresses of the tree, node first. -/
theorem Tree.preorder_spec {s : Store T} {p : Ptr} {t : BT Nat} (h : Shape s p t) :
    ∃ N, ∀ fuel, N ≤ fuel → Tree.preorder fuel s p = Res.ok ((BT.preorder t).map some) := by
  induction t generalizing p with
  | nil =>
    have hp : p = none := h
    subst hp
    exact ⟨0, fun _ _ => rfl⟩
  | node l a r ihl ihr =>
    obtain ⟨hp, n, hn, hl, hr⟩ := h
    subst hp
    obtain ⟨N1, hN1⟩ := ihl hl
    obtain ⟨N2, hN2⟩ := ihr hr
    refine ⟨max N1 N2 + 1, fun fuel hf => ?_⟩
    obtain ⟨k, rfl⟩ : ∃ k, fuel = k + 1 := ⟨fuel - 1, by omega⟩
    simp only [Tree.preorder]
    rw [Node.preorder_succ, load_eq_ok hn]
    simp [hN1 k (by omega), hN2 k (by omega), BT.preorder]

/-- Member function `Tree::postorder` lists the addresses of the tree, node last. -/
theorem Tree.postorder_spec {s : Store T} {p : Ptr} {t : BT Nat} (h : Shape s p t) :
    ∃ N, ∀ fuel, N ≤ fuel → Tree.postorder fuel s p = Res.ok ((BT.postorder t).map some) := by
  induction t generalizing p with
  | nil =>
    have hp : p = none := h
    subst hp
    exact ⟨0, fun _ _ => rfl⟩
  | node l a r ihl ihr =>
    obtain ⟨hp, n, hn, hl, hr⟩ := h
    subst hp
    obtain ⟨N1, hN1⟩ := ihl hl
    obtain ⟨N2, hN2⟩ := ihr hr
    refine ⟨max N1 N2 + 1, fun fuel hf => ?_⟩
    obtain ⟨k, rfl⟩ : ∃ k, fuel = k + 1 := ⟨fuel - 1, by omega⟩
    simp only [Tree.postorder]
    rw [Node.postorder_succ, load_eq_ok hn]
    simp [hN1 k (by omega), hN2 k (by omega), BT.postorder]

/-- Member function `Tree::noValFold` computes the fold of the shape. -/
theorem Tree.noValFold_spec {H : Type} (op : H → H → H) (init : H) {s : Store T} {p : Ptr}
    {t : BT Nat} (h : Shape s p t) :
    ∃ N, ∀ fuel, N ≤ fuel →
      Tree.noValFold op init fuel s p = Res.ok (BT.fold (fun _ x y => op x y) init t) := by
  induction t generalizing p with
  | nil =>
    have hp : p = none := h
    subst hp
    exact ⟨0, fun _ _ => rfl⟩
  | node l a r ihl ihr =>
    obtain ⟨hp, n, hn, hl, hr⟩ := h
    subst hp
    obtain ⟨N1, hN1⟩ := ihl hl
    obtain ⟨N2, hN2⟩ := ihr hr
    refine ⟨max N1 N2 + 1, fun fuel hf => ?_⟩
    obtain ⟨k, rfl⟩ : ∃ k, fuel = k + 1 := ⟨fuel - 1, by omega⟩
    simp only [Tree.noValFold]
    rw [Node.noValFold_succ, load_eq_ok hn]
    simp [hN1 k (by omega), hN2 k (by omega), BT.fold]

theorem BT.fold_size {α : Type} (t : BT α) :
    BT.fold (fun _ (x y : Nat) => x + y + 1) 0 t = BT.size t := by
  induction t with
  | nil => rfl
  | node l a r ihl ihr => simp [BT.fold, BT.size, ihl, ihr]

theorem BT.length_inorder {α : Type} (t : BT α) : (BT.inorder t).length = BT.size t := by
  induction t with
  | nil => rfl
  | node l a r ihl ihr => simp [BT.inorder, BT.size, ihl, ihr]; omega

theorem BT.length_preorder {α : Type} (t : BT α) : (BT.preorder t).length = BT.size t := by
  induction t with
  | nil => rfl
  | node l a r ihl ihr => simp [BT.preorder, BT.size, ihl, ihr]

theorem BT.length_postorder {α : Type} (t : BT α) : (BT.postorder t).length = BT.size t := by
  induction t with
  | nil => rfl
  | node l a r ihl ihr => simp [BT.postorder, BT.size, ihl, ihr]; omega

theorem exStore_rep : Rep exStore (some 3) exTree :=
  ⟨rfl, _, rfl, Val.of_stored rfl (by rfl) (by rfl),
    ⟨rfl, _, rfl, Val.of_stored rfl (by rfl) (by rfl), rfl, rfl⟩,
    ⟨rfl, _, rfl, Val.of_stored rfl (by rfl) (by rfl),
      ⟨rfl, _, rfl, Val.of_stored rfl (by rfl) (by rfl), rfl, rfl⟩, rfl⟩⟩

theorem smallStore_rep : Rep smallStore (some 2) smallTree :=
  ⟨rfl, _, rfl, Val.of_stored rfl (by rfl) (by rfl),
    ⟨rfl, _, rfl, Val.of_stored rfl (by rfl) (by rfl), rfl, rfl⟩,
    ⟨rfl, _, rfl, Val.of_stored rfl (by rfl) (by rfl), rfl, rfl⟩⟩

theorem dupStore_rep : Rep dupStore (some 1) (.node .nil (1, 5) (.node .nil (0, 5) .nil)) :=
  ⟨rfl, _, rfl, Val.of_stored rfl (by rfl) (by rfl), rfl,
    ⟨rfl, _, rfl, Val.of_stored rfl (by rfl) (by rfl), rfl, rfl⟩⟩

/-! ## Claims about `filter` on concrete trees -/

/-- C1 (defect of the code): on the tree `(1,_,(2,_,_))` and a predicate that rejects both
values, `Tree::filter` drops the root and returns its right child as it is, without
filtering it: the tree it returns is the single node 2, a value the predicate rejects.
The claim asks that no such value is ever in the result. -/
theorem Tree.filter_returns_rejected_value :
    ∀ k : Nat,
      Tree.filter (fun v => decide (5 < v)) (k + 3) rightChildStore (some 1) =
        Res.ok (some 2, ⟨[Node.mkLeaf 2, Node.mkValue 1 none (some 0),
          Node.mkValue 2 none none, Node.mkValue 1 (some 2) (some 2)], []⟩) ∧
      (Tree.filter (fun v => decide (5 < v)) (k + 3) rightChildStore (some 1) >>= fun r =>
        Tree.print Tree.inorder (k + 3) r.2 r.1 >>= fun o => Res.ok o.1) = Res.ok [2] ∧
      decide (5 < 2) = false :=
  fun _ => ⟨rfl, rfl, rfl⟩

/-- C2 (defect of the code): on the tree `(1,(2,_,(3,_,_)),(4,_,_))` and the predicate
`v != 1`, `Tree::filter` returns the two-node tree `(2,_,(4,_,_))`: `insertIntoRight`
overwrites the right child of node 2, so the value 3, which satisfies the predicate, is
lost and the size is 2 where three values satisfy the predicate. -/
theorem Tree.filter_loses_accepted_value :
    ∀ k : Nat,
      (Tree.print Tree.inorder (k + 3) spliceStore (some 3) >>= fun o => Res.ok o.1) =
        Res.ok [2, 3, 1, 4] ∧
      (Tree.filter (fun v => decide (v ≠ 1)) (k + 4) spliceStore (some 3) >>= fun r =>
        Tree.print Tree.inorder (k + 4) r.2 r.1 >>= fun o => Res.ok o.1) = Res.ok [2, 4] ∧
      (Tree.filter (fun v => decide (v ≠ 1)) (k + 4) spliceStore (some 3) >>= fun r =>
        Tree.size (k + 4) r.2 r.1) = Res.ok 2 ∧
      ([2, 3, 1, 4].filter (fun v => decide (v ≠ 1))).length = 3 :=
  fun _ => ⟨rfl, rfl, rfl, rfl⟩

/-- C3 (defect of the code): on the tree `(1,(2,_,_),_)` and the predicate `v != 1`,
`Tree::filter` dereferences a null pointer whatever the fuel: `insertIntoRight` is called
on node 2, whose `right` is null, and calls `right->insertIntoRight`. -/
theorem Tree.filter_null_dereference :
    ∀ k : Nat,
      Tree.filter (fun v => decide (v ≠ 1)) (k + 3) leftChildStore (some 1) = Res.nullDeref :=
  fun _ => rfl

/-! ## Claims about `is_bst` -/

/-- C4: for every represented tree over a linear order, `is_bst` returns (given enough
fuel) a boolean that is true exactly when the value tree has the BST property, and that is
the verdict of the min/max-bound reference check; it returns false for
`(5,(3,_,_),(8,(2,_,_),_))` and true for the empty tree. -/
theorem Tree.is_bst_correct :
    (∀ (T : Type) [LinearOrder T] [Inhabited T] (s : Store T) (p : Ptr) (t : BT (Nat × T)),
      Rep s p t →
      ∃ b s1, (Ext s s1 ∧ s1.cells.length = s.cells.length) ∧
        (∃ N, ∀ fuel, N ≤ fuel → Tree.is_bst fuel s p = Res.ok (b, s1)) ∧
        (b = true ↔ BT.IsBST (BT.vals t)) ∧ b = BT.boundCheck none none (BT.vals t)) ∧
    (∀ k : Nat, Tree.is_bst (k + 4) exStore (some 3) = Res.ok (false, exStore)) ∧
    (∀ (T : Type) [LinearOrder T] [Inhabited T] (s : Store T) (fuel : Nat),
      Tree.is_bst fuel s none = Res.ok (true, s)) := by
  refine ⟨?_, fun _ => rfl, fun _ _ _ _ _ => rfl⟩
  intro T _ _ s p t h
  obtain ⟨s1, hs1, hN⟩ := Tree.is_bst_run h
  refine ⟨_, s1, hs1, hN, (bstFold_spec _).2, ?_⟩
  rw [Bool.eq_iff_iff, (bstFold_spec _).2, BT.boundCheck_iff]
  simp

/-- C4 at the tree `(5,(3,_,_),(8,(2,_,_),_))`. -/
theorem Tree.is_bst_correct_witness :
    Rep exStore (some 3) exTree ∧
    ∃ b s1, (Ext exStore s1 ∧ s1.cells.length = exStore.cells.length) ∧
      (∃ N, ∀ fuel, N ≤ fuel → Tree.is_bst fuel exStore (some 3) = Res.ok (b, s1)) ∧
      (b = true ↔ BT.IsBST (BT.vals exTree)) ∧ b = BT.boundCheck none none (BT.vals exTree) :=
  ⟨exStore_rep, Tree.is_bst_correct.1 Nat exStore (some 3) exTree exStore_rep⟩

/-- C5: when two different positions of a represented tree hold equal values, `is_bst`
returns false (given enough fuel). -/
theorem Tree.is_bst_false_of_duplicate [LinearOrder T] [Inhabited T] {s : Store T} {p : Ptr}
    {t : BT (Nat × T)} (h : Rep s p t) {i j : List Bool} {v : T} (hij : i ≠ j)
    (hi : BT.get? (BT.vals t) i = some v) (hj : BT.get? (BT.vals t) j = some v) :
    ∃ s1, (Ext s s1 ∧ s1.cells.length = s.cells.length) ∧
      ∃ N, ∀ fuel, N ≤ fuel → Tree.is_bst fuel s p = Res.ok (false, s1) := by
  obtain ⟨s1, hs1, N, hN⟩ := Tree.is_bst_run h
  refine ⟨s1, hs1, N, fun fuel hf => ?_⟩
  rw [hN fuel hf]
  have hb : (BT.fold Tree.isBstStep (true, default, default, true) (BT.vals t)).1 = false := by
    cases hc : (BT.fold Tree.isBstStep (true, default, default, true) (BT.vals t)).1 with
    | false => rfl
    | true => exact absurd (((bstFold_spec _).2.1 hc).get?_inj hi hj) hij
  rw [hb]

/-- C5 at the tree `(5,_,(5,_,_))`: the root and its right child hold 5. -/
theorem Tree.is_bst_false_of_duplicate_witness :
    ∃ s1, (Ext dupStore s1 ∧ s1.cells.length = dupStore.cells.length) ∧
      ∃ N, ∀ fuel, N ≤ fuel → Tree.is_bst fuel dupStore (some 1) = Res.ok (false, s1) :=
  Tree.is_bst_false_of_duplicate dupStore_rep (i := []) (j := [true]) (v := 5) (by decide)
    rfl rfl

/-! ## Claims about the traversals -/

/-- C10: for every tree (a pointer that unfolds to a finite shape), given enough fuel
`size` returns the number of nodes and `inorder`, `preorder` and `postorder` each return
a sequence of exactly that length. -/
theorem Tree.size_eq_length_traversals {s : Store T} {p : Ptr} {t : BT Nat}
    (h : Shape s p t) :
    ∃ N, ∀ fuel, N ≤ fuel → ∃ n li lp lq,
      Tree.size fuel s p = Res.ok n ∧ Tree.inorder fuel s p = Res.ok li ∧
      Tree.preorder fuel s p = Res.ok lp ∧ Tree.postorder fuel s p = Res.ok lq ∧
      n = li.length ∧ n = lp.length ∧ n = lq.length := by
  obtain ⟨N0, h0⟩ := Tree.noValFold_spec (fun s1 s2 => s1 + s2 + 1) 0 h
  obtain ⟨N1, h1⟩ := Tree.inorder_spec h
  obtain ⟨N2, h2⟩ := Tree.preorder_spec h
  obtain ⟨N3, h3⟩ := Tree.postorder_spec h
  refine ⟨max (max N0 N1) (max N2 N3), fun fuel hf => ?_⟩
  refine ⟨_, _, _, _, h0 fuel (by omega), h1 fuel (by omega), h2 fuel (by omega),
    h3 fuel (by omega), ?_, ?_, ?_⟩
  · rw [BT.fold_size, List.length_map, BT.length_inorder]
  · rw [BT.fold_size, List.length_map, BT.length_preorder]
  · rw [BT.fold_size, List.length_map, BT.length_postorder]

/-- C10 at the tree `(4,(2,_,_),(6,_,_))`. -/
theorem Tree.size_eq_length_traversals_witness :
    ∃ N, ∀ fuel, N ≤ fuel → ∃ n li lp lq,
      Tree.size fuel smallStore (some 2) = Res.ok n ∧
      Tree.inorder fuel smallStore (some 2) = Res.ok li ∧
      Tree.preorder fuel smallStore (some 2) = Res.ok lp ∧
      Tree.postorder fuel smallStore (some 2) = Res.ok lq ∧
      n = li.length ∧ n = lp.length ∧ n = lq.length :=
  Tree.size_eq_length_traversals (Rep.shape smallStore_rep)

/-! ## `makeCopy` -/

theorem lt_of_getElem? {α : Type} {l : List α} {a : Nat} {x : α} (h : l[a]? = some x) :
    a < l.length := by
  by_contra hge
  rw [List.getElem?_eq_none (by omega)] at h
  cases h

theorem getElem?_append_some {α : Type} {l : List α} {a : Nat} {x : α} (h : l[a]? = some x)
    (l2 : List α) : (l ++ l2)[a]? = some x := by
  rw [List.getElem?_append_left (lt_of_getElem? h)]; exact h

@[simp] theorem BT.addrs_nil : BT.addrs (BT.nil : BT (Nat × T)) = BT.nil := rfl

@[simp] theorem BT.addrs_node (l r : BT (Nat × T)) (av : Nat × T) :
    BT.addrs (BT.node l av r) = BT.node (BT.addrs l) av.1 (BT.addrs r) := rfl

@[simp] theorem BT.inorder_nil {α : Type} : BT.inorder (BT.nil : BT α) = [] := rfl

@[simp] theorem BT.inorder_node {α : Type} (l r : BT α) (a : α) :
    BT.inorder (BT.node l a r) = (BT.inorder l ++ [a]) ++ BT.inorder r := rfl

theorem Val.append_cells {s : Store T} {a : Nat} {v : T} (h : Val s a v) (l2 : List (Node T))
    (c : List Nat) : Val ⟨s.cells ++ l2, c⟩ a v := by
  induction h with
  | stored hn hr => exact Val.stored (s := ⟨_, c⟩) (getElem?_append_some hn l2) hr
  | deferred hn hr hs _ ih =>
    exact Val.deferred (s := ⟨_, c⟩) (getElem?_append_some hn l2) hr hs ih

theorem Ext.by_append (s : Store T) (l2 : List (Node T)) (c : List Nat) :
    Ext s ⟨s.cells ++ l2, c⟩ :=
  ⟨by simp, fun _ n h => ⟨n, getElem?_append_some h l2, rfl, rfl, rfl, rfl, rfl, fun _ => rfl⟩,
    fun _ _ h => h.append_cells l2 c⟩

theorem Eager.extend_eager {s s1 : Store T} (h : Ext s s1) {p : Ptr} {t : BT (Nat × T)}
    (he : Eager s p t) : Eager s1 p t := by
  induction t generalizing p with
  | nil => exact he
  | node l av r ihl ihr =>
    obtain ⟨hp, n, hn, hz, hv, hl, hr⟩ := he
    obtain ⟨m, hm, _, _, _, _, _, e6⟩ := h.links _ n hn
    have hmn : m = n := e6 (by simp [Node.resolved, hz])
    subst hmn
    exact ⟨hp, m, hm, hz, hv, ihl hl, ihr hr⟩

theorem Eager.rep {s : Store T} {p : Ptr} {t : BT (Nat × T)} (he : Eager s p t) :
    Rep s p t := by
  induction t generalizing p with
  | nil => exact he
  | node l av r ihl ihr =>
    obtain ⟨hp, n, hn, hz, hv, hl, hr⟩ := he
    exact ⟨hp, n, hn, Val.of_stored hn (by simp [Node.resolved, hz]) hv, ihl hl, ihr hr⟩

theorem Region.extend_region {n : Nat} {s s1 : Store T} (hr : Region n s) (h : Ext s s1)
    (hlen : s1.cells.length = s.cells.length) : Region n s1 := by
  intro i m hi hm
  have hlt : i < s.cells.length := hlen ▸ lt_of_getElem? hm
  obtain ⟨m0, hm0⟩ : ∃ m0, s.cells[i]? = some m0 :=
    ⟨s.cells[i], List.getElem?_eq_getElem hlt⟩
  have h0 := hr i m0 hi hm0
  obtain ⟨m1, hm1, _, _, _, _, _, e6⟩ := h.links i m0 hm0
  have : m1 = m0 := e6 (by simp [Node.resolved, h0.1])
  rw [hm] at hm1; cases hm1
  rw [this]; exact h0

/-- The fold of `makeCopy` builds, in fresh cells, an eager tree with the values of the
original; the fresh cells are distinct, lie above the cells of the original store and form
a closed region. -/
theorem copy_spec {s : Store T} {p : Ptr} {t : BT (Nat × T)} (h : Rep s p t) :
    ∃ s1 r t1, (Ext s s1 ∧ Eager s1 r t1 ∧ BT.vals t1 = BT.vals t ∧
        (∀ x ∈ BT.inorder (BT.addrs t1), s.cells.length ≤ x ∧ x < s1.cells.length) ∧
        (BT.inorder (BT.addrs t1)).Nodup ∧
        (∀ n, n ≤ s.cells.length → Region n s → Region n s1)) ∧
      ∃ N, ∀ fuel, N ≤ fuel → Tree.fold copyOp none fuel s p = Res.ok (r, s1) := by
  induction t generalizing s p with
  | nil =>
    have hp : p = none := h
    subst hp
    exact ⟨s, none, .nil, ⟨Ext.refl s, rfl, rfl, by simp, by simp, fun _ _ hr => hr⟩,
      0, fun _ _ => rfl⟩
  | node l av r ihl ihr =>
    obtain ⟨hp, n, hn, hv, hl, hr⟩ := h
    subst hp
    obtain ⟨s1, ⟨hext1, hlen1, m, hm, _, hmv⟩, N0, hN0⟩ := getValue_spec hv
    obtain ⟨m', hm', e1, e2, _⟩ := hext1.links _ n hn
    rw [hm] at hm'; cases hm'
    obtain ⟨s2, rl, tl, ⟨hext2, heag2, hvals2, hrange2, hnd2, hreg2⟩, N1, hN1⟩ :=
      ihl (e1 ▸ Rep.extend hext1 hl)
    obtain ⟨s3, rr, tr, ⟨hext3, heag3, hvals3, hrange3, hnd3, hreg3⟩, N2, hN2⟩ :=
      ihr (e2 ▸ Rep.extend (hext1.trans hext2) hr)
    have hle2 := hext2.len
    have hle3 := hext3.len
    have hext4 : Ext s3 ⟨s3.cells ++ [Node.mkValue av.2 rl rr], s3.calls⟩ := Ext.by_append s3 _ _
    have hnew : (s3.cells ++ [Node.mkValue av.2 rl rr])[s3.cells.length]? =
        some (Node.mkValue av.2 rl rr) := by simp
    refine ⟨⟨s3.cells ++ [Node.mkValue av.2 rl rr], s3.calls⟩, some s3.cells.length,
      .node tl (s3.cells.length, av.2) tr, ⟨?_, ?_, ?_, ?_, ?_, ?_⟩,
      max N0 (max N1 N2) + 1, fun fuel hf => ?_⟩
    · exact ((hext1.trans hext2).trans hext3).trans hext4
    · exact ⟨rfl, _, hnew, rfl, rfl, (heag2.extend_eager hext3).extend_eager hext4, heag3.extend_eager hext4⟩
    · simp [hvals2, hvals3]
    · intro x hx
      simp only [BT.addrs_node, BT.inorder_node, List.mem_append, List.mem_singleton] at hx
      simp only [List.length_append, List.length_singleton]
      rcases hx with (hx | hx) | hx
      · have := hrange2 x hx; omega
      · subst hx; omega
      · have := hrange3 x hx; omega
    · simp only [BT.addrs_node, BT.inorder_node]
      rw [List.nodup_append, List.nodup_append]
      refine ⟨⟨hnd2, by simp, ?_⟩, hnd3, ?_⟩
      · intro x hx hx'
        simp only [List.mem_singleton] at hx'
        have := hrange2 x hx; omega
      · intro x hx hx'
        simp only [List.mem_append, List.mem_singleton] at hx
        have h3 := hrange3 x hx'
        rcases hx with hx | hx
        · have := hrange2 x hx; omega
        · omega
    · intro k hk hreg
      have hreg3' : Region k s3 :=
        hreg3 k (by omega) (hreg2 k (by omega) (hreg.extend_region hext1 hlen1))
      intro i c hi hc
      by_cases hlt : i < s3.cells.length
      · rw [List.getElem?_append_left hlt] at hc
        exact hreg3' i c hi hc
      · have hi' : i = s3.cells.length := by
          have := lt_of_getElem? hc
          simp only [List.length_append, List.length_singleton] at this
          omega
        subst hi'
        rw [hnew] at hc; cases hc
        refine ⟨rfl, ?_, ?_⟩
        · intro x hx
          have hx' : rl = some x := hx
          subst hx'
          cases tl with
          | nil => cases heag2
          | node tl1 bv tl2 =>
            have hb : some x = some bv.1 := heag2.1
            cases hb
            have := hrange2 bv.1 (by simp)
            omega
        · intro x hx
          have hx' : rr = some x := hx
          subst hx'
          cases tr with
          | nil => cases heag3
          | node tr1 bv tr2 =>
            have hb : some x = some bv.1 := heag3.1
            cases hb
            have := hrange3 bv.1 (by simp)
            omega
    · obtain ⟨k, rfl⟩ : ∃ k, fuel = k + 1 := ⟨fuel - 1, by omega⟩
      simp only [Tree.fold]
      rw [Node.fold_succ, hN0 k (by omega)]
      simp [load_eq_ok hm, hN1 k (by omega), hN2 k (by omega), hmv, copyOp, alloc]

/-! ## `map` -/

theorem BT.inorder_map {α β : Type} (f : α → β) (t : BT α) :
    BT.inorder (BT.map f t) = (BT.inorder t).map f := by
  induction t with
  | nil => rfl
  | node l a r ihl ihr => simp [BT.map, ihl, ihr]

theorem BT.map_map {α β γ : Type} (f : α → β) (g : β → γ) (t : BT α) :
    BT.map g (BT.map f t) = BT.map (fun a => g (f a)) t := by
  induction t with
  | nil => rfl
  | node l a r ihl ihr => simp [BT.map, ihl, ihr]

/-- Member function `Node::apply` on a cell that is not lazy: the value is replaced by what the operation
leaves in it. -/
theorem Node.apply_eager {C : Type} (op : T → C → T × C) {s : Store T} {a : Nat} {n : Node T}
    (hn : s.cells[a]? = some n) (hz : n.isLazy = false) (k : Nat) (c : C) :
    Node.apply op (k + 1) s a c =
      Res.ok ((op n.value c).2, put s a { n with value := (op n.value c).1 }) := by
  have hr : n.resolved = true := by simp [Node.resolved, hz]
  simp [Node.apply, getValue_resolved hn hr, load_eq_ok hn]

/-- The loop of `Tree::apply` with the operation of `map`, over distinct cells that are not
lazy: every visited cell gets `f` of its value, nothing else changes. -/
theorem Tree.applyLoop_map (f : T → T) (L : List Nat) (s : Store T) (hnd : L.Nodup)
    (hL : ∀ a ∈ L, ∃ n, s.cells[a]? = some n ∧ n.isLazy = false) :
    ∃ s1, (s1.cells.length = s.cells.length ∧ s1.calls = s.calls ∧
        (∀ i, i ∉ L → s1.cells[i]? = s.cells[i]?) ∧
        (∀ a ∈ L, ∀ n, s.cells[a]? = some n →
          s1.cells[a]? = some { n with value := f n.value })) ∧
      ∀ k, Tree.applyLoop (fun val (u : Unit) => (f val, u)) (k + 1) s (L.map some) () =
        Res.ok ((), s1) := by
  induction L generalizing s with
  | nil => exact ⟨s, ⟨rfl, rfl, fun _ _ => rfl, by simp⟩, fun _ => rfl⟩
  | cons a L ih =>
    obtain ⟨n, hn, hz⟩ := hL a (by simp)
    have hlt := lt_of_getElem? hn
    have haL : a ∉ L := (List.nodup_cons.mp hnd).1
    have hne : ∀ b ∈ L, b ≠ a := fun b hb hba => haL (hba ▸ hb)
    obtain ⟨s1, ⟨hlen, hcalls, hout, hin⟩, hrun⟩ :=
      ih (put s a { n with value := f n.value }) (List.nodup_cons.mp hnd).2 (by
        intro b hb
        obtain ⟨m, hm, hmz⟩ := hL b (by simp [hb])
        exact ⟨m, by simp [put, List.getElem?_set, Ne.symm (hne b hb), hm], hmz⟩)
    refine ⟨s1, ⟨by simpa [put] using hlen, hcalls, ?_, ?_⟩, fun k => ?_⟩
    · intro i hi
      simp only [List.mem_cons, not_or] at hi
      rw [hout i hi.2]
      simp [put, List.getElem?_set, Ne.symm hi.1]
    · intro b hb m hm
      by_cases hba : b = a
      · subst hba
        rw [hn] at hm; cases hm
        rw [hout b haL]
        simp [put, List.getElem?_set, hlt]
      · have hbL : b ∈ L := by
          rcases List.mem_cons.mp hb with h | h
          · exact absurd h hba
          · exact h
        exact hin b hbL m (by simp [put, List.getElem?_set, Ne.symm hba, hm])
    · simp only [List.map_cons, Tree.applyLoop, callOn]
      rw [Node.apply_eager _ hn hz]
      exact hrun k

/-- After the loop of `map`, an eager tree whose cells were all visited holds `f` of its
former values. -/
theorem Eager.mapped (f : T → T) {s s1 : Store T} {L : List Nat}
    (hin : ∀ a ∈ L, ∀ n, s.cells[a]? = some n →
      s1.cells[a]? = some { n with value := f n.value })
    {p : Ptr} {t : BT (Nat × T)} (he : Eager s p t)
    (hL : ∀ x ∈ BT.inorder (BT.addrs t), x ∈ L) :
    Eager s1 p (BT.map (fun av => (av.1, f av.2)) t) := by
  induction t generalizing p with
  | nil => exact he
  | node l av r ihl ihr =>
    obtain ⟨hp, n, hn, hz, hv, hl, hr⟩ := he
    refine ⟨hp, _, hin av.1 (hL _ (by simp)) n hn, hz, by simp [hv], ?_, ?_⟩
    · exact ihl hl (fun x hx => hL x (by simp [hx]))
    · exact ihr hr (fun x hx => hL x (by simp [hx]))

/-- A store that keeps the cells of `s1` below the length of `s` extends `s` when `s1` does. -/
theorem Ext.of_agree {s s1 s2 : Store T} (h : Ext s s1) (hlen : s.cells.length ≤ s2.cells.length)
    (hag : ∀ i, i < s.cells.length → s2.cells[i]? = s1.cells[i]?) : Ext s s2 := by
  have hlinks : ∀ (a : Nat) (n : Node T), s.cells[a]? = some n → ∃ m : Node T,
      s2.cells[a]? = some m ∧ m.left = n.left ∧ m.right = n.right ∧ m.isLazy = n.isLazy ∧
      m.nodeToGetValueFrom = n.nodeToGetValueFrom ∧ m.transform = n.transform ∧
      (n.resolved = true → m = n) := by
    intro a n hn
    obtain ⟨m, hm, hrest⟩ := h.links a n hn
    exact ⟨m, by rw [hag a (lt_of_getElem? hn)]; exact hm, hrest⟩
  refine ⟨hlen, hlinks, ?_⟩
  intro a v hv
  induction hv with
  | @stored a n hn hr =>
    obtain ⟨m, hm, _, _, _, _, _, e6⟩ := hlinks a n hn
    have := e6 hr
    subst this
    exact Val.stored hm hr
  | @deferred a n src w hn hr hs hw ih =>
    obtain ⟨m, hm, _, _, e3, e4, e5, _⟩ := hlinks a n hn
    have hm1 : s1.cells[a]? = some m := by rw [← hag a (lt_of_getElem? hn)]; exact hm
    have hv1 : Val s1 a (n.transform w) := h.val _ _ (Val.deferred hn hr hs hw)
    cases hmr : m.resolved with
    | true =>
      have : m.value = n.transform w := Val.unique (Val.stored hm1 hmr) hv1
      rw [← this]
      exact Val.stored hm hmr
    | false =>
      rw [← e5]
      exact Val.deferred hm hmr (e4.trans hs) ih

theorem Eager.cell_of_mem {s : Store T} {p : Ptr} {t : BT (Nat × T)} (he : Eager s p t)
    {a : Nat} (ha : a ∈ BT.inorder (BT.addrs t)) :
    ∃ n, s.cells[a]? = some n ∧ n.isLazy = false := by
  induction t generalizing p with
  | nil => simp at ha
  | node l av r ihl ihr =>
    obtain ⟨_, n, hn, hz, _, hl, hr⟩ := he
    simp only [BT.addrs_node, BT.inorder_node, List.mem_append, List.mem_singleton] at ha
    rcases ha with (ha | ha) | ha
    · exact ihl hl ha
    · subst ha; exact ⟨n, hn, hz⟩
    · exact ihr hr ha

theorem Tree.map_eq (f : T → T) (fuel : Nat) (s : Store T) (p : Ptr) :
    Tree.map f fuel s p = (Tree.fold copyOp none fuel s p >>= fun r =>
      Tree.apply (fun val (u : Unit) => (f val, u)) Tree.inorder fuel r.2 r.1 () >>= fun x =>
      Res.ok (r.1, x.2)) := by
  cases p <;> rfl

/-- Function `map` returns, in fresh cells, an eager tree of the same shape whose values are `f` of
the values of the original; the original store is extended, not changed. -/
theorem Tree.map_spec (f : T → T) {s : Store T} {p : Ptr} {t : BT (Nat × T)}
    (h : Rep s p t) :
    ∃ s2 r t2, (Ext s s2 ∧ Eager s2 r t2 ∧ BT.vals t2 = BT.map f (BT.vals t)) ∧
      ∃ N, ∀ fuel, N ≤ fuel → Tree.map f fuel s p = Res.ok (r, s2) := by
  obtain ⟨s1, r, t1, ⟨hext, heag, hvals, hrange, hnd, _⟩, N0, hN0⟩ := copy_spec h
  obtain ⟨N1, hN1⟩ := Tree.inorder_spec (Rep.shape heag.rep)
  obtain ⟨s2, ⟨hlen, _, hout, hin⟩, hrun⟩ :=
    Tree.applyLoop_map f (BT.inorder (BT.addrs t1)) s1 hnd (fun a ha => heag.cell_of_mem ha)
  refine ⟨s2, r, BT.map (fun av => (av.1, f av.2)) t1, ⟨?_, ?_, ?_⟩, max N0 N1 + 1,
    fun fuel hf => ?_⟩
  · refine Ext.of_agree hext (by have := hext.len; omega) ?_
    intro i hi
    exact hout i (fun hmem => by have := hrange i hmem; omega)
  · exact Eager.mapped f hin heag (fun x hx => hx)
  · rw [← hvals]
    simp [BT.vals, BT.map_map]
  · obtain ⟨k, rfl⟩ : ∃ k, fuel = k + 1 := ⟨fuel - 1, by omega⟩
    rw [Tree.map_eq, hN0 (k + 1) (by omega)]
    simp [Tree.apply, hN1 (k + 1) (by omega), hrun k]

/-! ## Reading a tree: the loop of `apply` with an operation that leaves the values alone -/

theorem put_self {s : Store T} {a : Nat} {m : Node T} (h : s.cells[a]? = some m) :
    put s a m = s := by
  obtain ⟨cells, calls⟩ := s
  simp only [put, Store.mk.injEq, and_true]
  apply List.ext_getElem?
  intro i
  by_cases hi : a = i
  · subst hi; simp [List.getElem?_set, lt_of_getElem? h, h]
  · simp [List.getElem?_set, hi]

/-- The loop of `Tree::apply` with an operation that only reads: it folds the operation over
the values the cells resolve to, and leaves an extension of the store with the same cells. -/
theorem Tree.applyLoop_read {C : Type} (g : C → T → C) (L : List (Nat × T)) (s : Store T)
    (c : C) (hL : ∀ av ∈ L, Val s av.1 av.2) :
    ∃ s1, (Ext s s1 ∧ s1.cells.length = s.cells.length) ∧
      ∃ N, ∀ fuel, N ≤ fuel →
        Tree.applyLoop (fun v x => (v, g x v)) fuel s (L.map (fun av => some av.1)) c =
          Res.ok (L.foldl (fun x av => g x av.2) c, s1) := by
  induction L generalizing s c with
  | nil => exact ⟨s, ⟨Ext.refl s, rfl⟩, 0, fun _ _ => rfl⟩
  | cons av L ih =>
    obtain ⟨s1, ⟨hext1, hlen1, m, hm, _, hmv⟩, N0, hN0⟩ := getValue_spec (hL av (by simp))
    obtain ⟨s2, ⟨hext2, hlen2⟩, N1, hN1⟩ :=
      ih s1 (g c av.2) (fun bv hb => hext1.val _ _ (hL bv (by simp [hb])))
    refine ⟨s2, ⟨hext1.trans hext2, by omega⟩, max N0 N1, fun fuel hf => ?_⟩
    simp only [List.map_cons, Tree.applyLoop, callOn, Node.apply]
    rw [hN0 fuel (by omega)]
    simp only [Res.ok_bind, load_eq_ok hm, Res.pure_eq]
    rw [put_self hm, hmv]
    exact hN1 fuel (by omega)

theorem Rep.val_of_mem {s : Store T} {p : Ptr} {t : BT (Nat × T)} (h : Rep s p t)
    {av : Nat × T} (ha : av ∈ BT.inorder t) : Val s av.1 av.2 := by
  induction t generalizing p with
  | nil => simp at ha
  | node l bv r ihl ihr =>
    obtain ⟨_, n, hn, hv, hl, hr⟩ := h
    simp only [BT.inorder_node, List.mem_append, List.mem_singleton] at ha
    rcases ha with (ha | ha) | ha
    · exact ihl hl ha
    · subst ha; exact hv
    · exact ihr hr ha

theorem List.foldl_snoc_snd {α β : Type} (L : List (α × β)) (c : List β) :
    L.foldl (fun x av => x ++ [av.2]) c = c ++ L.map Prod.snd := by
  induction L generalizing c with
  | nil => simp
  | cons a L ih => simp [ih]

/-- Running `print(inorder)` writes the values of the tree in inorder. -/
theorem Tree.print_inorder_spec {s : Store T} {p : Ptr} {t : BT (Nat × T)} (h : Rep s p t) :
    ∃ s1, (Ext s s1 ∧ s1.cells.length = s.cells.length) ∧
      ∃ N, ∀ fuel, N ≤ fuel →
        Tree.print Tree.inorder fuel s p = Res.ok (BT.inorder (BT.vals t), s1) := by
  obtain ⟨N0, hN0⟩ := Tree.inorder_spec (Rep.shape h)
  obtain ⟨s1, hs1, N1, hN1⟩ := Tree.applyLoop_read (fun (x : List T) v => x ++ [v])
    (BT.inorder t) s [] (fun av ha => h.val_of_mem ha)
  refine ⟨s1, hs1, max N0 N1, fun fuel hf => ?_⟩
  have e1 : (BT.inorder (BT.addrs t)).map some = (BT.inorder t).map (fun av => some av.1) := by
    simp [BT.addrs, BT.inorder_map]
  have e2 : BT.inorder (BT.vals t) = (BT.inorder t).map Prod.snd := by
    simp [BT.vals, BT.inorder_map]
  simp only [Tree.print, Tree.apply]
  rw [hN0 fuel (by omega), e1]
  simp only [Res.ok_bind]
  rw [hN1 fuel (by omega), List.foldl_snoc_snd, e2]
  simp

/-- C6: for every represented tree and every `f`, `map(f)` returns (given enough fuel) a
tree of the same shape whose value at every position is `f` of the original value there, so
that its inorder values, which `print(inorder)` writes, are `f` applied elementwise to the
inorder values of the original; for the tree 4 with leaves 2 and 6 and `v -> v*10` they
are `[20,40,60]`. -/
theorem Tree.map_inorder :
    (∀ (T : Type) (f : T → T) (s : Store T) (p : Ptr) (t : BT (Nat × T)), Rep s p t →
      ∃ s2 r t2, Rep s2 r t2 ∧ BT.vals t2 = BT.map f (BT.vals t) ∧
        BT.inorder (BT.vals t2) = (BT.inorder (BT.vals t)).map f ∧
        (∃ N, ∀ fuel, N ≤ fuel → Tree.map f fuel s p = Res.ok (r, s2)) ∧
        (∃ s0 N, ∀ fuel, N ≤ fuel →
          Tree.print Tree.inorder fuel s p = Res.ok (BT.inorder (BT.vals t), s0)) ∧
        (∃ s3 N, ∀ fuel, N ≤ fuel →
          Tree.print Tree.inorder fuel s2 r = Res.ok ((BT.inorder (BT.vals t)).map f, s3))) ∧
    (∀ k : Nat, (Tree.map (fun v => v * 10) (k + 3) smallStore (some 2) >>= fun r =>
      Tree.print Tree.inorder (k + 3) r.2 r.1 >>= fun o => Res.ok o.1) =
        Res.ok [20, 40, 60]) := by
  refine ⟨?_, fun _ => rfl⟩
  intro T f s p t h
  obtain ⟨s2, r, t2, ⟨_, heag, hvals⟩, hN⟩ := Tree.map_spec f h
  have hin : BT.inorder (BT.vals t2) = (BT.inorder (BT.vals t)).map f := by
    rw [hvals, BT.inorder_map]
  obtain ⟨s0, _, h0⟩ := Tree.print_inorder_spec h
  obtain ⟨s3, _, h3⟩ := Tree.print_inorder_spec heag.rep
  exact ⟨s2, r, t2, heag.rep, hvals, hin, hN, ⟨s0, h0⟩, ⟨s3, hin ▸ h3⟩⟩

/-- C6 at the tree `(4,(2,_,_),(6,_,_))` with `v -> v*10`. -/
theorem Tree.map_inorder_witness :
    ∃ s2 r t2, Rep s2 r t2 ∧ BT.vals t2 = BT.map (fun v => v * 10) (BT.vals smallTree) ∧
      BT.inorder (BT.vals t2) = (BT.inorder (BT.vals smallTree)).map (fun v => v * 10) ∧
      (∃ N, ∀ fuel, N ≤ fuel →
        Tree.map (fun v => v * 10) fuel smallStore (some 2) = Res.ok (r, s2)) ∧
      (∃ s0 N, ∀ fuel, N ≤ fuel → Tree.print Tree.inorder fuel smallStore (some 2) =
        Res.ok (BT.inorder (BT.vals smallTree), s0)) ∧
      (∃ s3 N, ∀ fuel, N ≤ fuel → Tree.print Tree.inorder fuel s2 r =
        Res.ok ((BT.inorder (BT.vals smallTree)).map (fun v => v * 10), s3)) :=
  Tree.map_inorder.1 Nat (fun v => v * 10) smallStore (some 2) smallTree smallStore_rep

theorem BT.get?_map {α β : Type} (f : α → β) (t : BT α) (pos : List Bool) :
    BT.get? (BT.map f t) pos = (BT.get? t pos).map f := by
  induction t generalizing pos with
  | nil => simp [BT.map, BT.get?]
  | node l a r ihl ihr =>
    cases pos with
    | nil => simp [BT.map, BT.get?]
    | cons b pos => cases b <;> simp [BT.map, BT.get?, ihl, ihr]

/-! ## `lazy_map` -/

theorem getElem?_snoc {α : Type} (l : List α) (x : α) : (l ++ [x])[l.length]? = some x := by
  simp

theorem Node.makeLazyCopy_succ [Inhabited T] (f : T → T) (fuel : Nat) (s : Store T) (a : Nat)
    (you : Ptr) :
    Node.makeLazyCopy f (fuel + 1) s a you = (load s a >>= fun n =>
      Tree.lazy_map f fuel s n.left >>= fun l =>
      Tree.lazy_map f fuel l.2 n.right >>= fun r =>
      Res.ok (alloc r.2 (Node.mkLazy l.1 r.1 true f you))) := by
  rw [Node.makeLazyCopy]
  cases load s a with
  | ok n =>
    obtain ⟨val, l, r, b1, b2, src, tr⟩ := n
    simp only [Res.ok_bind]
    cases l with
    | none =>
      simp only [Tree.lazy_map, Res.pure_eq, Res.ok_bind]
      cases r with
      | none => rfl
      | some y => rfl
    | some x =>
      simp only [Tree.lazy_map]
      cases Node.makeLazyCopy f fuel s x (some x) with
      | ok r2 =>
        simp only [Res.ok_bind]
        cases r with
        | none => rfl
        | some y => rfl
      | nullDeref => rfl
      | outOfFuel => rfl
  | nullDeref => rfl
  | outOfFuel => rfl

/-- Function `lazy_map` only allocates: it appends, for every node of the tree, one unresolved lazy
cell whose source is that node and whose transform is `f`; the new tree has the shape of
the original and resolves, at every position, to `f` of the original value; no transform
is called. -/
theorem Tree.lazy_map_spec [Inhabited T] (f : T → T) {s : Store T} {p : Ptr}
    {t : BT (Nat × T)} (h : Rep s p t) :
    ∃ extra r t1, (Rep ⟨s.cells ++ extra, s.calls⟩ r t1 ∧ BT.vals t1 = BT.map f (BT.vals t) ∧
        (∀ x ∈ BT.inorder (BT.addrs t1),
          s.cells.length ≤ x ∧ x < s.cells.length + extra.length) ∧
        (BT.inorder (BT.addrs t1)).Nodup ∧
        (∀ av ∈ BT.inorder t1, ∃ n bv, (s.cells ++ extra)[av.1]? = some n ∧
          n.resolved = false ∧ n.nodeToGetValueFrom = some bv.1 ∧ n.transform = f ∧
          bv ∈ BT.inorder t ∧ av.2 = f bv.2)) ∧
      ∃ N, ∀ fuel, N ≤ fuel →
        Tree.lazy_map f fuel s p = Res.ok (r, ⟨s.cells ++ extra, s.calls⟩) := by
  induction t generalizing s p with
  | nil =>
    have hp : p = none := h
    subst hp
    refine ⟨[], none, .nil, ⟨rfl, rfl, by simp, by simp, by simp⟩, 0, fun _ _ => ?_⟩
    simp [Tree.lazy_map]
  | node l av r ihl ihr =>
    obtain ⟨hp, n, hn, hv, hl, hr⟩ := h
    subst hp
    obtain ⟨e1, rl, tl, ⟨hrep1, hvals1, hrange1, hnd1, hcell1⟩, N1, hN1⟩ := ihl hl
    have hext1 : Ext s ⟨s.cells ++ e1, s.calls⟩ := Ext.by_append s e1 _
    obtain ⟨e2, rr, tr, ⟨hrep2, hvals2, hrange2, hnd2, hcell2⟩, N2, hN2⟩ :=
      ihr (Rep.extend hext1 hr)
    simp only [List.length_append] at hrange2
    have hext2 : Ext (⟨s.cells ++ e1, s.calls⟩ : Store T) ⟨(s.cells ++ e1) ++ e2, s.calls⟩ :=
      Ext.by_append _ e2 _
    have hext3 : Ext (⟨(s.cells ++ e1) ++ e2, s.calls⟩ : Store T)
        ⟨((s.cells ++ e1) ++ e2) ++ [Node.mkLazy rl rr true f (some av.1)], s.calls⟩ :=
      Ext.by_append _ _ _
    have hassoc : s.cells ++ ((e1 ++ e2) ++ [Node.mkLazy rl rr true f (some av.1)]) =
        ((s.cells ++ e1) ++ e2) ++ [Node.mkLazy rl rr true f (some av.1)] := by
      simp [List.append_assoc]
    have hnew : (((s.cells ++ e1) ++ e2) ++ [Node.mkLazy rl rr true f (some av.1)])[
        ((s.cells ++ e1) ++ e2).length]? = some (Node.mkLazy rl rr true f (some av.1)) :=
      getElem?_snoc _ _
    refine ⟨(e1 ++ e2) ++ [Node.mkLazy rl rr true f (some av.1)],
      some ((s.cells ++ e1) ++ e2).length,
      .node tl (((s.cells ++ e1) ++ e2).length, f av.2) tr, ⟨?_, ?_, ?_, ?_, ?_⟩,
      max N1 N2 + 1, fun fuel hf => ?_⟩
    · rw [hassoc]
      refine ⟨rfl, _, hnew, ?_, (hrep1.extend hext2).extend hext3, hrep2.extend hext3⟩
      exact Val.deferred (s := ⟨_, s.calls⟩) hnew (by simp [Node.resolved, Node.mkLazy]) rfl
        (((hext1.trans hext2).trans hext3).val _ _ hv)
    · simp only [BT.vals_node, BT.map, hvals1, hvals2]
      rfl
    · intro x hx
      simp only [BT.addrs_node, BT.inorder_node, List.mem_append, List.mem_singleton] at hx
      simp only [List.length_append, List.length_singleton]
      rcases hx with (hx | hx) | hx
      · have := hrange1 x hx; omega
      · subst hx; simp only [List.length_append]; omega
      · have := hrange2 x hx; omega
    · simp only [BT.addrs_node, BT.inorder_node]
      rw [List.nodup_append, List.nodup_append]
      refine ⟨⟨hnd1, by simp, ?_⟩, hnd2, ?_⟩
      · intro x hx hx'
        simp only [List.mem_singleton, List.length_append] at hx'
        have := hrange1 x hx; omega
      · intro x hx hx'
        simp only [List.mem_append, List.mem_singleton, List.length_append] at hx
        have h3 := hrange2 x hx'
        rcases hx with hx | hx
        · have := hrange1 x hx; omega
        · omega
    · intro bv hb
      rw [hassoc]
      simp only [BT.inorder_node, List.mem_append, List.mem_singleton] at hb
      rcases hb with (hb | hb) | hb
      · obtain ⟨m, cv, hm, h1, h2, h3, h4, h5⟩ := hcell1 bv hb
        exact ⟨m, cv, getElem?_append_some (getElem?_append_some hm _) _, h1, h2, h3,
          by simp [h4], h5⟩
      · subst hb
        exact ⟨_, av, hnew, by simp [Node.resolved, Node.mkLazy], rfl, rfl, by simp, rfl⟩
      · obtain ⟨m, cv, hm, h1, h2, h3, h4, h5⟩ := hcell2 bv hb
        exact ⟨m, cv, getElem?_append_some hm _, h1, h2, h3, by simp [h4], h5⟩
    · obtain ⟨k, rfl⟩ : ∃ k, fuel = k + 1 := ⟨fuel - 1, by omega⟩
      simp only [Tree.lazy_map]
      rw [Node.makeLazyCopy_succ, load_eq_ok hn]
      simp only [Res.ok_bind]
      rw [hN1 k (by omega)]
      simp only [Res.ok_bind]
      rw [hN2 k (by omega)]
      simp [alloc, List.append_assoc]

/-- C7: for every represented tree and every `f`, `lazy_map(f)` returns (given enough
fuel) a tree of the same shape as the original, and a read (`getValue`) of any of its
nodes, in any later state of the store, yields `f` of the resolved value of the node at
the same position of the original. -/
theorem Tree.lazy_map_shape_and_values [Inhabited T] (f : T → T) {s : Store T} {p : Ptr}
    {t : BT (Nat × T)} (h : Rep s p t) :
    ∃ s1 r t1, (∃ N, ∀ fuel, N ≤ fuel → Tree.lazy_map f fuel s p = Res.ok (r, s1)) ∧
      Rep s1 r t1 ∧ BT.vals t1 = BT.map f (BT.vals t) ∧
      ∀ (pos : List Bool) (a : Nat) (w : T), BT.get? t1 pos = some (a, w) →
        (∃ b v, BT.get? t pos = some (b, v) ∧ w = f v) ∧
        ∀ s2, Ext s1 s2 → ∃ s3, Ext s2 s3 ∧
          ∃ N, ∀ fuel, N ≤ fuel → getValue fuel s2 a = Res.ok (w, s3) := by
  obtain ⟨extra, r, t1, ⟨hrep, hvals, _⟩, hN⟩ := Tree.lazy_map_spec f h
  refine ⟨⟨s.cells ++ extra, s.calls⟩, r, t1, hN, hrep, hvals, ?_⟩
  intro pos a w hpos
  constructor
  · have h1 : BT.get? (BT.vals t1) pos = some w := by
      rw [BT.vals, BT.get?_map, hpos]; rfl
    rw [hvals, BT.vals, BT.map_map, BT.get?_map] at h1
    cases hg : BT.get? t pos with
    | none => rw [hg] at h1; cases h1
    | some bv =>
      rw [hg] at h1
      simp only [Option.map_some', Option.some.injEq] at h1
      exact ⟨bv.1, bv.2, rfl, h1.symm⟩
  · intro s2 hext
    have hv : Val s2 a w :=
      hext.val a w (hrep.val_of_mem (BT.get?_mem_inorder hpos))
    obtain ⟨s3, ⟨hext3, _⟩, hN3⟩ := getValue_spec hv
    exact ⟨s3, hext3, hN3⟩

/-- C7 at the tree `(4,(2,_,_),(6,_,_))` with `v -> v*10`. -/
theorem Tree.lazy_map_shape_and_values_witness :
    ∃ s1 r t1,
      (∃ N, ∀ fuel, N ≤ fuel →
        Tree.lazy_map (fun v => v * 10) fuel smallStore (some 2) = Res.ok (r, s1)) ∧
      Rep s1 r t1 ∧ BT.vals t1 = BT.map (fun v => v * 10) (BT.vals smallTree) ∧
      ∀ (pos : List Bool) (a : Nat) (w : Nat), BT.get? t1 pos = some (a, w) →
        (∃ b v, BT.get? smallTree pos = some (b, v) ∧ w = v * 10) ∧
        ∀ s2, Ext s1 s2 → ∃ s3, Ext s2 s3 ∧
          ∃ N, ∀ fuel, N ≤ fuel → getValue fuel s2 a = Res.ok (w, s3) :=
  Tree.lazy_map_shape_and_values (fun v => v * 10) smallStore_rep

/-! ## Memoization: the log of `transform` calls -/

/-- Filling the cache of an unresolved cell with the value it resolves to, after an
extension, is again an extension. -/
theorem Ext.fill_ext {s s1 : Store T} (hext : Ext s s1) {a : Nat} {n m : Node T}
    (hn : s.cells[a]? = some n) (hr : n.resolved = false) (hm : s1.cells[a]? = some m)
    {v : T} (hv : Val s1 a v) (c : List Nat) :
    Ext s ⟨s1.cells.set a { m with value := v, isValueSet := true }, c⟩ := by
  have hlt := lt_of_getElem? hm
  obtain ⟨m', hm', e1, e2, e3, e4, e5, _⟩ := hext.links a n hn
  rw [hm] at hm'; cases hm'
  refine ⟨by simpa using hext.len, ?_, ?_⟩
  · intro b k hk
    by_cases hab : b = a
    · subst hab
      rw [hn] at hk; cases hk
      refine ⟨{ m with value := v, isValueSet := true },
        by simp [List.getElem?_set, hlt], e1, e2, e3, e4, e5, ?_⟩
      intro h'; rw [hr] at h'; cases h'
    · obtain ⟨m', hm', hl⟩ := hext.links b k hk
      exact ⟨m', by simp [List.getElem?_set, Ne.symm hab, hm'], hl⟩
  · intro b u hb
    exact Val.fill_val hm hv (hext.val _ _ hb)

/-- Running `getValue` in a later state of a store in which the cell resolves: the calls it logs are
calls of cells of the earlier store, and the cells above the earlier store are untouched. -/
theorem getValue_log {s0 : Store T} {a : Nat} {v : T} (hv : Val s0 a v) :
    ∀ s, Ext s0 s → ∃ s1 tr, (Ext s s1 ∧ s1.cells.length = s.cells.length ∧
        s1.calls = s.calls ++ tr ∧ (∀ x ∈ tr, x < s0.cells.length) ∧
        (∀ i, s0.cells.length ≤ i → s1.cells[i]? = s.cells[i]?)) ∧
      ∃ N, ∀ fuel, N ≤ fuel → getValue fuel s a = Res.ok (v, s1) := by
  induction hv with
  | @stored a n hn hr =>
    intro s hext
    obtain ⟨m, hm, _, _, _, _, _, e6⟩ := hext.links a n hn
    have := e6 hr
    subst this
    refine ⟨s, [], ⟨Ext.refl s, rfl, by simp, by simp, fun _ _ => rfl⟩, 1, fun fuel hf => ?_⟩
    obtain ⟨k, rfl⟩ : ∃ k, fuel = k + 1 := ⟨fuel - 1, by omega⟩
    exact getValue_resolved hm hr k
  | @deferred a n src w hn hr hs hw ih =>
    intro s hext
    obtain ⟨m, hm, _, _, _, e4, e5, _⟩ := hext.links a n hn
    have hvs : Val s a (n.transform w) := hext.val _ _ (Val.deferred hn hr hs hw)
    cases hmr : m.resolved with
    | true =>
      have hmv : m.value = n.transform w := Val.unique (Val.stored hm hmr) hvs
      refine ⟨s, [], ⟨Ext.refl s, rfl, by simp, by simp, fun _ _ => rfl⟩, 1,
        fun fuel hf => ?_⟩
      obtain ⟨k, rfl⟩ : ∃ k, fuel = k + 1 := ⟨fuel - 1, by omega⟩
      rw [getValue_resolved hm hmr k, hmv]
    | false =>
      obtain ⟨s', tr, ⟨hext', hlen', hcalls', htr', hhi'⟩, N, hN⟩ := ih s hext
      obtain ⟨m', hm', _, _, _, _, f5, _⟩ := hext'.links a m hm
      have hva : Val s' a (m'.transform w) := by
        rw [f5, e5]; exact hext'.val _ _ hvs
      have hlt := lt_of_getElem? hn
      refine ⟨⟨s'.cells.set a { m' with value := m'.transform w, isValueSet := true },
        s'.calls ++ [a]⟩, tr ++ [a], ⟨hext'.fill_ext hm hmr hm' hva _, by simp [hlen'],
        by simp [hcalls'], ?_, ?_⟩, N + 1, fun fuel hf => ?_⟩
      · intro x hx
        rcases List.mem_append.mp hx with hx | hx
        · exact htr' x hx
        · simp only [List.mem_singleton] at hx; omega
      · intro i hi
        have hia : a ≠ i := by omega
        simp only [List.getElem?_set, hia, if_false]
        exact hhi' i hi
      · obtain ⟨k, rfl⟩ : ∃ k, fuel = k + 1 := ⟨fuel - 1, by omega⟩
        rw [getValue_succ, load_eq_ok hm]
        simp [hmr, e4, hs, callOn, hN k (by omega), load_eq_ok hm', f5, e5]

/-- The first read of an unresolved cell that lies above the store its source resolves in:
its `transform` is called once (the calls logged before it are calls of cells of that
earlier store), the result is cached, and no other cell above the earlier store changes. -/
theorem getValue_first_read {s0 s2 : Store T} {a b : Nat} {v : T} {m : Node T}
    (hv : Val s0 b v) (hext : Ext s0 s2) (hm : s2.cells[a]? = some m)
    (hmr : m.resolved = false) (hsrc : m.nodeToGetValueFrom = some b)
    (ha : s0.cells.length ≤ a) :
    ∃ s3 tr, (Ext s2 s3 ∧ s3.cells.length = s2.cells.length ∧
        s3.calls = (s2.calls ++ tr) ++ [a] ∧ (∀ x ∈ tr, x < s0.cells.length) ∧
        (∃ m3, s3.cells[a]? = some m3 ∧ m3.resolved = true ∧ m3.value = m.transform v) ∧
        (∀ i, s0.cells.length ≤ i → i ≠ a → s3.cells[i]? = s2.cells[i]?)) ∧
      ∃ N, ∀ fuel, N ≤ fuel → getValue fuel s2 a = Res.ok (m.transform v, s3) := by
  obtain ⟨s', tr, ⟨hext', hlen', hcalls', htr', hhi'⟩, N, hN⟩ := getValue_log hv s2 hext
  have hm' : s'.cells[a]? = some m := by rw [hhi' a ha]; exact hm
  have hva : Val s' a (m.transform v) :=
    Val.deferred hm' hmr hsrc ((hext.trans hext').val _ _ hv)
  have hlt := lt_of_getElem? hm'
  refine ⟨⟨s'.cells.set a { m with value := m.transform v, isValueSet := true },
    s'.calls ++ [a]⟩, tr, ⟨hext'.fill_ext hm hmr hm' hva _, by simp [hlen'], by simp [hcalls'],
    htr', ?_, ?_⟩, N + 1, fun fuel hf => ?_⟩
  · exact ⟨{ m with value := m.transform v, isValueSet := true },
      by simp [List.getElem?_set, hlt], by simp [Node.resolved], rfl⟩
  · intro i hi hia
    simp only [List.getElem?_set, Ne.symm hia, if_false]
    exact hhi' i hi
  · obtain ⟨k, rfl⟩ : ∃ k, fuel = k + 1 := ⟨fuel - 1, by omega⟩
    rw [getValue_succ, load_eq_ok hm]
    simp [hmr, hsrc, callOn, hN k (by omega), load_eq_ok hm']

theorem Ext.resolved_cell {s s1 : Store T} (hext : Ext s s1) {a : Nat} {m : Node T}
    (hm : s.cells[a]? = some m) (hr : m.resolved = true) : s1.cells[a]? = some m := by
  obtain ⟨m', hm', _, _, _, _, _, e6⟩ := hext.links a m hm
  rw [hm', e6 hr]

theorem Sourced.extend_sourced {s0 s s1 : Store T} {A : List Nat} (h : Sourced s0 s A)
    (hext : Ext s s1) : Sourced s0 s1 A := by
  intro a ha
  obtain ⟨hle, m, b, v, hm, hb, hv⟩ := h a ha
  obtain ⟨m', hm', _, _, _, e4, _⟩ := hext.links a m hm
  exact ⟨hle, m', b, v, hm', e4.trans hb, hv⟩

theorem Shape.extend_shape {s s1 : Store T} (h : Ext s s1) {p : Ptr} {t : BT Nat}
    (hs : Shape s p t) : Shape s1 p t := by
  induction t generalizing p with
  | nil => exact hs
  | node l a r ihl ihr =>
    obtain ⟨hp, n, hn, hl, hr⟩ := hs
    obtain ⟨m, hm, e1, e2, _⟩ := h.links _ n hn
    exact ⟨hp, m, hm, e1 ▸ ihl hl, e2 ▸ ihr hr⟩

/-- One visit of `apply` with an operation that only reads, on a cell of `A`: afterwards
the cell is resolved, and the tally of calls is kept. -/
theorem Node.apply_read_tally {C : Type} (g : C → T → C) {s0 s1 s2 : Store T} {A : List Nat}
    (h0 : Ext s0 s2) (hsrc : Sourced s0 s2 A) (htal : Tally s1 s2 A) {a : Nat} (ha : a ∈ A)
    (c : C) :
    ∃ s3 c3, (Ext s2 s3 ∧ Tally s1 s3 A ∧ ∃ m, s3.cells[a]? = some m ∧ m.resolved = true) ∧
      ∃ N, ∀ fuel, N ≤ fuel →
        Node.apply (fun v x => (v, g x v)) fuel s2 a c = Res.ok (c3, s3) := by
  obtain ⟨hle, m, b, v, hm, hb, hv⟩ := hsrc a ha
  cases hmr : m.resolved with
  | true =>
    refine ⟨s2, g c m.value, ⟨Ext.refl s2, htal, m, hm, hmr⟩, 1, fun fuel hf => ?_⟩
    obtain ⟨k, rfl⟩ : ∃ k, fuel = k + 1 := ⟨fuel - 1, by omega⟩
    simp only [Node.apply]
    rw [getValue_resolved hm hmr k]
    simp only [Res.ok_bind, load_eq_ok hm, Res.pure_eq]
    rw [put_self hm]
  | false =>
    obtain ⟨s3, tr, ⟨hext, _, hcalls, htr, ⟨m3, hm3, hm3r, hm3v⟩, hhi⟩, N, hN⟩ :=
      getValue_first_read hv h0 hm hmr hb hle
    refine ⟨s3, g c m3.value, ⟨hext, ?_, m3, hm3, hm3r⟩, N, fun fuel hf => ?_⟩
    · intro a' ha'
      obtain ⟨m', hm', hcount⟩ := htal a' ha'
      have hle' := (hsrc a' ha').1
      have htr0 : tr.count a' = 0 :=
        List.count_eq_zero_of_not_mem (fun hx => by have := htr a' hx; omega)
      by_cases haa : a' = a
      · subst haa
        rw [hm] at hm'; cases hm'
        refine ⟨m3, hm3, ?_⟩
        rw [hcalls, List.count_append, List.count_append, htr0, hcount]
        simp [hmr, hm3r]
      · refine ⟨m', by rw [hhi a' hle' haa]; exact hm', ?_⟩
        rw [hcalls, List.count_append, List.count_append, htr0, hcount]
        simp [haa]
    · simp only [Node.apply]
      rw [hN fuel hf]
      simp only [Res.ok_bind, load_eq_ok hm3, Res.pure_eq]
      rw [put_self hm3]

/-- The loop of `apply` with an operation that only reads, over cells of `A`: afterwards
every visited cell is resolved, and the tally of calls is kept. -/
theorem Tree.applyLoop_read_tally {C : Type} (g : C → T → C) {s0 s1 : Store T}
    {A : List Nat} (L : List Nat) (hL : ∀ a ∈ L, a ∈ A) :
    ∀ (s2 : Store T) (c : C), Ext s0 s2 → Sourced s0 s2 A → Tally s1 s2 A →
      ∃ s3 c3, (Ext s2 s3 ∧ Tally s1 s3 A ∧
          ∀ a ∈ L, ∃ m, s3.cells[a]? = some m ∧ m.resolved = true) ∧
        ∃ N, ∀ fuel, N ≤ fuel →
          Tree.applyLoop (fun v x => (v, g x v)) fuel s2 (L.map some) c = Res.ok (c3, s3) := by
  induction L with
  | nil =>
    intro s2 c _ _ htal
    exact ⟨s2, c, ⟨Ext.refl s2, htal, by simp⟩, 0, fun _ _ => rfl⟩
  | cons a L ih =>
    intro s2 c h0 hsrc htal
    obtain ⟨s3, c3, ⟨hext3, htal3, m, hm, hmr⟩, N0, hN0⟩ :=
      Node.apply_read_tally g h0 hsrc htal (hL a (by simp)) c
    obtain ⟨s4, c4, ⟨hext4, htal4, hres4⟩, N1, hN1⟩ :=
      ih (fun b hb => hL b (by simp [hb])) s3 c3 (h0.trans hext3) (hsrc.extend_sourced hext3) htal3
    refine ⟨s4, c4, ⟨hext3.trans hext4, htal4, ?_⟩, max N0 N1, fun fuel hf => ?_⟩
    · intro b hb
      rcases List.mem_cons.mp hb with hb | hb
      · subst hb; exact ⟨m, hext4.resolved_cell hm hmr, hmr⟩
      · exact hres4 b hb
    · simp only [List.map_cons, Tree.applyLoop, callOn]
      rw [hN0 fuel (by omega)]
      exact hN1 fuel (by omega)

theorem Order.run_spec (o : Order) {s : Store T} {p : Ptr} {t : BT Nat} (h : Shape s p t) :
    ∃ N, ∀ fuel, N ≤ fuel → o.run fuel s p = Res.ok ((BT.listed o t).map some) := by
  cases o with
  | pre => exact Tree.preorder_spec h
  | ino => exact Tree.inorder_spec h
  | post => exact Tree.postorder_spec h

theorem BT.mem_listed {α : Type} (o : Order) (t : BT α) (x : α) :
    x ∈ BT.listed o t ↔ x ∈ BT.inorder t := by
  induction t with
  | nil => cases o <;> simp [BT.listed, BT.preorder, BT.postorder]
  | node l a r ihl ihr =>
    cases o
    · simp only [BT.listed, BT.preorder, BT.inorder_node, List.mem_append, List.mem_singleton]
        at ihl ihr ⊢
      rw [ihl, ihr]; tauto
    · rfl
    · simp only [BT.listed, BT.postorder, BT.inorder_node, List.mem_append, List.mem_singleton]
        at ihl ihr ⊢
      rw [ihl, ihr]; tauto

/-- One `print` in any order over a tree whose cells are `A`: afterwards every cell of the
tree is resolved, and the tally of calls is kept. -/
theorem Tree.print_tally (o : Order) {s0 s1 s2 : Store T} {r : Ptr} {t : BT Nat}
    (hshape : Shape s2 r t) (h0 : Ext s0 s2) (hsrc : Sourced s0 s2 (BT.inorder t))
    (htal : Tally s1 s2 (BT.inorder t)) :
    ∃ s3 out, (Ext s2 s3 ∧ Tally s1 s3 (BT.inorder t) ∧
        ∀ a ∈ BT.inorder t, ∃ m, s3.cells[a]? = some m ∧ m.resolved = true) ∧
      ∃ N, ∀ fuel, N ≤ fuel → Tree.print o.run fuel s2 r = Res.ok (out, s3) := by
  obtain ⟨N0, hN0⟩ := o.run_spec hshape
  obtain ⟨s3, c3, ⟨hext, htal3, hres⟩, N1, hN1⟩ :=
    Tree.applyLoop_read_tally (fun (x : List T) v => x ++ [v]) (BT.listed o t)
      (fun a ha => (BT.mem_listed o t a).mp ha) s2 [] h0 hsrc htal
  refine ⟨s3, c3, ⟨hext, htal3, fun a ha => hres a ((BT.mem_listed o t a).mpr ha)⟩,
    max N0 N1, fun fuel hf => ?_⟩
  simp only [Tree.print, Tree.apply]
  rw [hN0 fuel (by omega)]
  exact hN1 fuel (by omega)

/-- Any number of full traversals, one after the other: the tally of calls is kept, and
after the first one every cell of the tree is resolved. -/
theorem traverseAll_tally {s0 s1 : Store T} {r : Ptr} {t : BT Nat} (os : List Order) :
    ∀ s2 : Store T, Shape s2 r t → Ext s0 s2 → Sourced s0 s2 (BT.inorder t) →
      Tally s1 s2 (BT.inorder t) →
      ∃ s3, (Ext s2 s3 ∧ Tally s1 s3 (BT.inorder t) ∧
          (os ≠ [] → ∀ a ∈ BT.inorder t, ∃ m, s3.cells[a]? = some m ∧ m.resolved = true)) ∧
        ∃ N, ∀ fuel, N ≤ fuel → traverseAll os fuel s2 r = Res.ok s3 := by
  induction os with
  | nil =>
    intro s2 _ _ _ htal
    exact ⟨s2, ⟨Ext.refl s2, htal, fun h => absurd rfl h⟩, 0, fun _ _ => rfl⟩
  | cons o os ih =>
    intro s2 hshape h0 hsrc htal
    obtain ⟨s3, out, ⟨hext3, htal3, hres3⟩, N0, hN0⟩ := Tree.print_tally o hshape h0 hsrc htal
    obtain ⟨s4, ⟨hext4, htal4, _⟩, N1, hN1⟩ :=
      ih s3 (hshape.extend_shape hext3) (h0.trans hext3) (hsrc.extend_sourced hext3) htal3
    refine ⟨s4, ⟨hext3.trans hext4, htal4, fun _ a ha => ?_⟩, max N0 N1, fun fuel hf => ?_⟩
    · obtain ⟨m, hm, hmr⟩ := hres3 a ha
      exact ⟨m, hext4.resolved_cell hm hmr, hmr⟩
    · simp only [traverseAll]
      rw [hN0 fuel (by omega)]
      exact hN1 fuel (by omega)

theorem BT.size_map {α β : Type} (f : α → β) (t : BT α) : BT.size (BT.map f t) = BT.size t := by
  induction t with
  | nil => rfl
  | node l a r ihl ihr => simp [BT.map, BT.size, ihl, ihr]

/-- C8: `lazy_map(f)` logs no call of a transform; every cell of the tree it returns is
unresolved and has `f` as its transform; the first `getValue` on such a cell returns `f`
of the source value, logs one call of the cell's transform and caches the result, so that
every later `getValue` returns the same value and leaves the store, log included, as it
is; and after any number (at least one) of full traversals, in any orders, the log has
exactly one call for every cell of the tree. -/
theorem Tree.lazy_map_memoized [Inhabited T] (f : T → T) {s : Store T} {p : Ptr}
    {t : BT (Nat × T)} (h : Rep s p t) :
    ∃ s1 r t1, (∃ N, ∀ fuel, N ≤ fuel → Tree.lazy_map f fuel s p = Res.ok (r, s1)) ∧
      Rep s1 r t1 ∧ BT.size t1 = BT.size t ∧ s1.calls = s.calls ∧
      (∀ av ∈ BT.inorder t1, ∃ m, s1.cells[av.1]? = some m ∧ m.resolved = false ∧
        m.transform = f) ∧
      (∀ av ∈ BT.inorder t1, ∀ s2 m, Ext s1 s2 → s2.cells[av.1]? = some m →
        m.resolved = false →
        ∃ s3, Ext s2 s3 ∧
          (∃ N, ∀ fuel, N ≤ fuel → getValue fuel s2 av.1 = Res.ok (av.2, s3)) ∧
          s3.calls.count av.1 = s2.calls.count av.1 + 1 ∧
          ∀ s4, Ext s3 s4 → ∀ k, getValue (k + 1) s4 av.1 = Res.ok (av.2, s4)) ∧
      (∀ (o : Order) (os : List Order), ∃ s3,
        (∃ N, ∀ fuel, N ≤ fuel → traverseAll (o :: os) fuel s1 r = Res.ok s3) ∧
        ∀ a ∈ BT.inorder (BT.addrs t1), s3.calls.count a = s.calls.count a + 1) := by
  obtain ⟨extra, r, t1, ⟨hrep, hvals, hrange, _, hcell⟩, hN⟩ := Tree.lazy_map_spec f h
  have hext : Ext s ⟨s.cells ++ extra, s.calls⟩ := Ext.by_append s extra _
  have hmem : ∀ a ∈ BT.inorder (BT.addrs t1), ∃ av ∈ BT.inorder t1, av.1 = a := by
    intro a ha
    rw [BT.addrs, BT.inorder_map] at ha
    obtain ⟨av, hav, e⟩ := List.mem_map.mp ha
    exact ⟨av, hav, e⟩
  have hmem' : ∀ av ∈ BT.inorder t1, av.1 ∈ BT.inorder (BT.addrs t1) := by
    intro av hav
    rw [BT.addrs, BT.inorder_map]
    exact List.mem_map.mpr ⟨av, hav, rfl⟩
  refine ⟨⟨s.cells ++ extra, s.calls⟩, r, t1, hN, hrep, ?_, rfl, ?_, ?_, ?_⟩
  · have := congrArg BT.size hvals
    rw [BT.vals, BT.size_map, BT.size_map, BT.vals, BT.size_map] at this
    exact this
  · intro av hav
    obtain ⟨n, bv, hn, hnr, _, hnt, _⟩ := hcell av hav
    exact ⟨n, hn, hnr, hnt⟩
  · intro av hav s2 m hext2 hm hmr
    obtain ⟨n, bv, hn, hnr, hnsrc, hnt, hbv, hval⟩ := hcell av hav
    obtain ⟨m', hm', _, _, _, e4, e5, _⟩ := hext2.links av.1 n hn
    rw [hm] at hm'; cases hm'
    have hle := (hrange av.1 (hmem' av hav)).1
    obtain ⟨s3, tr, ⟨hext3, _, hcalls, htr, ⟨m3, hm3, hm3r, hm3v⟩, _⟩, hN3⟩ :=
      getValue_first_read (Rep.val_of_mem h hbv) (hext.trans hext2) hm hmr (e4.trans hnsrc) hle
    have hv : m.transform bv.2 = av.2 := by rw [e5, hnt, hval]
    rw [hv] at hN3 hm3v
    refine ⟨s3, hext3, hN3, ?_, ?_⟩
    · have htr0 : tr.count av.1 = 0 :=
        List.count_eq_zero_of_not_mem (fun hx => by have := htr av.1 hx; omega)
      rw [hcalls, List.count_append, List.count_append, htr0]
      simp
    · intro s4 hext4 k
      rw [getValue_resolved (hext4.resolved_cell hm3 hm3r) hm3r k, hm3v]
  · intro o os
    have hsrc : Sourced s (⟨s.cells ++ extra, s.calls⟩ : Store T)
        (BT.inorder (BT.addrs t1)) := by
      intro a ha
      obtain ⟨av, hav, rfl⟩ := hmem a ha
      obtain ⟨n, bv, hn, _, hnsrc, _, hbv, _⟩ := hcell av hav
      exact ⟨(hrange av.1 ha).1, n, bv.1, bv.2, hn, hnsrc, Rep.val_of_mem h hbv⟩
    have htal : Tally (⟨s.cells ++ extra, s.calls⟩ : Store T) ⟨s.cells ++ extra, s.calls⟩
        (BT.inorder (BT.addrs t1)) := by
      intro a ha
      obtain ⟨av, hav, rfl⟩ := hmem a ha
      obtain ⟨n, bv, hn, hnr, _⟩ := hcell av hav
      exact ⟨n, hn, by simp [hnr]⟩
    obtain ⟨s3, ⟨_, htal3, hres3⟩, hN3⟩ :=
      traverseAll_tally (o :: os) _ (Rep.shape hrep) hext hsrc htal
    refine ⟨s3, hN3, fun a ha => ?_⟩
    obtain ⟨m, hm, hcount⟩ := htal3 a ha
    obtain ⟨m', hm', hmr⟩ := hres3 (by simp) a ha
    rw [hm] at hm'; cases hm'
    rw [hcount]
    simp [hmr]

/-- C8 at the tree `(4,(2,_,_),(6,_,_))` with `v -> v*10`. -/
theorem Tree.lazy_map_memoized_witness :
    ∃ s1 r t1,
      (∃ N, ∀ fuel, N ≤ fuel →
        Tree.lazy_map (fun v => v * 10) fuel smallStore (some 2) = Res.ok (r, s1)) ∧
      Rep s1 r t1 ∧ BT.size t1 = BT.size smallTree ∧ s1.calls = smallStore.calls ∧
      (∀ av ∈ BT.inorder t1, ∃ m, s1.cells[av.1]? = some m ∧ m.resolved = false ∧
        m.transform = fun v => v * 10) ∧
      (∀ av ∈ BT.inorder t1, ∀ s2 m, Ext s1 s2 → s2.cells[av.1]? = some m →
        m.resolved = false →
        ∃ s3, Ext s2 s3 ∧
          (∃ N, ∀ fuel, N ≤ fuel → getValue fuel s2 av.1 = Res.ok (av.2, s3)) ∧
          s3.calls.count av.1 = s2.calls.count av.1 + 1 ∧
          ∀ s4, Ext s3 s4 → ∀ k, getValue (k + 1) s4 av.1 = Res.ok (av.2, s4)) ∧
      (∀ (o : Order) (os : List Order), ∃ s3,
        (∃ N, ∀ fuel, N ≤ fuel → traverseAll (o :: os) fuel s1 r = Res.ok s3) ∧
        ∀ a ∈ BT.inorder (BT.addrs t1), s3.calls.count a = smallStore.calls.count a + 1) :=
  Tree.lazy_map_memoized (fun v => v * 10) smallStore_rep

/-! ## Frame: what `filter` and `map` leave of the store they start from -/

theorem load_ok {s : Store T} {a : Nat} {n : Node T} (h : load s a = Res.ok n) :
    s.cells[a]? = some n := by
  unfold load at h
  cases hc : s.cells[a]? with
  | none => rw [hc] at h; cases h
  | some m => rw [hc] at h; cases h; rfl

/-- Whenever `getValue` returns, with whatever fuel, it returns the value the cell resolves
to and leaves an extension of the store with the same cells. -/
theorem getValue_ok : ∀ (fuel : Nat) {s s1 : Store T} {a : Nat} {v : T},
    getValue fuel s a = Res.ok (v, s1) →
      Val s a v ∧ Ext s s1 ∧ s1.cells.length = s.cells.length := by
  intro fuel
  induction fuel with
  | zero => intro s s1 a v h; simp [getValue] at h
  | succ k ih =>
    intro s s1 a v h
    rw [getValue_succ] at h
    obtain ⟨n, hn, h⟩ := Res.bind_eq_ok.mp h
    have hn' := load_ok hn
    by_cases hres : n.resolved = true
    · rw [if_pos hres] at h
      cases h
      exact ⟨Val.stored hn' hres, Ext.refl s, rfl⟩
    · rw [if_neg hres] at h
      have hres' : n.resolved = false := by simpa using hres
      obtain ⟨r, hr, h⟩ := Res.bind_eq_ok.mp h
      obtain ⟨m, hm, h⟩ := Res.bind_eq_ok.mp h
      have hm' := load_ok hm
      cases hsrc : n.nodeToGetValueFrom with
      | none => rw [hsrc] at hr; cases hr
      | some b =>
        rw [hsrc] at hr
        obtain ⟨w, s'⟩ := r
        obtain ⟨hvb, hext, hlen⟩ := ih (show getValue k s b = Res.ok (w, s') from hr)
        obtain ⟨m0, hm0, _, _, _, _, e5, _⟩ := hext.links a n hn'
        rw [hm'] at hm0; cases hm0
        have hva : Val s a (m.transform w) := e5 ▸ Val.deferred hn' hres' hsrc hvb
        cases h
        exact ⟨hva, hext.fill_ext hn' hres' hm' (hext.val _ _ hva) _, by simp [hlen]⟩

/-- On a cell that is not lazy `getValue`, whenever it returns, returns the stored value
and the store as it was. -/
theorem getValue_ok_eager {fuel : Nat} {s s1 : Store T} {a : Nat} {v : T} {n : Node T}
    (h : getValue fuel s a = Res.ok (v, s1)) (hn : s.cells[a]? = some n)
    (hz : n.isLazy = false) : v = n.value ∧ s1 = s := by
  cases fuel with
  | zero => simp [getValue] at h
  | succ k =>
    rw [getValue_resolved hn (by simp [Node.resolved, hz]) k] at h
    cases h
    exact ⟨rfl, rfl⟩

theorem Region.after_put {n : Nat} {s : Store T} (hr : Region n s) {a : Nat} {m : Node T}
    (hz : m.isLazy = false) (hl : ∀ l, m.left = some l → n ≤ l)
    (hrt : ∀ r, m.right = some r → n ≤ r) : Region n (put s a m) := by
  intro i c hi hc
  simp only [put, List.getElem?_set] at hc
  by_cases hai : a = i
  · subst hai
    by_cases hlt : a < s.cells.length
    · simp only [hlt, if_true] at hc
      cases hc
      exact ⟨hz, hl, hrt⟩
    · simp [hlt] at hc
  · simp only [hai, if_false] at hc
    exact hr i c hi hc

theorem put_agree {n : Nat} (s : Store T) {a : Nat} (m : Node T) (ha : n ≤ a) :
    (put s a m).cells.length = s.cells.length ∧
    ∀ i, i < n → (put s a m).cells[i]? = s.cells[i]? := by
  refine ⟨by simp [put], fun i hi => ?_⟩
  have : a ≠ i := by omega
  simp [put, List.getElem?_set, this]

/-- Whenever the fold of `makeCopy` returns, with whatever fuel, it leaves an extension of
the store, keeps every closed region of eager cells closed, and returns a pointer to a
cell above the cells of the store it started from. -/
theorem copy_ok : ∀ (fuel : Nat) {s s1 : Store T} {p r : Ptr},
    Tree.fold copyOp none fuel s p = Res.ok (r, s1) →
      Ext s s1 ∧ (∀ n, n ≤ s.cells.length → Region n s → Region n s1) ∧
      (∀ x, r = some x → s.cells.length ≤ x) := by
  intro fuel
  induction fuel with
  | zero =>
    intro s s1 p r h
    cases p with
    | none => cases h; exact ⟨Ext.refl s, fun _ _ hr => hr, fun x hx => by cases hx⟩
    | some a => simp [Tree.fold, Node.fold] at h
  | succ k ih =>
    intro s s1 p r h
    cases p with
    | none => cases h; exact ⟨Ext.refl s, fun _ _ hr => hr, fun x hx => by cases hx⟩
    | some a =>
      simp only [Tree.fold] at h
      rw [Node.fold_succ] at h
      obtain ⟨⟨v, t1⟩, hg, h⟩ := Res.bind_eq_ok.mp h
      obtain ⟨n, hn, h⟩ := Res.bind_eq_ok.mp h
      obtain ⟨⟨rl, t2⟩, hl, h⟩ := Res.bind_eq_ok.mp h
      obtain ⟨⟨rr, t3⟩, hrr, h⟩ := Res.bind_eq_ok.mp h
      dsimp only at hn hl hrr h
      obtain ⟨_, hext1, hlen1⟩ := getValue_ok k hg
      obtain ⟨hext2, hreg2, hrl⟩ := ih hl
      obtain ⟨hext3, hreg3, hrrr⟩ := ih hrr
      have hle2 := hext2.len
      have hle3 := hext3.len
      simp only [copyOp, alloc, Res.ok.injEq, Prod.mk.injEq] at h
      obtain ⟨h1, h2⟩ := h
      subst h1; subst h2
      refine ⟨((hext1.trans hext2).trans hext3).trans (Ext.by_append _ _ _), ?_, ?_⟩
      · intro m hm hreg
        have hreg3' : Region m t3 :=
          hreg3 m (by omega) (hreg2 m (by omega) (hreg.extend_region hext1 hlen1))
        intro i c hi hc
        by_cases hlt : i < t3.cells.length
        · rw [List.getElem?_append_left hlt] at hc
          exact hreg3' i c hi hc
        · have hi' : i = t3.cells.length := by
            have := lt_of_getElem? hc
            simp only [List.length_append, List.length_singleton] at this
            omega
          subst hi'
          rw [getElem?_snoc] at hc; cases hc
          refine ⟨rfl, ?_, ?_⟩
          · intro x hx
            have := hrl x hx; omega
          · intro x hx
            have := hrrr x hx; omega
      · intro x hx
        cases hx
        omega

theorem Node.filter_succ (pred : T → Bool) (k : Nat) (s : Store T) (a : Nat) (you : Ptr) :
    Node.filter pred (k + 1) s a you = (getValue k s a >>= fun r0 =>
      if pred r0.1 = true then
        load r0.2 a >>= fun n =>
        (match n.right with
          | none => Res.ok r0.2
          | some r => Node.filter pred k r0.2 r n.right >>= fun x =>
              load x.2 a >>= fun m => Res.ok (put x.2 a { m with right := x.1 })) >>= fun s2 =>
        load s2 a >>= fun n2 =>
        (match n2.left with
          | none => Res.ok s2
          | some l => Node.filter pred k s2 l n2.left >>= fun x =>
              load x.2 a >>= fun m => Res.ok (put x.2 a { m with left := x.1 })) >>= fun s3 =>
        Res.ok (you, s3)
      else
        load r0.2 a >>= fun n =>
        (match n.left with
          | none => Res.ok (put r0.2 a { n with left := n.right })
          | some l => insertIntoRight k r0.2 l n.right) >>= fun s2 =>
        load s2 a >>= fun n2 => Res.ok (n2.left, s2)) := by
  rw [Node.filter]
  cases getValue k s a with
  | nullDeref => rfl
  | outOfFuel => rfl
  | ok r0 =>
    obtain ⟨v, s1⟩ := r0
    simp only [Res.ok_bind]
    cases hp : pred v with
    | false =>
      simp only [Bool.false_eq_true, if_false]
      cases load s1 a with
      | nullDeref => rfl
      | outOfFuel => rfl
      | ok n =>
        obtain ⟨val, l, r, b1, b2, src, tr⟩ := n
        cases l <;> rfl
    | true =>
      simp only [if_true]
      cases load s1 a with
      | nullDeref => rfl
      | outOfFuel => rfl
      | ok n =>
        obtain ⟨val, l, r, b1, b2, src, tr⟩ := n
        simp only [Res.ok_bind]
        cases r with
        | none =>
          simp only [Res.pure_eq, Res.ok_bind]
          cases load s1 a with
          | nullDeref => rfl
          | outOfFuel => rfl
          | ok n2 =>
            obtain ⟨val2, l2, r2, c1, c2, src2, tr2⟩ := n2
            cases l2 with
            | none => rfl
            | some x => simp only [Res.ok_bind, Res.bind_assoc, Res.pure_eq]
        | some y =>
          simp only [Res.pure_eq, Res.ok_bind, Res.bind_assoc]
          cases Node.filter pred k s1 y (some y) with
          | nullDeref => rfl
          | outOfFuel => rfl
          | ok x =>
            simp only [Res.ok_bind]
            cases load x.2 a with
            | nullDeref => rfl
            | outOfFuel => rfl
            | ok m =>
              simp only [Res.ok_bind]
              cases load (put x.2 a { m with right := x.1 }) a with
              | nullDeref => rfl
              | outOfFuel => rfl
              | ok n2 =>
                obtain ⟨val2, l2, r2, c1, c2, src2, tr2⟩ := n2
                cases l2 with
                | none => rfl
                | some z => simp only [Res.ok_bind, Res.bind_assoc, Res.pure_eq]

theorem Val.cell {s : Store T} {a : Nat} {v : T} (h : Val s a v) :
    ∃ n, s.cells[a]? = some n := by
  cases h with
  | stored hn _ => exact ⟨_, hn⟩
  | deferred hn _ _ _ => exact ⟨_, hn⟩

theorem insertIntoRight_ok {k : Nat} {s s1 : Store T} {a : Nat} {node : Ptr}
    (h : insertIntoRight k s a node = Res.ok s1) :
    ∃ m, s.cells[a]? = some m ∧ s1 = put s a { m with right := node } := by
  cases k with
  | zero => simp [insertIntoRight] at h
  | succ k =>
    rw [insertIntoRight] at h
    obtain ⟨m, hm, h⟩ := Res.bind_eq_ok.mp h
    by_cases hr : m.right = none
    · rw [if_pos hr, hr] at h
      cases h
    · rw [if_neg hr] at h
      cases h
      exact ⟨m, load_ok hm, rfl⟩

/-- Whenever `Node::filter` returns, with whatever fuel, on a cell of a closed region of
eager cells, it has written only to cells of the region, the region is still closed, and
the pointer it returns is null or points into the region. -/
theorem Node.filter_frame (pred : T → Bool) {n : Nat} :
    ∀ (k : Nat) {s s1 : Store T} {a : Nat} {you r : Ptr},
      Node.filter pred k s a you = Res.ok (r, s1) → n ≤ a → (∀ y, you = some y → n ≤ y) →
      Region n s →
      s1.cells.length = s.cells.length ∧ (∀ i, i < n → s1.cells[i]? = s.cells[i]?) ∧
        Region n s1 ∧ (∀ x, r = some x → n ≤ x) := by
  intro k
  induction k with
  | zero => intro s s1 a you r h; simp [Node.filter] at h
  | succ k ih =>
    intro s s1 a you r h ha hyou hreg
    rw [Node.filter_succ] at h
    obtain ⟨⟨v, t0⟩, hg, h0⟩ := Res.bind_eq_ok.mp h
    obtain ⟨n0, hn0⟩ := (getValue_ok k hg).1.cell
    obtain ⟨_, ht0⟩ := getValue_ok_eager hg hn0 (hreg a n0 ha hn0).1
    subst ht0
    clear h
    have h := h0
    dsimp only at h
    by_cases hp : pred v = true
    · rw [if_pos hp] at h
      obtain ⟨n1, hn1, h⟩ := Res.bind_eq_ok.mp h
      obtain ⟨s2, hs2, h⟩ := Res.bind_eq_ok.mp h
      obtain ⟨n2, hn2, h⟩ := Res.bind_eq_ok.mp h
      obtain ⟨s3, hs3, h⟩ := Res.bind_eq_ok.mp h
      simp only [Res.ok.injEq, Prod.mk.injEq] at h
      obtain ⟨hyr, hs31⟩ := h
      subst hyr; subst hs31
      have hn1' := load_ok hn1
      have hn2' := load_ok hn2
      have h2 : s2.cells.length = t0.cells.length ∧
          (∀ i, i < n → s2.cells[i]? = t0.cells[i]?) ∧ Region n s2 := by
        cases hr : n1.right with
        | none => rw [hr] at hs2; cases hs2; exact ⟨rfl, fun _ _ => rfl, hreg⟩
        | some y =>
          rw [hr] at hs2
          obtain ⟨⟨r', t⟩, hf, hs2⟩ := Res.bind_eq_ok.mp hs2
          obtain ⟨m, hm, hs2⟩ := Res.bind_eq_ok.mp hs2
          cases hs2
          have hy : n ≤ y := (hreg a n1 ha hn1').2.2 y hr
          obtain ⟨hlen, hag, hregt, hr'⟩ := ih hf hy (fun z hz => by cases hz; exact hy) hreg
          have hm' := hregt a m ha (load_ok hm)
          have hp := put_agree t { m with right := r' } ha
          exact ⟨hp.1.trans hlen, fun i hi => (hp.2 i hi).trans (hag i hi),
            hregt.after_put hm'.1 hm'.2.1 hr'⟩
      have h3 : s3.cells.length = s2.cells.length ∧
          (∀ i, i < n → s3.cells[i]? = s2.cells[i]?) ∧ Region n s3 := by
        cases hl : n2.left with
        | none => rw [hl] at hs3; cases hs3; exact ⟨rfl, fun _ _ => rfl, h2.2.2⟩
        | some y =>
          rw [hl] at hs3
          obtain ⟨⟨l', t⟩, hf, hs3⟩ := Res.bind_eq_ok.mp hs3
          obtain ⟨m, hm, hs3⟩ := Res.bind_eq_ok.mp hs3
          cases hs3
          have hy : n ≤ y := (h2.2.2 a n2 ha hn2').2.1 y hl
          obtain ⟨hlen, hag, hregt, hl'⟩ :=
            ih hf hy (fun z hz => by cases hz; exact hy) h2.2.2
          have hm' := hregt a m ha (load_ok hm)
          have hp := put_agree t { m with left := l' } ha
          exact ⟨hp.1.trans hlen, fun i hi => (hp.2 i hi).trans (hag i hi),
            hregt.after_put hm'.1 hl' hm'.2.2⟩
      exact ⟨h3.1.trans h2.1, fun i hi => (h3.2.1 i hi).trans (h2.2.1 i hi), h3.2.2, hyou⟩
    · rw [if_neg hp] at h
      obtain ⟨n1, hn1, h⟩ := Res.bind_eq_ok.mp h
      obtain ⟨s2, hs2, h⟩ := Res.bind_eq_ok.mp h
      obtain ⟨n2, hn2, h⟩ := Res.bind_eq_ok.mp h
      simp only [Res.ok.injEq, Prod.mk.injEq] at h
      obtain ⟨hyr, hs21⟩ := h
      subst hyr; subst hs21
      have hn1' := load_ok hn1
      have hc1 := hreg a n1 ha hn1'
      have h2 : s2.cells.length = t0.cells.length ∧
          (∀ i, i < n → s2.cells[i]? = t0.cells[i]?) ∧ Region n s2 := by
        cases hl : n1.left with
        | none =>
          rw [hl] at hs2; cases hs2
          have hp := put_agree t0 { n1 with left := n1.right } ha
          exact ⟨hp.1, hp.2, hreg.after_put hc1.1 hc1.2.2 hc1.2.2⟩
        | some y =>
          rw [hl] at hs2
          obtain ⟨m, hm, rfl⟩ := insertIntoRight_ok hs2
          have hy : n ≤ y := hc1.2.1 y hl
          have hm' := hreg y m hy hm
          have hp := put_agree t0 { m with right := n1.right } hy
          exact ⟨hp.1, hp.2, hreg.after_put hm'.1 hm'.2.1 hc1.2.2⟩
      exact ⟨h2.1, h2.2.1, h2.2.2, (h2.2.2 a n2 ha (load_ok hn2)).2.1⟩

theorem Region.vacuous (s : Store T) : Region s.cells.length s := by
  intro i m hi hm
  have := lt_of_getElem? hm
  omega

/-- Whenever `Tree::filter` returns, with whatever fuel, the store it leaves extends the
store it started from. -/
theorem Tree.filter_ext (pred : T → Bool) {fuel : Nat} {s s2 : Store T} {p r : Ptr}
    (h : Tree.filter pred fuel s p = Res.ok (r, s2)) : Ext s s2 := by
  cases p with
  | none => cases h; exact Ext.refl s
  | some a =>
    simp only [Tree.filter] at h
    obtain ⟨⟨newRoot, s1⟩, hc, h⟩ := Res.bind_eq_ok.mp h
    dsimp only at h
    obtain ⟨hext, hreg, hroot⟩ :=
      copy_ok fuel (show Tree.fold copyOp none fuel s (some a) = Res.ok (newRoot, s1) from hc)
    cases newRoot with
    | none => cases h
    | some b =>
      obtain ⟨hlen, hag, _, _⟩ := Node.filter_frame pred fuel h (hroot b rfl)
        (fun y hy => by cases hy; exact hroot b rfl) (hreg _ (le_refl _) (Region.vacuous s))
      exact Ext.of_agree hext (by have := hext.len; omega) hag

/-- Whenever a traversal of a closed region returns, it lists cells of the region. -/
theorem Tree.inorder_region {n : Nat} : ∀ (fuel : Nat) {s : Store T} {p : Ptr} {L : List Ptr},
    Tree.inorder fuel s p = Res.ok L → Region n s → (∀ x, p = some x → n ≤ x) →
      ∀ q ∈ L, ∃ x, q = some x ∧ n ≤ x := by
  intro fuel
  induction fuel with
  | zero =>
    intro s p L h _ _
    cases p with
    | none => cases h; simp
    | some a => simp [Tree.inorder, Node.inorder] at h
  | succ k ih =>
    intro s p L h hreg hp
    cases p with
    | none => cases h; simp
    | some a =>
      simp only [Tree.inorder] at h
      rw [Node.inorder_succ] at h
      obtain ⟨m, hm, h⟩ := Res.bind_eq_ok.mp h
      obtain ⟨l, hl, h⟩ := Res.bind_eq_ok.mp h
      obtain ⟨r, hr, h⟩ := Res.bind_eq_ok.mp h
      cases h
      have hc := hreg a m (hp a rfl) (load_ok hm)
      intro q hq
      simp only [List.mem_append, List.mem_singleton] at hq
      rcases hq with (hq | hq) | hq
      · exact ih hl hreg hc.2.1 q hq
      · exact ⟨a, hq, hp a rfl⟩
      · exact ih hr hreg hc.2.2 q hq

/-- Whenever the loop of `apply` over cells of a closed region of eager cells returns, it
has written only to cells of the region. -/
theorem Tree.applyLoop_frame {C : Type} (op : T → C → T × C) {n fuel : Nat} (L : List Ptr) :
    ∀ {s s1 : Store T} {c c1 : C}, Tree.applyLoop op fuel s L c = Res.ok (c1, s1) →
      Region n s → (∀ q ∈ L, ∃ x, q = some x ∧ n ≤ x) →
      s1.cells.length = s.cells.length ∧ (∀ i, i < n → s1.cells[i]? = s.cells[i]?) := by
  induction L with
  | nil => intro s s1 c c1 h _ _; cases h; exact ⟨rfl, fun _ _ => rfl⟩
  | cons q L ih =>
    intro s s1 c c1 h hreg hL
    obtain ⟨a, rfl, ha⟩ := hL q (by simp)
    simp only [Tree.applyLoop, callOn] at h
    obtain ⟨⟨c2, s2⟩, hap, hrest⟩ := Res.bind_eq_ok.mp h
    simp only [Node.apply] at hap
    obtain ⟨⟨v, t0⟩, hg, hap2⟩ := Res.bind_eq_ok.mp hap
    obtain ⟨m, hm, hap3⟩ := Res.bind_eq_ok.mp hap2
    obtain ⟨n0, hn0⟩ := (getValue_ok fuel hg).1.cell
    obtain ⟨_, ht0⟩ := getValue_ok_eager hg hn0 (hreg a n0 ha hn0).1
    subst ht0
    dsimp only at hm hap3 hrest
    simp only [Res.pure_eq, Res.ok.injEq, Prod.mk.injEq] at hap3
    obtain ⟨hc2, hs2⟩ := hap3
    subst hc2; subst hs2
    have hc := hreg a m ha (load_ok hm)
    have hp := put_agree t0 { m with value := (op m.value c).1 } ha
    obtain ⟨hlen, hag⟩ := ih hrest (hreg.after_put hc.1 hc.2.1 hc.2.2)
      (fun q hq => hL q (by simp [hq]))
    exact ⟨hlen.trans hp.1, fun i hi => (hag i hi).trans (hp.2 i hi)⟩

/-- Whenever `Tree::map` returns, with whatever fuel, the store it leaves extends the store
it started from. -/
theorem Tree.map_ext (f : T → T) {fuel : Nat} {s s2 : Store T} {p r : Ptr}
    (h : Tree.map f fuel s p = Res.ok (r, s2)) : Ext s s2 := by
  rw [Tree.map_eq] at h
  obtain ⟨⟨root, s1⟩, hc, h⟩ := Res.bind_eq_ok.mp h
  obtain ⟨⟨u, s3⟩, hap, h⟩ := Res.bind_eq_ok.mp h
  dsimp only at hap h
  cases h
  obtain ⟨hext, hreg, hroot⟩ := copy_ok fuel hc
  have hreg1 := hreg _ (le_refl _) (Region.vacuous s)
  simp only [Tree.apply] at hap
  obtain ⟨L, hL, hap⟩ := Res.bind_eq_ok.mp hap
  obtain ⟨hlen, hag⟩ := Tree.applyLoop_frame _ L hap hreg1
    (Tree.inorder_region fuel hL hreg1 hroot)
  exact Ext.of_agree hext (by have := hext.len; omega) hag

/-- C9: whenever `filter` or `map` returns, with whatever fuel, the store it leaves extends
the store it was called in: every cell that existed is still there with the same links, the
resolved cells are untouched and every cell resolves to the same value, so the tree it was
called on unfolds to the same tree of addresses and values as before; and `map` does
return on every represented tree. -/
theorem Tree.filter_map_frame :
    (∀ (T : Type) (pred : T → Bool) (fuel : Nat) (s s2 : Store T) (p r : Ptr),
      Tree.filter pred fuel s p = Res.ok (r, s2) →
        Ext s s2 ∧ (∀ t, Rep s p t → Rep s2 p t) ∧ (∀ t, Shape s p t → Shape s2 p t)) ∧
    (∀ (T : Type) (f : T → T) (fuel : Nat) (s s2 : Store T) (p r : Ptr),
      Tree.map f fuel s p = Res.ok (r, s2) →
        Ext s s2 ∧ (∀ t, Rep s p t → Rep s2 p t) ∧ (∀ t, Shape s p t → Shape s2 p t)) ∧
    (∀ (T : Type) (f : T → T) (s : Store T) (p : Ptr) (t : BT (Nat × T)), Rep s p t →
      ∃ r s2, (∃ N, ∀ fuel, N ≤ fuel → Tree.map f fuel s p = Res.ok (r, s2)) ∧
        Rep s2 p t) := by
  refine ⟨?_, ?_, ?_⟩
  · intro T pred fuel s s2 p r h
    have hext := Tree.filter_ext pred h
    exact ⟨hext, fun _ ht => ht.extend hext, fun _ ht => ht.extend_shape hext⟩
  · intro T f fuel s s2 p r h
    have hext := Tree.map_ext f h
    exact ⟨hext, fun _ ht => ht.extend hext, fun _ ht => ht.extend_shape hext⟩
  · intro T f s p t h
    obtain ⟨s2, r, t2, ⟨hext, _, _⟩, hN⟩ := Tree.map_spec f h
    exact ⟨r, s2, hN, h.extend hext⟩

/-- C9 at the tree `(1,(2,_,(3,_,_)),(4,_,_))` filtered with `v != 1`, and at the tree
`(4,(2,_,_),(6,_,_))` mapped with `v -> v*10`. -/
theorem Tree.filter_map_frame_witness :
    (∃ r s2, Tree.filter (fun v => decide (v ≠ 1)) 4 spliceStore (some 3) = Res.ok (r, s2) ∧
      Ext spliceStore s2 ∧ (∀ t, Rep spliceStore (some 3) t → Rep s2 (some 3) t) ∧
      (∀ t, Shape spliceStore (some 3) t → Shape s2 (some 3) t)) ∧
    (∃ r s2, Tree.map (fun v => v * 10) 3 smallStore (some 2) = Res.ok (r, s2) ∧
      Ext smallStore s2 ∧ (∀ t, Rep smallStore (some 2) t → Rep s2 (some 2) t) ∧
      (∀ t, Shape smallStore (some 2) t → Shape s2 (some 2) t)) :=
  ⟨⟨_, _, rfl, Tree.filter_map_frame.1 Nat (fun v => decide (v ≠ 1)) 4 spliceStore _ (some 3) _
      rfl⟩,
    ⟨_, _, rfl, Tree.filter_map_frame.2.1 Nat (fun v => v * 10) 3 smallStore _ (some 2) _
      rfl⟩⟩

/-! ## `height` -/

theorem BT.fold_height {α : Type} (t : BT α) :
    BT.fold (fun _ (x y : Nat) => max x y + 1) 0 t = BT.height t := by
  induction t with
  | nil => rfl
  | node l a r ihl ihr => simp [BT.fold, BT.height, ihl, ihr]

/-- Running `height` on a finite shape returns its height. -/
theorem Tree.height_spec {s : Store T} {p : Ptr} {t : BT Nat} (h : Shape s p t) :
    ∃ N, ∀ fuel, N ≤ fuel → Tree.height fuel s p = Res.ok (BT.height t) := by
  obtain ⟨N, hN⟩ := Tree.noValFold_spec (fun h1 h2 => max h1 h2 + 1) 0 h
  refine ⟨N, fun fuel hf => ?_⟩
  rw [← BT.fold_height]
  exact hN fuel hf

/-- C11: `height` of the empty tree is 0, of a single leaf 1, and of a node with children
`left` and `right` it is `max(height(left), height(right)) + 1`; on a finite shape it is the
height of the shape; the tree 4 with leaves 2 and 6 has height 2 and size 3. -/
theorem Tree.height_equations :
    (∀ (T : Type) (s : Store T) (fuel : Nat), Tree.height fuel s none = Res.ok 0) ∧
    (∀ (T : Type) (s : Store T) (a : Nat) (n : Node T), s.cells[a]? = some n →
      n.left = none → n.right = none → ∀ k, Tree.height (k + 1) s (some a) = Res.ok 1) ∧
    (∀ (T : Type) (s : Store T) (a : Nat) (n : Node T) (tl tr : BT Nat),
      s.cells[a]? = some n → Shape s n.left tl → Shape s n.right tr →
      ∃ N, ∀ fuel, N ≤ fuel → ∃ hl hr, Tree.height fuel s n.left = Res.ok hl ∧
        Tree.height fuel s n.right = Res.ok hr ∧
        Tree.height fuel s (some a) = Res.ok (max hl hr + 1)) ∧
    (∀ (T : Type) (s : Store T) (p : Ptr) (t : BT Nat), Shape s p t →
      ∃ N, ∀ fuel, N ≤ fuel → Tree.height fuel s p = Res.ok (BT.height t)) ∧
    (∀ k : Nat, Tree.height (k + 2) smallStore (some 2) = Res.ok 2 ∧
      Tree.size (k + 2) smallStore (some 2) = Res.ok 3) := by
  refine ⟨fun _ _ _ => rfl, ?_, ?_, fun _ _ _ _ h => Tree.height_spec h,
    fun _ => ⟨rfl, rfl⟩⟩
  · intro T s a n hn hl hr k
    simp only [Tree.height, Tree.noValFold]
    rw [Node.noValFold_succ, load_eq_ok hn]
    simp [hl, hr, Tree.noValFold]
  · intro T s a n tl tr hn hl hr
    obtain ⟨N1, hN1⟩ := Tree.height_spec hl
    obtain ⟨N2, hN2⟩ := Tree.height_spec hr
    refine ⟨max N1 N2 + 1, fun fuel hf => ?_⟩
    obtain ⟨k, rfl⟩ : ∃ k, fuel = k + 1 := ⟨fuel - 1, by omega⟩
    refine ⟨_, _, hN1 (k + 1) (by omega), hN2 (k + 1) (by omega), ?_⟩
    have h1 := hN1 k (by omega)
    have h2 := hN2 k (by omega)
    simp only [Tree.height] at h1 h2 ⊢
    simp only [Tree.noValFold]
    rw [Node.noValFold_succ, load_eq_ok hn]
    simp [h1, h2]

/-- C11 at the root of the tree `(4,(2,_,_),(6,_,_))`. -/
theorem Tree.height_equations_witness :
    (∃ N, ∀ fuel, N ≤ fuel → ∃ hl hr, Tree.height fuel smallStore (some 0) = Res.ok hl ∧
      Tree.height fuel smallStore (some 1) = Res.ok hr ∧
      Tree.height fuel smallStore (some 2) = Res.ok (max hl hr + 1)) ∧
    (∀ k, Tree.height (k + 1) smallStore (some 0) = Res.ok 1) :=
  ⟨Tree.height_equations.2.2.1 Nat smallStore 2 (Node.mkValue 4 (some 0) (some 1))
      (.node .nil 0 .nil) (.node .nil 1 .nil) rfl ⟨rfl, _, rfl, rfl, rfl⟩ ⟨rfl, _, rfl, rfl, rfl⟩,
    Tree.height_equations.2.1 Nat smallStore 0 (Node.mkLeaf 2) rfl rfl rfl⟩

/-! ## `accumulate` and the three traversal orders -/

theorem BT.preorder_map {α β : Type} (f : α → β) (t : BT α) :
    BT.preorder (BT.map f t) = (BT.preorder t).map f := by
  induction t with
  | nil => rfl
  | node l a r ihl ihr => simp [BT.map, BT.preorder, ihl, ihr]

theorem BT.postorder_map {α β : Type} (f : α → β) (t : BT α) :
    BT.postorder (BT.map f t) = (BT.postorder t).map f := by
  induction t with
  | nil => rfl
  | node l a r ihl ihr => simp [BT.map, BT.postorder, ihl, ihr]

theorem BT.listed_map {α β : Type} (o : Order) (f : α → β) (t : BT α) :
    BT.listed o (BT.map f t) = (BT.listed o t).map f := by
  cases o
  · exact BT.preorder_map f t
  · exact BT.inorder_map f t
  · exact BT.postorder_map f t

/-- Running `apply` with an operation that only reads, in any traversal order: it folds the
operation over the values of the tree in that order. -/
theorem Tree.apply_read_spec {C : Type} (g : C → T → C) (c : C) (o : Order) {s : Store T}
    {p : Ptr} {t : BT (Nat × T)} (h : Rep s p t) :
    ∃ s1, (Ext s s1 ∧ s1.cells.length = s.cells.length) ∧
      ∃ N, ∀ fuel, N ≤ fuel →
        Tree.apply (fun v x => (v, g x v)) o.run fuel s p c =
          Res.ok ((BT.listed o (BT.vals t)).foldl g c, s1) := by
  obtain ⟨N0, hN0⟩ := o.run_spec (Rep.shape h)
  obtain ⟨s1, hs1, N1, hN1⟩ := Tree.applyLoop_read g (BT.listed o t) s c
    (fun av ha => h.val_of_mem ((BT.mem_listed o t av).mp ha))
  refine ⟨s1, hs1, max N0 N1, fun fuel hf => ?_⟩
  have e1 : (BT.listed o (BT.addrs t)).map some = (BT.listed o t).map (fun av => some av.1) := by
    simp [BT.addrs, BT.listed_map]
  have e2 : (BT.listed o (BT.vals t)).foldl g c =
      (BT.listed o t).foldl (fun x av => g x av.2) c := by
    simp [BT.vals, BT.listed_map, List.foldl_map]
  simp only [Tree.apply]
  rw [hN0 fuel (by omega), e1, e2]
  exact hN1 fuel (by omega)

/-- C12: for every represented tree, operation, initial value and traversal order,
`accumulate` returns (given enough fuel) the left fold of the operation over the values of
the tree in that order, starting from the initial value; on the empty tree it returns the
initial value. -/
theorem Tree.accumulate_eq_foldl :
    (∀ (T : Type) (op : T → T → T) (init : T) (o : Order) (s : Store T) (p : Ptr)
      (t : BT (Nat × T)), Rep s p t →
      ∃ s1, (Ext s s1 ∧ s1.cells.length = s.cells.length) ∧
        ∃ N, ∀ fuel, N ≤ fuel → Tree.accumulate op init o.run fuel s p =
          Res.ok ((BT.listed o (BT.vals t)).foldl op init, s1)) ∧
    (∀ (T : Type) (op : T → T → T) (init : T) (o : Order) (s : Store T) (fuel : Nat),
      Tree.accumulate op init o.run fuel s none = Res.ok (init, s)) ∧
    (∀ k : Nat,
      Tree.accumulate (fun a v => 10 * a + v) 0 Tree.preorder (k + 2) smallStore (some 2) =
        Res.ok (426, smallStore) ∧
      Tree.accumulate (fun a v => 10 * a + v) 0 Tree.inorder (k + 2) smallStore (some 2) =
        Res.ok (246, smallStore) ∧
      Tree.accumulate (fun a v => 10 * a + v) 0 Tree.postorder (k + 2) smallStore (some 2) =
        Res.ok (264, smallStore)) := by
  refine ⟨?_, ?_, fun _ => ⟨rfl, rfl, rfl⟩⟩
  · intro T op init o s p t h
    exact Tree.apply_read_spec op init o h
  · intro T op init o s fuel
    cases o <;> rfl

/-- C12 at the tree `(4,(2,_,_),(6,_,_))` with subtraction in postorder. -/
theorem Tree.accumulate_eq_foldl_witness :
    ∃ s1, (Ext smallStore s1 ∧ s1.cells.length = smallStore.cells.length) ∧
      ∃ N, ∀ fuel, N ≤ fuel →
        Tree.accumulate (fun a v => a - v) 100 Order.post.run fuel smallStore (some 2) =
          Res.ok ((BT.listed Order.post (BT.vals smallTree)).foldl (fun a v => a - v) 100, s1) :=
  Tree.accumulate_eq_foldl.1 Nat (fun a v => a - v) 100 Order.post smallStore (some 2)
    smallTree smallStore_rep

/-! ## `is_bst` and the inorder sequence -/

/-- The BST property says that the inorder sequence of values is strictly increasing. -/
theorem BT.isBST_iff_pairwise [LinearOrder T] (t : BT T) :
    BT.IsBST t ↔ (BT.inorder t).Pairwise (fun x y => x < y) := by
  induction t with
  | nil => simp [BT.IsBST]
  | node l v r ihl ihr =>
    simp only [BT.IsBST, BT.inorder_node, List.pairwise_append, ihl, ihr, List.mem_append,
      List.mem_singleton, List.pairwise_cons, List.Pairwise.nil, List.not_mem_nil]
    constructor
    · rintro ⟨hl, hr, pl, pr⟩
      refine ⟨⟨pl, ⟨fun _ h => h.elim, trivial⟩, fun a ha b hb => hb ▸ hl a ha⟩, pr, ?_⟩
      rintro a (ha | ha) b hb
      · exact lt_trans (hl a ha) (hr b hb)
      · rw [ha]; exact hr b hb
    · rintro ⟨⟨pl, _, hl⟩, pr, hr⟩
      exact ⟨fun x hx => hl x hx v rfl, fun x hx => hr v (Or.inr rfl) x hx, pl, pr⟩

/-- C17: for every represented tree over a linear order, `is_bst` returns (given enough
fuel) true exactly when the sequence of values that the inorder traversal yields, the one
`print(inorder)` writes, is strictly increasing. -/
theorem Tree.is_bst_iff_inorder_increasing [LinearOrder T] [Inhabited T] {s : Store T}
    {p : Ptr} {t : BT (Nat × T)} (h : Rep s p t) :
    ∃ b L, (∃ s1 N, ∀ fuel, N ≤ fuel → Tree.is_bst fuel s p = Res.ok (b, s1)) ∧
      (∃ s0 N, ∀ fuel, N ≤ fuel → Tree.print Tree.inorder fuel s p = Res.ok (L, s0)) ∧
      (b = true ↔ L.Pairwise (fun x y => x < y)) := by
  obtain ⟨s1, _, hN⟩ := Tree.is_bst_run h
  obtain ⟨s0, _, h0⟩ := Tree.print_inorder_spec h
  refine ⟨_, _, ⟨s1, hN⟩, ⟨s0, h0⟩, ?_⟩
  rw [(bstFold_spec _).2, BT.isBST_iff_pairwise]

/-- C17 at the tree `(5,(3,_,_),(8,(2,_,_),_))`, whose inorder values are `[3,5,2,8]`. -/
theorem Tree.is_bst_iff_inorder_increasing_witness :
    ∃ b L, (∃ s1 N, ∀ fuel, N ≤ fuel → Tree.is_bst fuel exStore (some 3) = Res.ok (b, s1)) ∧
      (∃ s0 N, ∀ fuel, N ≤ fuel →
        Tree.print Tree.inorder fuel exStore (some 3) = Res.ok (L, s0)) ∧
      (b = true ↔ L.Pairwise (fun x y => x < y)) :=
  Tree.is_bst_iff_inorder_increasing exStore_rep

/-! ## The three traversals list the same nodes -/

theorem BT.preorder_perm {α : Type} (t : BT α) : (BT.preorder t).Perm (BT.inorder t) := by
  induction t with
  | nil => exact List.Perm.refl _
  | node l a r ihl ihr =>
    simp only [BT.preorder, BT.inorder_node]
    refine List.Perm.append ?_ ihr
    exact (List.Perm.append_left [a] ihl).trans List.perm_append_comm

theorem BT.postorder_perm {α : Type} (t : BT α) : (BT.postorder t).Perm (BT.inorder t) := by
  induction t with
  | nil => exact List.Perm.refl _
  | node l a r ihl ihr =>
    simp only [BT.postorder, BT.inorder_node]
    have h1 : ((BT.postorder l ++ BT.postorder r) ++ [a]).Perm
        ((BT.inorder l ++ BT.inorder r) ++ [a]) :=
      List.Perm.append_right [a] (List.Perm.append ihl ihr)
    refine h1.trans ?_
    rw [List.append_assoc, List.append_assoc]
    exact List.Perm.append_left _ List.perm_append_comm

theorem BT.listed_perm {α : Type} (o : Order) (t : BT α) :
    (BT.listed o t).Perm (BT.inorder t) := by
  cases o
  · exact BT.preorder_perm t
  · exact List.Perm.refl _
  · exact BT.postorder_perm t

theorem BT.count_inorder {α : Type} [DecidableEq α] (a : α) (t : BT α) :
    (BT.inorder t).count a = BT.occ a t := by
  induction t with
  | nil => rfl
  | node l b r ihl ihr =>
    simp only [BT.inorder_node, BT.occ, List.count_append, ihl, ihr, List.count_cons,
      List.count_nil, beq_iff_eq, Nat.zero_add]

theorem BT.mem_inorder_get? {α : Type} {t : BT α} {v : α} (h : v ∈ BT.inorder t) :
    ∃ pos, BT.get? t pos = some v := by
  induction t with
  | nil => simp at h
  | node l a r ihl ihr =>
    simp only [BT.inorder_node, List.mem_append, List.mem_singleton] at h
    rcases h with (h | h) | h
    · obtain ⟨pos, hpos⟩ := ihl h
      exact ⟨false :: pos, hpos⟩
    · exact ⟨[], by rw [h]; rfl⟩
    · obtain ⟨pos, hpos⟩ := ihr h
      exact ⟨true :: pos, hpos⟩

theorem List.count_some_map (l : List Nat) (a : Nat) :
    (l.map some).count (some a) = l.count a := by
  induction l with
  | nil => rfl
  | cons b l ih => simp [List.count_cons, ih]

/-- What a list of node pointers that is a permutation of the inorder addresses of `t` lists:
no null pointer, every cell as often as `t` has positions holding it, exactly the cells at the
positions of `t`; when no cell is at two positions, every node of `t` exactly once. -/
theorem BT.listed_nodes (t : BT Nat) {l : List Nat} (hperm : l.Perm (BT.inorder t)) :
    none ∉ l.map some ∧ (∀ a, (l.map some).count (some a) = BT.occ a t) ∧
    (∀ a, some a ∈ l.map some ↔ ∃ pos, BT.get? t pos = some a) ∧
    ((∀ a, BT.occ a t ≤ 1) → (l.map some).Nodup ∧
      ∀ a pos, BT.get? t pos = some a → (l.map some).count (some a) = 1) := by
  have hcount : ∀ a, (l.map some).count (some a) = BT.occ a t := by
    intro a
    rw [List.count_some_map, hperm.count_eq, BT.count_inorder]
  have hmem : ∀ a, some a ∈ l.map some ↔ ∃ pos, BT.get? t pos = some a := by
    intro a
    rw [List.mem_map_of_injective (Option.some_injective Nat), hperm.mem_iff]
    exact ⟨BT.mem_inorder_get?, fun ⟨_, hpos⟩ => BT.get?_mem_inorder hpos⟩
  refine ⟨by simp, hcount, hmem, fun hone => ⟨?_, fun a pos hpos => ?_⟩⟩
  · refine List.Nodup.map (Option.some_injective Nat) (hperm.nodup_iff.mpr ?_)
    rw [List.nodup_iff_count_le_one]
    intro a
    rw [BT.count_inorder]
    exact hone a
  · have h1 : 0 < (l.map some).count (some a) :=
      List.count_pos_iff.mpr ((hmem a).mpr ⟨pos, hpos⟩)
    have h2 := hone a
    rw [← hcount a] at h2
    omega

/-- C20 (amended): on every finite shape the three traversals return (given enough fuel)
sequences of node pointers that are permutations of one another and as long as the tree has
positions; each of them holds no null pointer, lists exactly the cells at the positions of the
tree, and lists a cell as often as the tree has positions holding it (once per path from the
root); when no cell is at two positions, each of them lists every node of the tree exactly
once.  Consequently, for an associative and commutative operation, `accumulate` returns the
same value for any two traversal orders (cells shared or not). -/
theorem Tree.traversals_perm :
    (∀ (T : Type) (s : Store T) (p : Ptr) (t : BT Nat), Shape s p t →
      ∃ lp li lq, (∃ N, ∀ fuel, N ≤ fuel → Tree.preorder fuel s p = Res.ok lp ∧
          Tree.inorder fuel s p = Res.ok li ∧ Tree.postorder fuel s p = Res.ok lq) ∧
        lp.Perm li ∧ lq.Perm li ∧ lp.Perm lq ∧ li.length = BT.size t ∧
        (∀ L, L = lp ∨ L = li ∨ L = lq →
          none ∉ L ∧ (∀ a, L.count (some a) = BT.occ a t) ∧
          (∀ a, some a ∈ L ↔ ∃ pos, BT.get? t pos = some a)) ∧
        ((∀ a, BT.occ a t ≤ 1) → ∀ L, L = lp ∨ L = li ∨ L = lq →
          L.Nodup ∧ ∀ a pos, BT.get? t pos = some a → L.count (some a) = 1)) ∧
    (∀ (T : Type) (op : T → T → T) (init : T) (s : Store T) (p : Ptr) (t : BT (Nat × T)),
      (∀ a b c, op (op a b) c = op a (op b c)) → (∀ a b, op a b = op b a) → Rep s p t →
      ∃ v, ∀ o : Order, ∃ s1 N, ∀ fuel, N ≤ fuel →
        Tree.accumulate op init o.run fuel s p = Res.ok (v, s1)) := by
  constructor
  · intro T s p t h
    obtain ⟨N1, h1⟩ := Tree.preorder_spec h
    obtain ⟨N2, h2⟩ := Tree.inorder_spec h
    obtain ⟨N3, h3⟩ := Tree.postorder_spec h
    have hp : ((BT.preorder t).map some).Perm ((BT.inorder t).map some) :=
      (BT.preorder_perm t).map some
    have hq : ((BT.postorder t).map some).Perm ((BT.inorder t).map some) :=
      (BT.postorder_perm t).map some
    have np := BT.listed_nodes t (BT.preorder_perm t)
    have ni := BT.listed_nodes t (List.Perm.refl (BT.inorder t))
    have nq := BT.listed_nodes t (BT.postorder_perm t)
    refine ⟨_, _, _, ⟨max N1 (max N2 N3), fun fuel hf =>
      ⟨h1 fuel (by omega), h2 fuel (by omega), h3 fuel (by omega)⟩⟩, hp, hq,
      hp.trans hq.symm, by rw [List.length_map, BT.length_inorder], ?_, ?_⟩
    · intro L hL
      rcases hL with rfl | rfl | rfl
      · exact ⟨np.1, np.2.1, np.2.2.1⟩
      · exact ⟨ni.1, ni.2.1, ni.2.2.1⟩
      · exact ⟨nq.1, nq.2.1, nq.2.2.1⟩
    · intro hone L hL
      rcases hL with rfl | rfl | rfl
      · exact np.2.2.2 hone
      · exact ni.2.2.2 hone
      · exact nq.2.2.2 hone
  · intro T op init s p t hassoc hcomm h
    refine ⟨(BT.inorder (BT.vals t)).foldl op init, fun o => ?_⟩
    obtain ⟨s1, _, N, hN⟩ := Tree.apply_read_spec op init o h
    refine ⟨s1, N, fun fuel hf => ?_⟩
    have hperm := BT.listed_perm o (BT.vals t)
    have hfold : (BT.listed o (BT.vals t)).foldl op init =
        (BT.inorder (BT.vals t)).foldl op init :=
      hperm.foldl_eq' (fun x _ y _ z => by
        rw [hassoc, hcomm x y, ← hassoc]) init
    rw [← hfold]
    exact hN fuel hf

/-- C20 (amended) at the tree `(4,(2,_,_),(6,_,_))`, where no cell is at two positions, with
addition. -/
theorem Tree.traversals_perm_witness :
    (∃ lp li lq, (∃ N, ∀ fuel, N ≤ fuel → Tree.preorder fuel smallStore (some 2) = Res.ok lp ∧
        Tree.inorder fuel smallStore (some 2) = Res.ok li ∧
        Tree.postorder fuel smallStore (some 2) = Res.ok lq) ∧
      lp.Perm li ∧ lq.Perm li ∧ lp.Perm lq ∧ li.length = BT.size (BT.addrs smallTree) ∧
      (∀ L, L = lp ∨ L = li ∨ L = lq →
        none ∉ L ∧ (∀ a, L.count (some a) = BT.occ a (BT.addrs smallTree)) ∧
        (∀ a, some a ∈ L ↔ ∃ pos, BT.get? (BT.addrs smallTree) pos = some a)) ∧
      (∀ L, L = lp ∨ L = li ∨ L = lq →
        L.Nodup ∧ ∀ a pos, BT.get? (BT.addrs smallTree) pos = some a →
          L.count (some a) = 1)) ∧
    ∃ v, ∀ o : Order, ∃ s1 N, ∀ fuel, N ≤ fuel →
      Tree.accumulate (fun a b => a + b) 0 o.run fuel smallStore (some 2) = Res.ok (v, s1) := by
  have hone : ∀ a, BT.occ a (BT.addrs smallTree) ≤ 1 := by
    intro a
    simp only [smallTree, BT.addrs, BT.map, BT.occ]
    split_ifs <;> omega
  obtain ⟨lp, li, lq, hrun, e1, e2, e3, e4, e5, e6⟩ :=
    Tree.traversals_perm.1 Nat smallStore (some 2) (BT.addrs smallTree)
      (Rep.shape smallStore_rep)
  exact ⟨⟨lp, li, lq, hrun, e1, e2, e3, e4, e5, e6 hone⟩,
    Tree.traversals_perm.2 Nat (fun a b => a + b) 0 smallStore (some 2) smallTree
      (fun a b c => Nat.add_assoc a b c) (fun a b => Nat.add_comm a b) smallStore_rep⟩

/-- C20 (counterexample): on the tree that `createValueNode(1, n, n)` builds, whose root has
the same cell `n` as its left and as its right child, each of the three traversals lists the
cell `n` twice, so it does not list every node exactly once; the three lists are still
permutations of one another and `accumulate` with addition gives 5 in every order. -/
theorem Tree.traversals_list_shared_node_twice :
    Shape sharedStore (some 1) (.node (.node .nil 0 .nil) 1 (.node .nil 0 .nil)) ∧
    ∀ k : Nat,
      Tree.preorder (k + 2) sharedStore (some 1) = Res.ok [some 1, some 0, some 0] ∧
      Tree.inorder (k + 2) sharedStore (some 1) = Res.ok [some 0, some 1, some 0] ∧
      Tree.postorder (k + 2) sharedStore (some 1) = Res.ok [some 0, some 0, some 1] ∧
      List.count (some 0) [some 1, some 0, some 0] = 2 ∧
      List.count (some 0) [some 0, some 1, some 0] = 2 ∧
      List.count (some 0) [some 0, some 0, some 1] = 2 ∧
      ¬ [some 0, some 1, some 0].Nodup ∧
      ∀ o : Order, (Tree.accumulate (fun a b => a + b) 0 o.run (k + 3) sharedStore (some 1)
        >>= fun x => Res.ok x.1) = Res.ok 5 :=
  ⟨⟨rfl, _, rfl, ⟨rfl, _, rfl, rfl, rfl⟩, ⟨rfl, _, rfl, rfl, rfl⟩⟩,
    fun _ => ⟨rfl, rfl, rfl, by decide, by decide, by decide, by decide,
      fun o => by cases o <;> rfl⟩⟩

/-! ## Claims about the splice of `filter` and the tuple of `is_bst` on concrete trees -/

/-- C14 (defect of the code): when the dropped node has both children, the splice does not
attach the right subtree to the rightmost node of the left subtree.  On `(1,(2,_,_),(4,_,_))`
with `v != 1` the left child 2 has no right child and `filter` dereferences a null pointer,
where the rule gives `(2,_,(4,_,_))`; on `(1,(2,_,(3,_,(7,_,_))),(4,_,_))` the right child
of node 2 is overwritten and the result has the inorder values `[2,4]`, where the rule
gives `[2,3,7,4]`: the values 3 and 7 are lost. -/
theorem Tree.filter_splice_not_rightmost :
    ∀ k : Nat,
      Tree.filter (fun v => decide (v ≠ 1)) (k + 3) twoLeavesStore (some 2) = Res.nullDeref ∧
      (Tree.print Tree.inorder (k + 4) chainStore (some 4) >>= fun o => Res.ok o.1) =
        Res.ok [2, 3, 7, 1, 4] ∧
      (Tree.filter (fun v => decide (v ≠ 1)) (k + 5) chainStore (some 4) >>= fun r =>
        Tree.print Tree.inorder (k + 5) r.2 r.1 >>= fun o => Res.ok o.1) = Res.ok [2, 4] :=
  fun _ => ⟨rfl, rfl, rfl⟩

/-- C15 (defect of the code): on the tree `(5,_,(3,_,_))` the fold of `is_bst` computes at
the root the tuple `(false, 5, 5, false)`: its min component is 5, while the smallest value
of the tree is 3 (the else branch of the min computation, line 288, takes the larger of
`val` and `rightMin`). -/
theorem Tree.is_bst_min_component_wrong :
    ∀ k : Nat,
      Tree.fold (fun val left right st => (Tree.isBstStep val left right, st))
        (true, default, default, true) (k + 3) descStore (some 1) =
        Res.ok ((false, 5, 5, false), descStore) ∧
      (Tree.print Tree.inorder (k + 2) descStore (some 1) >>= fun o => Res.ok o.1) =
        Res.ok [5, 3] :=
  fun _ => ⟨rfl, rfl⟩

/-! ## `makeCopy`: the copy is equivalent to the original -/

theorem List.foldl_snoc_eq {α : Type} (L : List α) (c : List α) :
    L.foldl (fun x v => x ++ [v]) c = c ++ L := by
  induction L generalizing c with
  | nil => simp
  | cons a L ih => simp [ih]

/-- Running `print` in any traversal order writes the values of the tree in that order. -/
theorem Tree.print_spec (o : Order) {s : Store T} {p : Ptr} {t : BT (Nat × T)}
    (h : Rep s p t) :
    ∃ s1, (Ext s s1 ∧ s1.cells.length = s.cells.length) ∧
      ∃ N, ∀ fuel, N ≤ fuel →
        Tree.print o.run fuel s p = Res.ok (BT.listed o (BT.vals t), s1) := by
  obtain ⟨s1, hs1, N, hN⟩ := Tree.apply_read_spec (fun (x : List T) v => x ++ [v]) [] o h
  refine ⟨s1, hs1, N, fun fuel hf => ?_⟩
  have := hN fuel hf
  rw [List.foldl_snoc_eq, List.nil_append] at this
  exact this

theorem BT.height_map {α β : Type} (f : α → β) (t : BT α) :
    BT.height (BT.map f t) = BT.height t := by
  induction t with
  | nil => rfl
  | node l a r ihl ihr => simp [BT.map, BT.height, ihl, ihr]

/-- C16: on every represented non-empty tree `makeCopy` returns (given enough fuel) a tree
built of fresh, distinct, eager cells, with the shape of the original and, at every
position, the value the original node resolves to; every fold, the value sequence of every
traversal, `height`, `size` and `is_bst` then give the same result on the copy as on the
original. -/
theorem Node.makeCopy_equivalent {s : Store T} {a : Nat} {t : BT (Nat × T)}
    (h : Rep s (some a) t) :
    ∃ s1 r t1, (∃ N, ∀ fuel, N ≤ fuel → Node.makeCopy fuel s a = Res.ok (r, s1)) ∧
      Ext s s1 ∧ Eager s1 r t1 ∧ BT.vals t1 = BT.vals t ∧
      (∀ x ∈ BT.inorder (BT.addrs t1), s.cells.length ≤ x ∧ x < s1.cells.length) ∧
      (BT.inorder (BT.addrs t1)).Nodup ∧
      (∀ (H : Type) (op : T → H → H → H) (init : H), ∃ v,
        (∃ s2 N, ∀ fuel, N ≤ fuel →
          Tree.fold (fun x l r st => (op x l r, st)) init fuel s1 (some a) = Res.ok (v, s2)) ∧
        (∃ s3 N, ∀ fuel, N ≤ fuel →
          Tree.fold (fun x l r st => (op x l r, st)) init fuel s1 r = Res.ok (v, s3))) ∧
      (∀ o : Order, ∃ L,
        (∃ s2 N, ∀ fuel, N ≤ fuel → Tree.print o.run fuel s1 (some a) = Res.ok (L, s2)) ∧
        (∃ s3 N, ∀ fuel, N ≤ fuel → Tree.print o.run fuel s1 r = Res.ok (L, s3))) ∧
      (∃ n N, ∀ fuel, N ≤ fuel → Tree.height fuel s1 (some a) = Res.ok n ∧
        Tree.height fuel s1 r = Res.ok n) ∧
      (∃ n N, ∀ fuel, N ≤ fuel → Tree.size fuel s1 (some a) = Res.ok n ∧
        Tree.size fuel s1 r = Res.ok n) ∧
      (∀ [LinearOrder T] [Inhabited T], ∃ b,
        (∃ s2 N, ∀ fuel, N ≤ fuel → Tree.is_bst fuel s1 (some a) = Res.ok (b, s2)) ∧
        (∃ s3 N, ∀ fuel, N ≤ fuel → Tree.is_bst fuel s1 r = Res.ok (b, s3))) := by
  obtain ⟨s1, r, t1, ⟨hext, heag, hvals, hrange, hnd, _⟩, hN⟩ := copy_spec h
  have h1 : Rep s1 (some a) t := h.extend hext
  have h2 : Rep s1 r t1 := heag.rep
  have hshape : ∀ (u : BT (Nat × T)), BT.map (fun _ => ()) (BT.addrs u) =
      BT.map (fun _ => ()) (BT.vals u) := by
    intro u; simp [BT.addrs, BT.vals, BT.map_map]
  refine ⟨s1, r, t1, hN, hext, heag, hvals, hrange, hnd, ?_, ?_, ?_, ?_, ?_⟩
  · intro H op init
    obtain ⟨s2, _, N2, hN2⟩ := Tree.fold_pure op init h1
    obtain ⟨s3, _, N3, hN3⟩ := Tree.fold_pure op init h2
    exact ⟨_, ⟨s2, N2, hN2⟩, ⟨s3, N3, hvals ▸ hN3⟩⟩
  · intro o
    obtain ⟨s2, _, N2, hN2⟩ := Tree.print_spec o h1
    obtain ⟨s3, _, N3, hN3⟩ := Tree.print_spec o h2
    exact ⟨_, ⟨s2, N2, hN2⟩, ⟨s3, N3, hvals ▸ hN3⟩⟩
  · obtain ⟨N2, hN2⟩ := Tree.height_spec (Rep.shape h1)
    obtain ⟨N3, hN3⟩ := Tree.height_spec (Rep.shape h2)
    have e : BT.height (BT.addrs t1) = BT.height (BT.addrs t) := by
      rw [← BT.height_map (fun _ => ()) (BT.addrs t1), hshape, hvals, ← hshape, BT.height_map]
    exact ⟨_, max N2 N3, fun fuel hf => ⟨hN2 fuel (by omega), e ▸ hN3 fuel (by omega)⟩⟩
  · obtain ⟨N2, hN2⟩ := Tree.noValFold_spec (fun x y => x + y + 1) 0 (Rep.shape h1)
    obtain ⟨N3, hN3⟩ := Tree.noValFold_spec (fun x y => x + y + 1) 0 (Rep.shape h2)
    have e : BT.size (BT.addrs t1) = BT.size (BT.addrs t) := by
      rw [← BT.size_map (fun _ => ()) (BT.addrs t1), hshape, hvals, ← hshape, BT.size_map]
    refine ⟨_, max N2 N3, fun fuel hf => ⟨hN2 fuel (by omega), ?_⟩⟩
    have := hN3 fuel (by omega)
    rw [BT.fold_size, e, ← BT.fold_size] at this
    exact this
  · intro _ _
    obtain ⟨s2, _, N2, hN2⟩ := Tree.is_bst_run h1
    obtain ⟨s3, _, N3, hN3⟩ := Tree.is_bst_run h2
    exact ⟨_, ⟨s2, N2, hN2⟩, ⟨s3, N3, hvals ▸ hN3⟩⟩

/-- C16 at the tree `(4,(2,_,_),(6,_,_))`. -/
theorem Node.makeCopy_equivalent_witness :
    ∃ s1 r t1, (∃ N, ∀ fuel, N ≤ fuel → Node.makeCopy fuel smallStore 2 = Res.ok (r, s1)) ∧
      Ext smallStore s1 ∧ Eager s1 r t1 ∧ BT.vals t1 = BT.vals smallTree ∧
      (∀ x ∈ BT.inorder (BT.addrs t1), smallStore.cells.length ≤ x ∧ x < s1.cells.length) ∧
      (BT.inorder (BT.addrs t1)).Nodup ∧
      (∀ o : Order, ∃ L,
        (∃ s2 N, ∀ fuel, N ≤ fuel → Tree.print o.run fuel s1 (some 2) = Res.ok (L, s2)) ∧
        (∃ s3 N, ∀ fuel, N ≤ fuel → Tree.print o.run fuel s1 r = Res.ok (L, s3))) := by
  obtain ⟨s1, r, t1, h1, h2, h3, h4, h5, h6, _, h8, _⟩ :=
    Node.makeCopy_equivalent smallStore_rep
  exact ⟨s1, r, t1, h1, h2, h3, h4, h5, h6, h8⟩

/-! ## `map` and `lazy_map` agree and compose -/

/-- C19: on every represented tree, `lazy_map(f)` and `map(f)` return (given enough fuel)
trees of the same shape that resolve to the same value at every position; the tree
`lazy_map(f).lazy_map(g)` and the tree `map(f).map(g)` resolve at every position to
`g (f v)` for the original value `v` there, and for the lazy one this is what `getValue`
and `print` return when they are run on the outer tree with nothing resolved before (the
log of calls is still the one before the two `lazy_map`s and the cells of the inner tree are
unresolved). -/
theorem Tree.map_lazy_map_agree [Inhabited T] (f g : T → T) {s : Store T} {p : Ptr}
    {t : BT (Nat × T)} (h : Rep s p t) :
    (∃ s1 r1 t1 s2 r2 t2,
      (∃ N, ∀ fuel, N ≤ fuel → Tree.lazy_map f fuel s p = Res.ok (r1, s1)) ∧
      (∃ N, ∀ fuel, N ≤ fuel → Tree.map f fuel s1 p = Res.ok (r2, s2)) ∧
      Rep s2 r1 t1 ∧ Rep s2 r2 t2 ∧ BT.vals t1 = BT.map f (BT.vals t) ∧
      BT.vals t2 = BT.vals t1) ∧
    (∃ s1 r1 t1 s2 r2 t2,
      (∃ N, ∀ fuel, N ≤ fuel → Tree.lazy_map f fuel s p = Res.ok (r1, s1)) ∧
      (∃ N, ∀ fuel, N ≤ fuel → Tree.lazy_map g fuel s1 r1 = Res.ok (r2, s2)) ∧
      Rep s2 r1 t1 ∧ Rep s2 r2 t2 ∧
      BT.vals t2 = BT.map (fun v => g (f v)) (BT.vals t) ∧ s2.calls = s.calls ∧
      (∀ av ∈ BT.inorder t1, ∃ m, s2.cells[av.1]? = some m ∧ m.resolved = false) ∧
      (∀ av ∈ BT.inorder t2, ∃ s3 N, ∀ fuel, N ≤ fuel →
        getValue fuel s2 av.1 = Res.ok (av.2, s3)) ∧
      (∃ s3 N, ∀ fuel, N ≤ fuel → Tree.print Tree.inorder fuel s2 r2 =
        Res.ok ((BT.inorder (BT.vals t)).map (fun v => g (f v)), s3))) ∧
    (∃ s1 r1 s2 r2 t2,
      (∃ N, ∀ fuel, N ≤ fuel → Tree.map f fuel s p = Res.ok (r1, s1)) ∧
      (∃ N, ∀ fuel, N ≤ fuel → Tree.map g fuel s1 r1 = Res.ok (r2, s2)) ∧
      Rep s2 r2 t2 ∧ BT.vals t2 = BT.map (fun v => g (f v)) (BT.vals t)) := by
  refine ⟨?_, ?_, ?_⟩
  · obtain ⟨extra, r1, t1, ⟨hrep1, hvals1, _⟩, hN1⟩ := Tree.lazy_map_spec f h
    have hext1 : Ext s ⟨s.cells ++ extra, s.calls⟩ := Ext.by_append s extra _
    obtain ⟨s2, r2, t2, ⟨hext2, heag2, hvals2⟩, hN2⟩ := Tree.map_spec f (h.extend hext1)
    exact ⟨_, r1, t1, s2, r2, t2, hN1, hN2, hrep1.extend hext2, heag2.rep, hvals1,
      hvals2.trans hvals1.symm⟩
  · obtain ⟨extra, r1, t1, ⟨hrep1, hvals1, _, _, hcell1⟩, hN1⟩ := Tree.lazy_map_spec f h
    obtain ⟨extra2, r2, t2, ⟨hrep2, hvals2, _⟩, hN2⟩ := Tree.lazy_map_spec g hrep1
    have hext2 : Ext (⟨s.cells ++ extra, s.calls⟩ : Store T)
        ⟨(s.cells ++ extra) ++ extra2, s.calls⟩ := Ext.by_append _ extra2 _
    have hv : BT.vals t2 = BT.map (fun v => g (f v)) (BT.vals t) := by
      rw [hvals2, hvals1, BT.map_map]
    refine ⟨_, r1, t1, _, r2, t2, hN1, hN2, hrep1.extend hext2, hrep2, hv, rfl, ?_, ?_, ?_⟩
    · intro av hav
      obtain ⟨n, _, hn, hnr, _⟩ := hcell1 av hav
      exact ⟨n, getElem?_append_some hn _, hnr⟩
    · intro av hav
      obtain ⟨s3, _, N, hN⟩ := getValue_spec (hrep2.val_of_mem hav)
      exact ⟨s3, N, hN⟩
    · obtain ⟨s3, _, N, hN⟩ := Tree.print_inorder_spec hrep2
      refine ⟨s3, N, fun fuel hf => ?_⟩
      rw [hN fuel hf, hv, BT.inorder_map]
  · obtain ⟨s1, r1, t1, ⟨_, heag1, hvals1⟩, hN1⟩ := Tree.map_spec f h
    obtain ⟨s2, r2, t2, ⟨_, heag2, hvals2⟩, hN2⟩ := Tree.map_spec g heag1.rep
    exact ⟨s1, r1, s2, r2, t2, hN1, hN2, heag2.rep, by rw [hvals2, hvals1, BT.map_map]⟩

/-- C19 at the tree `(4,(2,_,_),(6,_,_))` with `v -> v*10` and `v -> v+1`. -/
theorem Tree.map_lazy_map_agree_witness :
    ∃ s1 r1 t1 s2 r2 t2,
      (∃ N, ∀ fuel, N ≤ fuel →
        Tree.lazy_map (fun v => v * 10) fuel smallStore (some 2) = Res.ok (r1, s1)) ∧
      (∃ N, ∀ fuel, N ≤ fuel →
        Tree.lazy_map (fun v => v + 1) fuel s1 r1 = Res.ok (r2, s2)) ∧
      Rep s2 r1 t1 ∧ Rep s2 r2 t2 ∧
      BT.vals t2 = BT.map (fun v => v * 10 + 1) (BT.vals smallTree) ∧
      s2.calls = smallStore.calls ∧
      (∀ av ∈ BT.inorder t1, ∃ m, s2.cells[av.1]? = some m ∧ m.resolved = false) ∧
      (∀ av ∈ BT.inorder t2, ∃ s3 N, ∀ fuel, N ≤ fuel →
        getValue fuel s2 av.1 = Res.ok (av.2, s3)) ∧
      (∃ s3 N, ∀ fuel, N ≤ fuel → Tree.print Tree.inorder fuel s2 r2 =
        Res.ok ((BT.inorder (BT.vals smallTree)).map (fun v => v * 10 + 1), s3)) :=
  (Tree.map_lazy_map_agree (fun v => v * 10) (fun v => v + 1) smallStore_rep).2.1

/-! ## `filter` on trees: what the code computes -/

theorem BT.splice_sublist {α : Type} {l r t1 : BT α} {a : α} (h : BT.splice l r = some t1) :
    (BT.inorder t1).Sublist ((BT.inorder l ++ [a]) ++ BT.inorder r) := by
  cases l with
  | nil =>
    simp only [BT.splice, Option.some.injEq] at h
    subst h
    exact List.sublist_append_right _ _
  | node ll b lr =>
    cases lr with
    | nil => simp [BT.splice] at h
    | node x y z =>
      simp only [BT.splice, Option.some.injEq] at h
      subst h
      simp only [BT.inorder_node]
      refine List.Sublist.append ?_ (List.Sublist.refl _)
      exact (List.sublist_append_left _ _).trans (List.sublist_append_left _ _)

/-- The inorder sequence of what `filter` returns is a subsequence of the inorder sequence
of the tree. -/
theorem BT.filterCode_sublist {α : Type} (pred : α → Bool) {t t1 : BT α}
    (h : BT.filterCode pred t = some t1) : (BT.inorder t1).Sublist (BT.inorder t) := by
  induction t generalizing t1 with
  | nil =>
    simp only [BT.filterCode, Option.some.injEq] at h
    subst h
    exact List.Sublist.refl _
  | node l a r ihl ihr =>
    simp only [BT.filterCode] at h
    by_cases hp : pred a = true
    · rw [if_pos hp] at h
      cases hr : BT.filterCode pred r with
      | none => rw [hr] at h; simp at h
      | some r1 =>
        cases hl : BT.filterCode pred l with
        | none => rw [hr, hl] at h; simp at h
        | some l1 =>
          rw [hr, hl] at h
          simp only [Option.some_bind, Option.some.injEq] at h
          subst h
          simp only [BT.inorder_node]
          exact List.Sublist.append
            (List.Sublist.append (ihl hl) (List.Sublist.refl _)) (ihr hr)
    · rw [if_neg hp] at h
      exact BT.splice_sublist h

theorem BT.splice_map {α β : Type} (f : α → β) (l r : BT α) :
    BT.splice (BT.map f l) (BT.map f r) = (BT.splice l r).map (BT.map f) := by
  cases l with
  | nil => rfl
  | node ll b lr =>
    cases lr with
    | nil => rfl
    | node x y z => rfl

theorem BT.filterCode_map {α β : Type} (f : α → β) (pred : β → Bool) (t : BT α) :
    BT.filterCode pred (BT.map f t) =
      (BT.filterCode (fun a => pred (f a)) t).map (BT.map f) := by
  induction t with
  | nil => rfl
  | node l a r ihl ihr =>
    simp only [BT.map, BT.filterCode, ihl, ihr]
    by_cases hp : pred (f a) = true
    · simp only [hp, if_true]
      cases BT.filterCode (fun a => pred (f a)) r with
      | none => rfl
      | some r1 =>
        cases BT.filterCode (fun a => pred (f a)) l with
        | none => rfl
        | some l1 => rfl
    · simp only [hp, if_false]
      exact BT.splice_map f l r

/-- When every failing node is a leaf, `filter` returns the tree without those leaves. -/
theorem BT.filterCode_of_leaves {α : Type} (pred : α → Bool) {t : BT α}
    (h : BT.FailingAreLeaves pred t) :
    BT.filterCode pred t = some (BT.dropFailing pred t) := by
  induction t with
  | nil => rfl
  | node l a r ihl ihr =>
    obtain ⟨hleaf, hl, hr⟩ := h
    simp only [BT.filterCode, BT.dropFailing]
    by_cases hp : pred a = true
    · simp [hp, ihl hl, ihr hr]
    · have hp' : pred a = false := by simpa using hp
      obtain ⟨rfl, rfl⟩ := hleaf hp'
      simp [hp', BT.splice]

theorem BT.inorder_dropFailing {α : Type} (pred : α → Bool) {t : BT α}
    (h : BT.FailingAreLeaves pred t) :
    BT.inorder (BT.dropFailing pred t) = (BT.inorder t).filter pred := by
  induction t with
  | nil => rfl
  | node l a r ihl ihr =>
    obtain ⟨hleaf, hl, hr⟩ := h
    simp only [BT.dropFailing]
    by_cases hp : pred a = true
    · simp [hp, ihl hl, ihr hr, List.filter_append]
    · have hp' : pred a = false := by simpa using hp
      obtain ⟨rfl, rfl⟩ := hleaf hp'
      simp [hp']

theorem BT.get?_dropFailing {α : Type} (pred : α → Bool) {t : BT α}
    (h : BT.FailingAreLeaves pred t) (pos : List Bool) :
    BT.get? (BT.dropFailing pred t) pos = (BT.get? t pos).filter pred := by
  induction t generalizing pos with
  | nil => simp [BT.dropFailing, BT.get?]
  | node l a r ihl ihr =>
    obtain ⟨hleaf, hl, hr⟩ := h
    simp only [BT.dropFailing]
    by_cases hp : pred a = true
    · rw [if_pos hp]
      cases pos with
      | nil => simp [BT.get?, Option.filter, hp]
      | cons b pos => cases b <;> simp [BT.get?, ihl hl, ihr hr]
    · have hp' : pred a = false := by simpa using hp
      obtain ⟨rfl, rfl⟩ := hleaf hp'
      rw [if_neg hp]
      cases pos with
      | nil => simp [BT.get?, Option.filter, hp']
      | cons b pos => cases b <;> simp [BT.get?]

/-! ## `filter` on the store computes `BT.filterCode` -/

theorem Node.filter_unfold (pred : T → Bool) (k : Nat) (s : Store T) (a : Nat) (you : Ptr) :
    Node.filter pred (k + 1) s a you = (getValue k s a >>= fun r0 =>
      if pred r0.1 = true then
        load r0.2 a >>= fun n => filterRight pred k r0.2 a n >>= fun s2 =>
        load s2 a >>= fun n2 => filterLeft pred k s2 a n2 >>= fun s3 => Res.ok (you, s3)
      else
        load r0.2 a >>= fun n =>
        (match n.left with
          | none => Res.ok (put r0.2 a { n with left := n.right })
          | some l => insertIntoRight k r0.2 l n.right) >>= fun s2 =>
        load s2 a >>= fun n2 => Res.ok (n2.left, s2)) :=
  Node.filter_succ pred k s a you

theorem put_get_same {s : Store T} {a : Nat} (m : Node T) (h : a < s.cells.length) :
    (put s a m).cells[a]? = some m := by
  simp [put, List.getElem?_set, h]

theorem put_get_other {s : Store T} {a i : Nat} (m : Node T) (h : i ≠ a) :
    (put s a m).cells[i]? = s.cells[i]? := by
  simp [put, List.getElem?_set, Ne.symm h]

theorem put_length (s : Store T) (a : Nat) (m : Node T) :
    (put s a m).cells.length = s.cells.length := by
  simp [put]

/-- An eager tree is still there in a store that has the same cells at its addresses. -/
theorem Eager.agree {s s2 : Store T} {p : Ptr} {t : BT (Nat × T)} (he : Eager s p t)
    (hag : ∀ i ∈ BT.inorder (BT.addrs t), s2.cells[i]? = s.cells[i]?) : Eager s2 p t := by
  induction t generalizing p with
  | nil => exact he
  | node l av r ihl ihr =>
    obtain ⟨hp, n, hn, hz, hv, hl, hr⟩ := he
    refine ⟨hp, n, ?_, hz, hv, ihl hl (fun i hi => hag i ?_), ihr hr (fun i hi => hag i ?_)⟩
    · rw [hag av.1 (by simp)]; exact hn
    · simp [hi]
    · simp [hi]

theorem BT.filterCode_addrs_subset {pred : T → Bool} {t t1 : BT (Nat × T)}
    (h : BT.filterCode (fun av => pred av.2) t = some t1) :
    ∀ x ∈ BT.inorder (BT.addrs t1), x ∈ BT.inorder (BT.addrs t) := by
  intro x hx
  rw [BT.addrs, BT.inorder_map] at hx ⊢
  exact ((BT.filterCode_sublist _ h).map Prod.fst).subset hx

theorem filterRight_ok {pred : T → Bool} {k : Nat} {s s1 : Store T} {a : Nat} {n : Node T}
    {rr : Ptr} (hf : filterPtr pred k s n.right = Res.ok (rr, s1))
    (hn : s.cells[a]? = some n) (hm : s1.cells[a]? = some n) :
    filterRight pred k s a n = Res.ok (put s1 a { n with right := rr }) := by
  unfold filterRight
  cases hq : n.right with
  | none =>
    rw [hq] at hf
    simp only [filterPtr, Res.ok.injEq, Prod.mk.injEq] at hf
    obtain ⟨h1, h2⟩ := hf
    subst h1; subst h2
    have : ({ n with right := none } : Node T) = n := by
      obtain ⟨v, l, r, b1, b2, src, tr⟩ := n
      simp only at hq
      subst hq
      rfl
    rw [this, put_self hn]
  | some r =>
    rw [hq] at hf
    simp only [filterPtr] at hf
    simp only
    rw [hf]
    simp [load_eq_ok hm]

theorem filterRight_fault {pred : T → Bool} {k : Nat} {s : Store T} {a : Nat} {n : Node T}
    (hf : filterPtr pred k s n.right = Res.nullDeref) :
    filterRight pred k s a n = Res.nullDeref := by
  unfold filterRight
  cases hq : n.right with
  | none => rw [hq] at hf; simp [filterPtr] at hf
  | some r =>
    rw [hq] at hf
    simp only [filterPtr] at hf
    simp only
    rw [hf]
    rfl

theorem filterLeft_ok {pred : T → Bool} {k : Nat} {s s1 : Store T} {a : Nat} {n : Node T}
    {rl : Ptr} (hf : filterPtr pred k s n.left = Res.ok (rl, s1))
    (hn : s.cells[a]? = some n) (hm : s1.cells[a]? = some n) :
    filterLeft pred k s a n = Res.ok (put s1 a { n with left := rl }) := by
  unfold filterLeft
  cases hq : n.left with
  | none =>
    rw [hq] at hf
    simp only [filterPtr, Res.ok.injEq, Prod.mk.injEq] at hf
    obtain ⟨h1, h2⟩ := hf
    subst h1; subst h2
    have : ({ n with left := none } : Node T) = n := by
      obtain ⟨v, l, r, b1, b2, src, tr⟩ := n
      simp only at hq
      subst hq
      rfl
    rw [this, put_self hn]
  | some r =>
    rw [hq] at hf
    simp only [filterPtr] at hf
    simp only
    rw [hf]
    simp [load_eq_ok hm]

theorem filterLeft_fault {pred : T → Bool} {k : Nat} {s : Store T} {a : Nat} {n : Node T}
    (hf : filterPtr pred k s n.left = Res.nullDeref) :
    filterLeft pred k s a n = Res.nullDeref := by
  unfold filterLeft
  cases hq : n.left with
  | none => rw [hq] at hf; simp [filterPtr] at hf
  | some r =>
    rw [hq] at hf
    simp only [filterPtr] at hf
    simp only
    rw [hf]
    rfl

theorem insertIntoRight_some {s : Store T} {b : Nat} {nb : Node T} {y : Nat}
    (hnb : s.cells[b]? = some nb) (hy : nb.right = some y) (k : Nat) (node : Ptr) :
    insertIntoRight (k + 1) s b node = Res.ok (put s b { nb with right := node }) := by
  rw [insertIntoRight]
  simp [load_eq_ok hnb, hy]

theorem insertIntoRight_null {s : Store T} {b : Nat} {nb : Node T}
    (hnb : s.cells[b]? = some nb) (hy : nb.right = none) (k : Nat) (node : Ptr) :
    insertIntoRight (k + 1) s b node = Res.nullDeref := by
  rw [insertIntoRight]
  simp [load_eq_ok hnb, hy, callOn]


/-- On a tree of eager cells with pairwise different addresses, `Node::filter` computes
`BT.filterCode`: it returns the tree that `BT.filterCode` gives, built in place from cells of the
argument, and it dereferences a null pointer exactly where `BT.filterCode` gives nothing. -/
theorem filterPtr_refines (pred : T → Bool) (t : BT (Nat × T)) :
    ∀ {s : Store T} {q : Ptr}, Eager s q t → (BT.inorder (BT.addrs t)).Nodup →
      (∀ t1, BT.filterCode (fun av => pred av.2) t = some t1 →
        ∃ s1 r, (Eager s1 r t1 ∧ s1.cells.length = s.cells.length ∧ s1.calls = s.calls ∧
            ∀ i, i ∉ BT.inorder (BT.addrs t) → s1.cells[i]? = s.cells[i]?) ∧
          ∃ N, ∀ fuel, N ≤ fuel → filterPtr pred fuel s q = Res.ok (r, s1)) ∧
      (BT.filterCode (fun av => pred av.2) t = none →
        ∃ N, ∀ fuel, N ≤ fuel → filterPtr pred fuel s q = Res.nullDeref) := by
  induction t with
  | nil =>
    intro s q he _
    have hq : q = none := he
    subst hq
    refine ⟨fun t1 h1 => ?_, fun h => ?_⟩
    · simp only [BT.filterCode, Option.some.injEq] at h1
      subst h1
      exact ⟨s, none, ⟨rfl, rfl, rfl, fun _ _ => rfl⟩, 0, fun _ _ => rfl⟩
    · simp [BT.filterCode] at h
  | node l av r ihl ihr =>
    intro s q he hnd
    obtain ⟨hq, n, hn, hz, hv, hl, hr⟩ := he
    subst hq
    simp only [BT.addrs_node, BT.inorder_node] at hnd
    rw [List.nodup_append, List.nodup_append] at hnd
    obtain ⟨⟨ndl, _, hla⟩, ndr, hlar⟩ := hnd
    have hal : av.1 ∉ BT.inorder (BT.addrs l) := fun h => hla h (List.mem_singleton.mpr rfl)
    have har : av.1 ∉ BT.inorder (BT.addrs r) := fun h =>
      hlar (List.mem_append.mpr (Or.inr (List.mem_singleton.mpr rfl))) h
    have hdisj : ∀ x, x ∈ BT.inorder (BT.addrs l) → x ∉ BT.inorder (BT.addrs r) :=
      fun x hx hx1 => hlar (List.mem_append.mpr (Or.inl hx)) hx1
    have hlt : av.1 < s.cells.length := lt_of_getElem? hn
    have hg : ∀ k, getValue (k + 1) s av.1 = Res.ok (av.2, s) := by
      intro k
      rw [getValue_resolved hn (by simp [Node.resolved, hz]) k, hv]
    by_cases hp : pred av.2 = true
    · have hcode : BT.filterCode (fun av => pred av.2) (BT.node l av r) =
          (BT.filterCode (fun av => pred av.2) r).bind fun r1 =>
            (BT.filterCode (fun av => pred av.2) l).bind fun l1 => some (BT.node l1 av r1) := by
        simp [BT.filterCode, hp]
      cases hFr : BT.filterCode (fun av => pred av.2) r with
      | none =>
        refine ⟨fun t1 h1 => ?_, fun _ => ?_⟩
        · rw [hcode, hFr] at h1
          simp at h1
        · obtain ⟨N1, hN1⟩ := (ihr hr ndr).2 hFr
          refine ⟨N1 + 2, fun fuel hf => ?_⟩
          obtain ⟨k, rfl⟩ : ∃ k, fuel = k + 2 := ⟨fuel - 2, by omega⟩
          simp only [filterPtr]
          rw [Node.filter_unfold, hg k]
          simp only [Res.ok_bind, hp, if_true, load_eq_ok hn]
          rw [filterRight_fault (hN1 (k + 1) (by omega))]
          rfl
      | some r1 =>
        obtain ⟨s1, rr, ⟨he1, hlen1, hcalls1, hfr1⟩, N1, hN1⟩ := (ihr hr ndr).1 r1 hFr
        have hn1 : s1.cells[av.1]? = some n := by rw [hfr1 _ har]; exact hn
        have hsubr := BT.filterCode_addrs_subset hFr
        have hn2 : (put s1 av.1 { n with right := rr }).cells[av.1]? =
            some { n with right := rr } := put_get_same _ (by omega)
        have hl2 : Eager (put s1 av.1 { n with right := rr }) n.left l :=
          hl.agree (fun i hi => by
            rw [put_get_other _ (ne_of_mem_of_not_mem hi hal), hfr1 i (hdisj i hi)])
        cases hFl : BT.filterCode (fun av => pred av.2) l with
        | none =>
          refine ⟨fun t1 h1 => ?_, fun _ => ?_⟩
          · rw [hcode, hFr, hFl] at h1
            simp at h1
          · obtain ⟨N2, hN2⟩ := (ihl hl2 ndl).2 hFl
            refine ⟨N1 + N2 + 2, fun fuel hf => ?_⟩
            obtain ⟨k, rfl⟩ : ∃ k, fuel = k + 2 := ⟨fuel - 2, by omega⟩
            simp only [filterPtr]
            rw [Node.filter_unfold, hg k]
            simp only [Res.ok_bind, hp, if_true, load_eq_ok hn]
            rw [filterRight_ok (hN1 (k + 1) (by omega)) hn hn1]
            simp only [Res.ok_bind, load_eq_ok hn2]
            rw [filterLeft_fault (n := { n with right := rr }) (hN2 (k + 1) (by omega))]
            rfl
        | some l1 =>
          obtain ⟨s3, rl, ⟨he3, hlen3, hcalls3, hfr3⟩, N2, hN2⟩ := (ihl hl2 ndl).1 l1 hFl
          have hn3 : s3.cells[av.1]? = some { n with right := rr } := by
            rw [hfr3 _ hal]; exact hn2
          have hsubl := BT.filterCode_addrs_subset hFl
          refine ⟨fun t1 h1 => ?_, fun h => ?_⟩
          · rw [hcode, hFr, hFl] at h1
            simp only [Option.some_bind, Option.some.injEq] at h1
            subst h1
            refine ⟨put s3 av.1 { n with right := rr, left := rl }, some av.1,
              ⟨⟨rfl, { n with right := rr, left := rl }, put_get_same _ (by
                  rw [hlen3, put_length]; omega), hz, hv, ?_, ?_⟩, ?_, ?_, ?_⟩,
              N1 + N2 + 2, fun fuel hf => ?_⟩
            · exact he3.agree (fun i hi => put_get_other _ (ne_of_mem_of_not_mem (hsubl i hi) hal))
            · refine he1.agree (fun i hi => ?_)
              have hir := hsubr i hi
              rw [put_get_other _ (ne_of_mem_of_not_mem hir har),
                hfr3 i (fun h => hdisj i h hir),
                put_get_other _ (ne_of_mem_of_not_mem hir har)]
            · rw [put_length, hlen3, put_length, hlen1]
            · show s3.calls = s.calls
              rw [hcalls3]
              exact hcalls1
            · intro i hi
              simp only [BT.addrs_node, BT.inorder_node, List.mem_append, List.mem_singleton,
                not_or] at hi
              obtain ⟨⟨hi1, hi2⟩, hi3⟩ := hi
              rw [put_get_other _ hi2, hfr3 i hi1, put_get_other _ hi2, hfr1 i hi3]
            · obtain ⟨k, rfl⟩ : ∃ k, fuel = k + 2 := ⟨fuel - 2, by omega⟩
              simp only [filterPtr]
              rw [Node.filter_unfold, hg k]
              simp only [Res.ok_bind, hp, if_true, load_eq_ok hn]
              rw [filterRight_ok (hN1 (k + 1) (by omega)) hn hn1]
              simp only [Res.ok_bind, load_eq_ok hn2]
              rw [filterLeft_ok (n := { n with right := rr }) (hN2 (k + 1) (by omega)) hn2 hn3]
              rfl
          · rw [hcode, hFr, hFl] at h
            simp at h
    · have hcode : BT.filterCode (fun av => pred av.2) (BT.node l av r) = BT.splice l r := by
        simp [BT.filterCode, hp]
      cases l with
      | nil =>
        have hleft : n.left = none := hl
        refine ⟨fun t1 h1 => ?_, fun h => ?_⟩
        · rw [hcode] at h1
          simp only [BT.splice, Option.some.injEq] at h1
          subst h1
          refine ⟨put s av.1 { n with left := n.right }, n.right,
            ⟨hr.agree (fun i hi => put_get_other _ (ne_of_mem_of_not_mem hi har)), put_length _ _ _,
              rfl, ?_⟩, 2, fun fuel hf => ?_⟩
          · intro i hi
            simp only [BT.addrs_node, BT.inorder_node, List.mem_append, List.mem_singleton,
              not_or] at hi
            exact put_get_other _ hi.1.2
          · obtain ⟨k, rfl⟩ : ∃ k, fuel = k + 2 := ⟨fuel - 2, by omega⟩
            simp only [filterPtr]
            rw [Node.filter_unfold, hg k]
            simp only [Res.ok_bind, hp, load_eq_ok hn, hleft]
            simp [load_eq_ok (put_get_same (s := s) { n with left := n.right } hlt)]
        · rw [hcode] at h
          simp [BT.splice] at h
      | node ll bv lr =>
        obtain ⟨hleft, nb, hnb, hzb, hvb, hbl, hbr⟩ := hl
        have hba : bv.1 ≠ av.1 := fun h => hal (by simp [← h])
        have hbr_notin : bv.1 ∉ BT.inorder (BT.addrs r) := hdisj bv.1 (by simp)
        simp only [BT.addrs_node, BT.inorder_node] at ndl
        rw [List.nodup_append, List.nodup_append] at ndl
        obtain ⟨⟨_, _, hllb⟩, _, hlrb⟩ := ndl
        have hbll : bv.1 ∉ BT.inorder (BT.addrs ll) := fun h =>
          hllb h (List.mem_singleton.mpr rfl)
        cases lr with
        | nil =>
          have hright : nb.right = none := hbr
          refine ⟨fun t1 h1 => ?_, fun _ => ⟨2, fun fuel hf => ?_⟩⟩
          · rw [hcode] at h1
            simp [BT.splice] at h1
          · obtain ⟨k, rfl⟩ : ∃ k, fuel = k + 2 := ⟨fuel - 2, by omega⟩
            simp only [filterPtr]
            rw [Node.filter_unfold, hg k]
            simp only [Res.ok_bind, hp, load_eq_ok hn, hleft]
            simp only [Bool.false_eq_true, if_false]
            rw [insertIntoRight_null hnb hright]
            rfl
        | node lrl cv lrr =>
          obtain ⟨hright, _⟩ := hbr
          refine ⟨fun t1 h1 => ?_, fun h => ?_⟩
          · rw [hcode] at h1
            simp only [BT.splice, Option.some.injEq] at h1
            subst h1
            have hnA : (put s bv.1 { nb with right := n.right }).cells[av.1]? = some n := by
              rw [put_get_other _ (Ne.symm hba)]; exact hn
            refine ⟨put s bv.1 { nb with right := n.right }, some bv.1,
              ⟨⟨rfl, { nb with right := n.right }, put_get_same _ (lt_of_getElem? hnb), hzb,
                  hvb, ?_, ?_⟩, put_length _ _ _, rfl, ?_⟩, 2, fun fuel hf => ?_⟩
            · exact hbl.agree (fun i hi => put_get_other _ (ne_of_mem_of_not_mem hi hbll))
            · exact hr.agree (fun i hi => put_get_other _ (ne_of_mem_of_not_mem hi hbr_notin))
            · intro i hi
              simp only [BT.addrs_node, BT.inorder_node, List.mem_append, List.mem_singleton,
                not_or] at hi
              exact put_get_other _ hi.1.1.1.2
            · obtain ⟨k, rfl⟩ : ∃ k, fuel = k + 2 := ⟨fuel - 2, by omega⟩
              simp only [filterPtr]
              rw [Node.filter_unfold, hg k]
              simp only [Res.ok_bind, hp, load_eq_ok hn, hleft]
              simp only [Bool.false_eq_true, if_false]
              rw [insertIntoRight_some hnb hright]
              simp only [Res.ok_bind, load_eq_ok hnA, hleft]
          · rw [hcode] at h
            simp [BT.splice] at h


/-! ## More fuel never changes a result -/

theorem Res.bind_mono {α β : Type} {x x1 : Res α} {f f1 : α → Res β} {r : β}
    (h : (x >>= f) = Res.ok r) (hx : ∀ y, x = Res.ok y → x1 = Res.ok y)
    (hf : ∀ y, f y = Res.ok r → f1 y = Res.ok r) : (x1 >>= f1) = Res.ok r := by
  obtain ⟨y, hy, h2⟩ := Res.bind_eq_ok.mp h
  rw [hx y hy]
  exact hf y h2

theorem getValue_mono : ∀ (fuel : Nat) {s : Store T} {a : Nat} {r : T × Store T},
    getValue fuel s a = Res.ok r → getValue (fuel + 1) s a = Res.ok r := by
  intro fuel
  induction fuel with
  | zero => intro s a r h; simp [getValue] at h
  | succ k ih =>
    intro s a r h
    rw [getValue_succ] at h ⊢
    refine Res.bind_mono h (fun _ hy => hy) (fun n h2 => ?_)
    by_cases hr : n.resolved = true
    · rw [if_pos hr] at h2 ⊢
      exact h2
    · rw [if_neg hr] at h2 ⊢
      refine Res.bind_mono h2 (fun y hy => ?_) (fun _ h3 => h3)
      cases hsrc : n.nodeToGetValueFrom with
      | none => rw [hsrc] at hy; cases hy
      | some b =>
        rw [hsrc] at hy
        exact ih hy

theorem Tree.fold_mono {H : Type} (op : T → H → H → Store T → H × Store T) (init : H) :
    ∀ (fuel : Nat) {s : Store T} {p : Ptr} {r : H × Store T},
      Tree.fold op init fuel s p = Res.ok r → Tree.fold op init (fuel + 1) s p = Res.ok r := by
  intro fuel
  induction fuel with
  | zero =>
    intro s p r h
    cases p with
    | none => exact h
    | some a => simp [Tree.fold, Node.fold] at h
  | succ k ih =>
    intro s p r h
    cases p with
    | none => exact h
    | some a =>
      simp only [Tree.fold] at h ⊢
      rw [Node.fold_succ] at h ⊢
      refine Res.bind_mono h (fun _ hy => getValue_mono k hy) (fun r1 h2 => ?_)
      refine Res.bind_mono h2 (fun _ hy => hy) (fun n h3 => ?_)
      refine Res.bind_mono h3 (fun _ hy => ih hy) (fun r2 h4 => ?_)
      exact Res.bind_mono h4 (fun _ hy => ih hy) (fun r3 h5 => h5)

theorem insertIntoRight_mono : ∀ (k : Nat) {s s1 : Store T} {a : Nat} {node : Ptr},
    insertIntoRight k s a node = Res.ok s1 → insertIntoRight (k + 1) s a node = Res.ok s1 := by
  intro k s s1 a node h
  cases k with
  | zero => simp [insertIntoRight] at h
  | succ k =>
    rw [insertIntoRight] at h ⊢
    refine Res.bind_mono h (fun _ hy => hy) (fun n h2 => ?_)
    by_cases hr : n.right = none
    · rw [if_pos hr, hr] at h2
      cases h2
    · rw [if_neg hr] at h2 ⊢
      exact h2

theorem Node.filter_fuel_succ (pred : T → Bool) :
    ∀ (k : Nat) {s : Store T} {a : Nat} {you : Ptr} {r : Ptr × Store T},
      Node.filter pred k s a you = Res.ok r → Node.filter pred (k + 1) s a you = Res.ok r := by
  intro k
  induction k with
  | zero => intro s a you r h; simp [Node.filter] at h
  | succ k ih =>
    intro s a you r h
    rw [Node.filter_succ] at h ⊢
    refine Res.bind_mono h (fun _ hy => getValue_mono k hy) (fun r0 h2 => ?_)
    by_cases hp : pred r0.1 = true
    · rw [if_pos hp] at h2 ⊢
      refine Res.bind_mono h2 (fun _ hy => hy) (fun n h3 => ?_)
      refine Res.bind_mono h3 (fun y hy => ?_) (fun s2 h4 => ?_)
      · cases hq : n.right with
        | none => rw [hq] at hy; exact hy
        | some x =>
          rw [hq] at hy
          exact Res.bind_mono hy (fun _ hz => ih hz) (fun _ h5 => h5)
      · refine Res.bind_mono h4 (fun _ hy => hy) (fun n2 h5 => ?_)
        refine Res.bind_mono h5 (fun y hy => ?_) (fun _ h6 => h6)
        cases hq : n2.left with
        | none => rw [hq] at hy; exact hy
        | some x =>
          rw [hq] at hy
          exact Res.bind_mono hy (fun _ hz => ih hz) (fun _ h7 => h7)
    · rw [if_neg hp] at h2 ⊢
      refine Res.bind_mono h2 (fun _ hy => hy) (fun n h3 => ?_)
      refine Res.bind_mono h3 (fun y hy => ?_) (fun _ h4 => h4)
      cases hq : n.left with
      | none => rw [hq] at hy; exact hy
      | some x =>
        rw [hq] at hy
        exact insertIntoRight_mono k hy

theorem Tree.filter_mono (pred : T → Bool) {fuel : Nat} {s : Store T} {p : Ptr}
    {r : Ptr × Store T} (h : Tree.filter pred fuel s p = Res.ok r) :
    ∀ fuel1, fuel ≤ fuel1 → Tree.filter pred fuel1 s p = Res.ok r := by
  intro fuel1 hle
  induction hle with
  | refl => exact h
  | step _ ih =>
    cases p with
    | none => exact ih
    | some a =>
      simp only [Tree.filter] at ih ⊢
      refine Res.bind_mono ih (fun _ hy => Tree.fold_mono _ none _ (p := some a) hy)
        (fun y h2 => ?_)
      obtain ⟨newRoot, s1⟩ := y
      cases newRoot with
      | none => cases h2
      | some b => exact Node.filter_fuel_succ pred _ h2

/-- Total specification of `Tree::filter`: with enough fuel it returns a tree of fresh eager cells
whose values are the tree that `BT.filterCode` gives, the argument is kept, and it dereferences a
null pointer exactly where `BT.filterCode` gives nothing. -/
theorem Tree.filter_spec (pred : T → Bool) {s : Store T} {p : Ptr} {t : BT (Nat × T)}
    (h : Rep s p t) :
    (∀ u, BT.filterCode pred (BT.vals t) = some u →
      ∃ s2 r t2, (Ext s s2 ∧ Eager s2 r t2 ∧ BT.vals t2 = u) ∧
        ∃ N, ∀ fuel, N ≤ fuel → Tree.filter pred fuel s p = Res.ok (r, s2)) ∧
    (BT.filterCode pred (BT.vals t) = none →
      ∃ N, ∀ fuel, N ≤ fuel → Tree.filter pred fuel s p = Res.nullDeref) := by
  obtain ⟨s1, r1, t1, ⟨hext, he1, hvals, hfresh, hnd, _⟩, N1, hN1⟩ := copy_spec h
  have hcode : BT.filterCode pred (BT.vals t) =
      (BT.filterCode (fun av => pred av.2) t1).map BT.vals := by
    rw [← hvals]
    exact BT.filterCode_map Prod.snd pred t1
  have hrun : ∀ fuel, N1 ≤ fuel → Tree.filter pred fuel s p = filterPtr pred fuel s1 r1 := by
    intro fuel hf
    cases t with
    | nil =>
      have hp : p = none := h
      subst hp
      cases t1 with
      | nil =>
        have hr1 : r1 = none := he1
        subst hr1
        have := hN1 fuel hf
        simp only [Tree.fold, Res.pure_eq, Res.ok.injEq, Prod.mk.injEq] at this
        rw [← this.2]
        rfl
      | node l1 av1 rr1 => simp at hvals
    | node l av r =>
      obtain ⟨hp, _⟩ := h
      subst hp
      cases t1 with
      | nil => simp at hvals
      | node l1 av1 rr1 =>
        obtain ⟨hr1, _⟩ := he1
        subst hr1
        simp only [Tree.filter]
        rw [show Node.makeCopy fuel s av.1 = Res.ok (some av1.1, s1) from hN1 fuel hf]
        rfl
  refine ⟨fun u hu => ?_, fun hnone => ?_⟩
  · rw [hcode] at hu
    obtain ⟨t2, ht2, rfl⟩ := Option.map_eq_some'.mp hu
    obtain ⟨s2, r, ⟨he2, hlen, hcalls, hfr⟩, N2, hN2⟩ := (filterPtr_refines pred t1 he1 hnd).1 t2 ht2
    refine ⟨s2, r, t2, ⟨?_, he2, rfl⟩, max N1 N2, fun fuel hf => ?_⟩
    · refine Ext.of_agree hext (by have := hext.len; omega) (fun i hi => hfr i (fun hmem => ?_))
      have := (hfresh i hmem).1
      omega
    · rw [hrun fuel (by omega)]
      exact hN2 fuel (by omega)
  · rw [hcode] at hnone
    have hn1 : BT.filterCode (fun av => pred av.2) t1 = none := by
      cases hq : BT.filterCode (fun av => pred av.2) t1 with
      | none => rfl
      | some x => rw [hq] at hnone; simp at hnone
    obtain ⟨N2, hN2⟩ := (filterPtr_refines pred t1 he1 hnd).2 hn1
    refine ⟨max N1 N2, fun fuel hf => ?_⟩
    rw [hrun fuel (by omega)]
    exact hN2 fuel (by omega)


/-! ## `filter`: what it returns when it completes -/

theorem Tree.size_spec {s : Store T} {p : Ptr} {t : BT (Nat × T)} (h : Rep s p t) :
    ∃ N, ∀ fuel, N ≤ fuel → Tree.size fuel s p = Res.ok (BT.size (BT.vals t)) := by
  obtain ⟨N, hN⟩ := Tree.noValFold_spec (fun x y => x + y + 1) 0 (Rep.shape h)
  refine ⟨N, fun fuel hf => ?_⟩
  have := hN fuel hf
  rw [BT.fold_size, BT.addrs, BT.size_map] at this
  rw [BT.vals, BT.size_map]
  exact this

/-- C13: when every node whose value fails the predicate is a leaf, `filter` returns (given
enough fuel) the tree with those leaves removed: at every position the result has the value of
the argument there if it satisfies the predicate and nothing otherwise, the inorder values that
`print` lists on the result are the inorder values of the argument that satisfy the predicate,
and the argument is kept.  Filtering the empty tree gives the empty tree, filtering a single
failing node gives the empty tree, and the tree 4 with leaves 2 and 6 filtered by `v != 2` is a
tree of size 2 with the inorder values `[4, 6]`. -/
theorem Tree.filter_failing_leaves :
    (∀ (T : Type) (pred : T → Bool) (s : Store T) (p : Ptr) (t : BT (Nat × T)), Rep s p t →
      BT.FailingAreLeaves pred (BT.vals t) →
      ∃ s2 r t2, (Ext s s2 ∧ Rep s2 r t2 ∧ BT.vals t2 = BT.dropFailing pred (BT.vals t) ∧
          (∀ pos, BT.get? (BT.vals t2) pos = (BT.get? (BT.vals t) pos).filter pred) ∧
          BT.inorder (BT.vals t2) = (BT.inorder (BT.vals t)).filter pred) ∧
        (∃ N, ∀ fuel, N ≤ fuel → Tree.filter pred fuel s p = Res.ok (r, s2)) ∧
        ∃ s3 N, ∀ fuel, N ≤ fuel → Tree.print Tree.inorder fuel s2 r =
          Res.ok ((BT.inorder (BT.vals t)).filter pred, s3)) ∧
    (∀ (T : Type) (pred : T → Bool) (s : Store T) (fuel : Nat),
      Tree.filter pred fuel s none = Res.ok (none, s)) ∧
    (∀ (T : Type) (pred : T → Bool) (s : Store T) (a : Nat) (v : T),
      Rep s (some a) (BT.node BT.nil (a, v) BT.nil) → pred v = false →
      ∃ s2 N, ∀ fuel, N ≤ fuel → Tree.filter pred fuel s (some a) = Res.ok (none, s2)) ∧
    (∀ k : Nat,
      (Tree.filter (fun v => decide (v ≠ 2)) (k + 3) smallStore (some 2) >>= fun x =>
        Tree.print Tree.inorder (k + 3) x.2 x.1 >>= fun o => Res.ok o.1) = Res.ok [4, 6] ∧
      (Tree.filter (fun v => decide (v ≠ 2)) (k + 3) smallStore (some 2) >>= fun x =>
        Tree.size (k + 3) x.2 x.1) = Res.ok 2) := by
  have main : ∀ (T : Type) (pred : T → Bool) (s : Store T) (p : Ptr) (t : BT (Nat × T)),
      Rep s p t → BT.FailingAreLeaves pred (BT.vals t) →
      ∃ s2 r t2, (Ext s s2 ∧ Rep s2 r t2 ∧ BT.vals t2 = BT.dropFailing pred (BT.vals t)) ∧
        ∃ N, ∀ fuel, N ≤ fuel → Tree.filter pred fuel s p = Res.ok (r, s2) := by
    intro T pred s p t h hleaf
    obtain ⟨s2, r, t2, ⟨hext, he2, hv⟩, hN⟩ :=
      (Tree.filter_spec pred h).1 _ (BT.filterCode_of_leaves pred hleaf)
    exact ⟨s2, r, t2, ⟨hext, he2.rep, hv⟩, hN⟩
  refine ⟨?_, fun _ _ _ _ => rfl, ?_, fun _ => ⟨rfl, rfl⟩⟩
  · intro T pred s p t h hleaf
    obtain ⟨s2, r, t2, ⟨hext, h2, hv⟩, hN⟩ := main T pred s p t h hleaf
    have hino : BT.inorder (BT.vals t2) = (BT.inorder (BT.vals t)).filter pred := by
      rw [hv]
      exact BT.inorder_dropFailing pred hleaf
    obtain ⟨s3, _, N3, hN3⟩ := Tree.print_spec Order.ino h2
    refine ⟨s2, r, t2, ⟨hext, h2, hv, fun pos => ?_, hino⟩, hN, s3, N3, fun fuel hf => ?_⟩
    · rw [hv]
      exact BT.get?_dropFailing pred hleaf pos
    · rw [← hino]
      exact hN3 fuel hf
  · intro T pred s a v h hp
    obtain ⟨s2, r, t2, ⟨_, h2, hv⟩, hN⟩ := main T pred s (some a) _ h
      ⟨fun _ => ⟨rfl, rfl⟩, trivial, trivial⟩
    have ht2 : t2 = BT.nil := by
      cases t2 with
      | nil => rfl
      | node l2 av2 r2 => simp [BT.dropFailing, hp] at hv
    subst ht2
    have hr : r = none := h2
    subst hr
    exact ⟨s2, hN⟩

/-- C13 at the tree `(4,(2,_,_),(6,_,_))` with the predicate `v != 2`. -/
theorem Tree.filter_failing_leaves_witness :
    ∃ s2 r t2, (Ext smallStore s2 ∧ Rep s2 r t2 ∧
        BT.vals t2 = BT.dropFailing (fun v => decide (v ≠ 2)) (BT.vals smallTree) ∧
        (∀ pos, BT.get? (BT.vals t2) pos =
          (BT.get? (BT.vals smallTree) pos).filter (fun v => decide (v ≠ 2))) ∧
        BT.inorder (BT.vals t2) =
          (BT.inorder (BT.vals smallTree)).filter (fun v => decide (v ≠ 2))) ∧
      (∃ N, ∀ fuel, N ≤ fuel →
        Tree.filter (fun v => decide (v ≠ 2)) fuel smallStore (some 2) = Res.ok (r, s2)) ∧
      ∃ s3 N, ∀ fuel, N ≤ fuel → Tree.print Tree.inorder fuel s2 r =
        Res.ok ((BT.inorder (BT.vals smallTree)).filter (fun v => decide (v ≠ 2)), s3) :=
  Tree.filter_failing_leaves.1 Nat (fun v => decide (v ≠ 2)) smallStore (some 2) smallTree
    smallStore_rep (by simp [BT.FailingAreLeaves, smallTree, BT.vals, BT.map])

/-- C18: whenever `filter` returns, with whatever fuel (it completed without dereferencing a
null pointer), the inorder values that `print` lists on the result are a subsequence of the
inorder values it lists on the argument, `size` of the result is at most `size` of the
argument, and if `is_bst` says true on the argument it says true on the result. -/
theorem Tree.filter_inorder_sublist [LinearOrder T] [Inhabited T] (pred : T → Bool)
    {s s2 : Store T} {p r : Ptr} {t : BT (Nat × T)} {fuel : Nat} (h : Rep s p t)
    (hf : Tree.filter pred fuel s p = Res.ok (r, s2)) :
    ∃ (L L2 : List T) (n n2 : Nat) (b b2 : Bool),
      (∃ s3 s4 s5 s6 N, ∀ fuel1, N ≤ fuel1 →
        Tree.print Tree.inorder fuel1 s p = Res.ok (L, s3) ∧
        Tree.print Tree.inorder fuel1 s2 r = Res.ok (L2, s4) ∧
        Tree.size fuel1 s p = Res.ok n ∧ Tree.size fuel1 s2 r = Res.ok n2 ∧
        Tree.is_bst fuel1 s p = Res.ok (b, s5) ∧ Tree.is_bst fuel1 s2 r = Res.ok (b2, s6)) ∧
      L2.Sublist L ∧ n2 ≤ n ∧ (b = true → b2 = true) := by
  cases hc : BT.filterCode pred (BT.vals t) with
  | none =>
    obtain ⟨N, hN⟩ := (Tree.filter_spec pred h).2 hc
    have h1 := Tree.filter_mono pred hf (max N fuel) (le_max_right _ _)
    rw [hN (max N fuel) (le_max_left _ _)] at h1
    cases h1
  | some u =>
    obtain ⟨s2a, ra, t2, ⟨_, he2, hv⟩, N, hN⟩ := (Tree.filter_spec pred h).1 u hc
    have h1 := Tree.filter_mono pred hf (max N fuel) (le_max_right _ _)
    rw [hN (max N fuel) (le_max_left _ _)] at h1
    simp only [Res.ok.injEq, Prod.mk.injEq] at h1
    obtain ⟨e1, e2⟩ := h1
    subst e1
    subst e2
    have h2 : Rep s2a ra t2 := he2.rep
    have hsub : (BT.inorder (BT.vals t2)).Sublist (BT.inorder (BT.vals t)) := by
      rw [hv]
      exact BT.filterCode_sublist pred hc
    obtain ⟨s3, _, N3, hN3⟩ := Tree.print_spec Order.ino h
    obtain ⟨s4, _, N4, hN4⟩ := Tree.print_spec Order.ino h2
    obtain ⟨N5, hN5⟩ := Tree.size_spec h
    obtain ⟨N6, hN6⟩ := Tree.size_spec h2
    obtain ⟨s5, _, N7, hN7⟩ := Tree.is_bst_run h
    obtain ⟨s6, _, N8, hN8⟩ := Tree.is_bst_run h2
    refine ⟨_, _, _, _, _, _, ⟨s3, s4, s5, s6, N3 + N4 + N5 + N6 + N7 + N8, fun fuel1 hf1 =>
      ⟨hN3 fuel1 (by omega), hN4 fuel1 (by omega), hN5 fuel1 (by omega), hN6 fuel1 (by omega),
        hN7 fuel1 (by omega), hN8 fuel1 (by omega)⟩⟩, hsub, ?_, ?_⟩
    · rw [← BT.length_inorder, ← BT.length_inorder]
      exact hsub.length_le
    · intro hb
      rw [(bstFold_spec _).2, BT.isBST_iff_pairwise] at hb ⊢
      exact hb.sublist hsub

/-- C18 at the tree `(4,(2,_,_),(6,_,_))` filtered with `v != 2`. -/
theorem Tree.filter_inorder_sublist_witness :
    ∃ r s2, Tree.filter (fun v => decide (v ≠ 2)) 3 smallStore (some 2) = Res.ok (r, s2) ∧
      ∃ (L L2 : List Nat) (n n2 : Nat) (b b2 : Bool),
        (∃ s3 s4 s5 s6 N, ∀ fuel1, N ≤ fuel1 →
          Tree.print Tree.inorder fuel1 smallStore (some 2) = Res.ok (L, s3) ∧
          Tree.print Tree.inorder fuel1 s2 r = Res.ok (L2, s4) ∧
          Tree.size fuel1 smallStore (some 2) = Res.ok n ∧ Tree.size fuel1 s2 r = Res.ok n2 ∧
          Tree.is_bst fuel1 smallStore (some 2) = Res.ok (b, s5) ∧
          Tree.is_bst fuel1 s2 r = Res.ok (b2, s6)) ∧
        L2.Sublist L ∧ n2 ≤ n ∧ (b = true → b2 = true) :=
  ⟨_, _, rfl, Tree.filter_inorder_sublist (fun v => decide (v ≠ 2)) smallStore_rep
    (rfl : Tree.filter (fun v => decide (v ≠ 2)) 3 smallStore (some 2) = _)⟩

end BinaryTree
